import Mathlib

/-!
Verification of the `serde-json-core` typed JSON codec core.

Bytes are modelled as `Nat` (values < 256 in practice); byte buffers as
`List Nat`.  The deserializer (`src/de/mod.rs`) is a cursor over an
immutable byte slice; the serializer (`src/ser/mod.rs`) is a fixed-capacity
output buffer with a write cursor.  Each Rust function is translated into a
Lean function of the same name (camel-cased where needed); machine integers
become `Nat`/`Int` with the width bounds made explicit parameters, matching
the monomorphised macro instances in the source.

The source's `loop` constructs are total because every iteration consumes
input; here they are written with an explicit fuel argument (structural
recursion), and the public wrappers supply fuel that provably suffices
(`remaining input + 1`), so the embedding computes by `rfl`/`decide`.
-/

namespace SerdeJsonCore

/-- Deserialization errors, from `de::Error` in `src/de/mod.rs`. -/
inductive DeErr where
  | EofWhileParsingList
  | EofWhileParsingObject
  | EofWhileParsingString
  | EofWhileParsingNumber
  | EofWhileParsingValue
  | ExpectedColon
  | ExpectedListCommaOrEnd
  | ExpectedObjectCommaOrEnd
  | ExpectedSomeIdent
  | ExpectedSomeValue
  | InvalidNumber
  | InvalidType
  | InvalidUnicodeCodePoint
  | KeyMustBeAString
  | TrailingCharacters
  | TrailingComma
  | CustomError
  deriving DecidableEq, Repr

/-- Is a byte one of the four JSON whitespace bytes (space, LF, TAB, CR)? -/
def isWs (c : Nat) : Bool := c = 32 ∨ c = 10 ∨ c = 9 ∨ c = 13

/-- The deserializer state: `Deserializer { slice, index }` in `src/de/mod.rs`. -/
structure De where
  slice : List Nat
  index : Nat
  deriving DecidableEq, Repr

namespace De

/-- `Deserializer::peek`. -/
def peek (de : De) : Option Nat := de.slice[de.index]?

/-- `Deserializer::eat_char`. -/
def eatChar (de : De) : De := { de with index := de.index + 1 }

@[simp] theorem eatChar_slice (de : De) : de.eatChar.slice = de.slice := rfl

@[simp] theorem eatChar_index (de : De) : de.eatChar.index = de.index + 1 := rfl

theorem peek_some_lt {de : De} {c : Nat} (h : de.peek = some c) :
    de.index < de.slice.length := by
  have := List.getElem?_eq_some.mp h
  exact this.1

/-- Bytes remaining in front of the cursor; fuel bound for the scan loops. -/
def remaining (de : De) : Nat := de.slice.length - de.index

theorem remaining_eatChar_lt {de : De} {c : Nat} (h : de.peek = some c) :
    de.eatChar.remaining < de.remaining := by
  have := peek_some_lt h
  simp only [remaining, eatChar_slice, eatChar_index]
  omega

/-- `Deserializer::next_char`. -/
def nextChar (de : De) : De × Option Nat :=
  match de.peek with
  | some c => (de.eatChar, some c)
  | none => (de, none)

/-- Loop body of `Deserializer::parse_whitespace`, on explicit fuel. -/
def parseWhitespaceF : Nat → De → De × Option Nat
  | 0, de => (de, de.peek)
  | fuel + 1, de =>
    match de.peek with
    | some c => if isWs c then parseWhitespaceF fuel de.eatChar else (de, some c)
    | none => (de, none)

/-- `Deserializer::parse_whitespace`: consume whitespace, return a peek at the
next byte. -/
def parseWhitespace (de : De) : De × Option Nat :=
  parseWhitespaceF (de.remaining + 1) de

/-- `Deserializer::end`: succeed with the final index iff only whitespace
remains. -/
def end_ (de : De) : Except DeErr Nat :=
  match de.parseWhitespace with
  | (_, some _) => .error .TrailingCharacters
  | (de', none) => .ok de'.index

/-- `Deserializer::parse_ident`: match a fixed byte sequence. -/
def parseIdent (de : De) : List Nat → Except DeErr De
  | [] => .ok de
  | c :: rest =>
    match de.nextChar with
    | (de', some c') => if c = c' then de'.parseIdent rest else .error .ExpectedSomeIdent
    | (_, none) => .error .ExpectedSomeIdent

/-- `Deserializer::end_seq`: close a sequence after the visitor is done. -/
def endSeq (de : De) : Except DeErr De :=
  match de.parseWhitespace with
  | (_, none) => .error .EofWhileParsingList
  | (de, some c) =>
    if c = 93 then .ok de.eatChar
    else if c = 44 then
      match de.eatChar.parseWhitespace with
      | (_, some p) =>
        if p = 93 then .error .TrailingComma else .error .TrailingCharacters
      | (_, none) => .error .TrailingCharacters
    else .error .TrailingCharacters

/-- `Deserializer::end_map`: close an object after the visitor is done. -/
def endMap (de : De) : Except DeErr De :=
  match de.parseWhitespace with
  | (_, none) => .error .EofWhileParsingObject
  | (de, some c) =>
    if c = 125 then .ok de.eatChar
    else if c = 44 then .error .TrailingComma
    else .error .TrailingCharacters

/-- `Deserializer::parse_object_colon`. -/
def parseObjectColon (de : De) : Except DeErr De :=
  match de.parseWhitespace with
  | (_, none) => .error .EofWhileParsingObject
  | (de, some c) =>
    if c = 58 then .ok de.eatChar else .error .ExpectedColon

end De

/-- A deserializer state transported into a padded input: the slice gains a
prefix `w` and a suffix `t`, the cursor shifts by `w.length`. -/
def padSt (w t : List Nat) (de : De) : De :=
  ⟨w ++ de.slice ++ t, w.length + de.index⟩

/-- `from_slice`, generic in the target's deserialize routine `D`:
deserialize one value, then `Deserializer::end`. -/
def fromSliceD {α : Type} (D : De → Except DeErr (α × De)) (s : List Nat) :
    Except DeErr (α × Nat) := do
  let (v, de) ← D ⟨s, 0⟩
  let n ← de.end_
  .ok (v, n)

/-- `deserialize_bool` with the identity visitor: the value a `bool` target
receives. -/
def deserializeBool (de : De) : Except DeErr (Bool × De) :=
  match de.parseWhitespace with
  | (_, none) => .error .EofWhileParsingValue
  | (de, some c) =>
    if c = 116 then do
      let de ← de.eatChar.parseIdent [114, 117, 101]
      .ok (true, de)
    else if c = 102 then do
      let de ← de.eatChar.parseIdent [97, 108, 115, 101]
      .ok (false, de)
    else .error .InvalidType

/-- `from_slice` for a `bool` target: deserialize, then check only whitespace
remains (`Deserializer::end`). -/
def fromSliceBool : List Nat → Except DeErr (Bool × Nat) :=
  fromSliceD deserializeBool

example : fromSliceBool [116, 114, 117, 101] = .ok (true, 4) := rfl
example : fromSliceBool [32, 116, 114, 117, 101, 32] = .ok (true, 6) := rfl
example : fromSliceBool [116, 114, 117, 101, 102] = .error .TrailingCharacters := rfl

/-! ### Integer parsing (`deserialize_unsigned!` / `deserialize_signed!` macros)

The macros are monomorphised per width in the source; here the width is the
explicit bound: `max` is the largest representable value of the unsigned
type, `(min, max)` the range of the signed type.  `checked_mul` /
`checked_add` return `none` exactly when the machine result would leave the
range. -/

/-- `uxx::checked_mul` / `checked_add` combined step bound check. -/
def uChecked (max n : Nat) : Option Nat := if n ≤ max then some n else none

/-- Is a byte an ASCII digit `b'0'..=b'9'`? -/
def isDigit (c : Nat) : Bool := 48 ≤ c ∧ c ≤ 57

/-- The digit-accumulation `loop` of `deserialize_unsigned!`, on fuel. -/
def parseUnsignedLoopF (max : Nat) : Nat → Nat → De → Except DeErr (Nat × De)
  | 0, number, de => .ok (number, de)
  | fuel + 1, number, de =>
    match de.peek with
    | some c =>
      if isDigit c then
        match uChecked max (number * 10) with
        | none => .error .InvalidNumber
        | some n10 =>
          match uChecked max (n10 + (c - 48)) with
          | none => .error .InvalidNumber
          | some n => parseUnsignedLoopF max fuel n de.eatChar
      else .ok (number, de)
    | none => .ok (number, de)

/-- `deserialize_unsigned!(self, visitor, uxx, visit_uxx)` with the identity
visitor; `max` is `uxx::MAX`. -/
def deserializeUnsigned (max : Nat) (de : De) : Except DeErr (Nat × De) :=
  match de.parseWhitespace with
  | (_, none) => .error .EofWhileParsingValue
  | (de, some peek) =>
    if peek = 45 then .error .InvalidNumber
    else if peek = 48 then .ok (0, de.eatChar)
    else if 49 ≤ peek ∧ peek ≤ 57 then
      parseUnsignedLoopF max (de.remaining + 1) (peek - 48) de.eatChar
    else .error .InvalidType

/-- `ixx::checked_mul` / `checked_add` range check. -/
def iChecked (min max : Int) (n : Int) : Option Int :=
  if min ≤ n ∧ n ≤ max then some n else none

/-- The digit-accumulation `loop` of `deserialize_signed!`, on fuel; the
digit is negated before accumulation when the number is negative. -/
def parseSignedLoopF (min max : Int) (signed : Bool) :
    Nat → Int → De → Except DeErr (Int × De)
  | 0, number, de => .ok (number, de)
  | fuel + 1, number, de =>
    match de.peek with
    | some c =>
      if isDigit c then
        match iChecked min max (number * 10) with
        | none => .error .InvalidNumber
        | some n10 =>
          match iChecked min max
              (n10 + (c - 48 : Nat) * (if signed then -1 else 1)) with
          | none => .error .InvalidNumber
          | some n => parseSignedLoopF min max signed fuel n de.eatChar
      else .ok (number, de)
    | none => .ok (number, de)

/-- The digit-dispatch part of `deserialize_signed!` after the sign has been
consumed (the code below the `let signed = ...` line); `(min, max)` are
`ixx::MIN` / `ixx::MAX`. -/
def signedBody (min max : Int) (signed : Bool) (de : De) :
    Except DeErr (Int × De) :=
  match de.peek with
  | none => .error .EofWhileParsingValue
  | some c =>
    if c = 48 then .ok (0, de.eatChar)
    else if 49 ≤ c ∧ c ≤ 57 then
      parseSignedLoopF min max signed (de.eatChar.remaining + 1)
        ((c - 48 : Nat) * (if signed then -1 else 1)) de.eatChar
    else .error .InvalidType

/-- `deserialize_signed!` with the identity visitor:
`let signed = match parse_whitespace()? { b'-' => { eat_char(); true },
 _ => false }`, then the digit dispatch. -/
def deserializeSigned (min max : Int) (de : De) : Except DeErr (Int × De) :=
  match de.parseWhitespace with
  | (_, none) => .error .EofWhileParsingValue
  | (de, some c0) =>
    if c0 = 45 then signedBody min max true de.eatChar
    else signedBody min max false de

/-- `from_slice` for an unsigned integer target of the given width. -/
def fromSliceU (max : Nat) : List Nat → Except DeErr (Nat × Nat) :=
  fromSliceD (deserializeUnsigned max)

/-- `from_slice` for a signed integer target of the given width. -/
def fromSliceI (min max : Int) : List Nat → Except DeErr (Int × Nat) :=
  fromSliceD (deserializeSigned min max)

-- "255" into u8 is 255; "256" overflows; "-1" is InvalidNumber.
example : fromSliceU 255 [50, 53, 53] = .ok (255, 3) := rfl
example : fromSliceU 255 [50, 53, 54] = .error .InvalidNumber := rfl
example : fromSliceU 255 [45, 49] = .error .InvalidNumber := rfl
-- "-128" into i8 is -128; "-129" overflows; "127" fits; "128" overflows.
example : fromSliceI (-128) 127 [45, 49, 50, 56] = .ok (-128, 4) := rfl
example : fromSliceI (-128) 127 [45, 49, 50, 57] = .error .InvalidNumber := rfl
example : fromSliceI (-128) 127 [49, 50, 55] = .ok (127, 3) := rfl
example : fromSliceI (-128) 127 [49, 50, 56] = .error .InvalidNumber := rfl

/-! ### Sequences (`src/de/seq.rs` and `deserialize_seq`) -/

/-- `SeqAccess::next_element_seed`, parametrised by the element decoder
(`seed.deserialize`); returns the element (or `none` at `]`, which is left
for `end_seq`) and the updated `first` flag. -/
def seqNextElement {α : Type} (elem : De → Except DeErr (α × De)) (first : Bool)
    (de : De) : Except DeErr (Option α × Bool × De) :=
  match de.parseWhitespace with
  | (_, none) => .error .EofWhileParsingList
  | (de, some c) =>
    if c = 93 then .ok (none, first, de)
    else if c = 44 then
      match de.eatChar.parseWhitespace with
      | (_, none) => .error .EofWhileParsingValue
      | (de, some p) =>
        if p = 93 then .error .TrailingComma
        else do
          let (v, de) ← elem de
          .ok (some v, first, de)
    else if first then
      -- `c` cannot be `b']'` here, so the trailing-comma test is `false`
      do
        let (v, de) ← elem de
        .ok (some v, false, de)
    else .error .ExpectedListCommaOrEnd

/-- `deserialize_seq` for a two-element array target: serde's array visitor
pulls exactly two elements (reporting a length mismatch through
`Error::custom`), then the deserializer runs `end_seq`. -/
def deserializeArr2 {α : Type} (elem : De → Except DeErr (α × De)) (de : De) :
    Except DeErr ((α × α) × De) :=
  match de.parseWhitespace with
  | (_, none) => .error .EofWhileParsingValue
  | (de, some c) =>
    if c = 91 then do
      let de := de.eatChar
      let (o₁, first, de) ← seqNextElement elem true de
      match o₁ with
      | none => .error .CustomError
      | some v₁ => do
        let (o₂, _, de) ← seqNextElement elem first de
        match o₂ with
        | none => .error .CustomError
        | some v₂ => do
          let de ← de.endSeq
          .ok ((v₁, v₂), de)
    else .error .InvalidType

/-- The `i32` element decoder. -/
def elemI32 : De → Except DeErr (Int × De) :=
  deserializeSigned (-2147483648) 2147483647

/-- `from_slice` for an `[i32; 2]` target. -/
def fromSliceArr2I32 : List Nat → Except DeErr ((Int × Int) × Nat) :=
  fromSliceD (deserializeArr2 elemI32)

-- `[0, 1]` decodes as (0, 1); `[0, 1,]` is a trailing comma.
example : fromSliceArr2I32 [91, 48, 44, 32, 49, 93] = .ok ((0, 1), 6) := rfl
example : fromSliceArr2I32 [91, 48, 44, 32, 49, 44, 93] = .error .TrailingComma := rfl
example : fromSliceArr2I32 [91, 48, 44, 32, 49, 44, 32, 93] = .error .TrailingComma := rfl
-- `[0 1]`: not a comma after an element
example : fromSliceArr2I32 [91, 48, 32, 49, 93] = .error .ExpectedListCommaOrEnd := rfl

/-! ### String parsing (`Deserializer::parse_str`) -/

/-- Is a byte a UTF-8 continuation byte (`0x80..=0xBF`)? -/
def isCont (c : Nat) : Bool := 0x80 ≤ c ∧ c ≤ 0xBF

/-- `core::str::from_utf8` validity: the standard UTF-8 acceptance automaton
(shortest forms only, surrogates rejected, max `U+10FFFF`). -/
def isValidUtf8 : List Nat → Bool
  | [] => true
  | c :: rest =>
    if c ≤ 0x7F then isValidUtf8 rest
    else if 0xC2 ≤ c ∧ c ≤ 0xDF then
      match rest with
      | c1 :: rest => isCont c1 && isValidUtf8 rest
      | [] => false
    else if c = 0xE0 then
      match rest with
      | c1 :: c2 :: rest => (0xA0 ≤ c1 && c1 ≤ 0xBF) && isCont c2 && isValidUtf8 rest
      | _ => false
    else if (0xE1 ≤ c ∧ c ≤ 0xEC) ∨ c = 0xEE ∨ c = 0xEF then
      match rest with
      | c1 :: c2 :: rest => isCont c1 && isCont c2 && isValidUtf8 rest
      | _ => false
    else if c = 0xED then
      match rest with
      | c1 :: c2 :: rest => (0x80 ≤ c1 && c1 ≤ 0x9F) && isCont c2 && isValidUtf8 rest
      | _ => false
    else if c = 0xF0 then
      match rest with
      | c1 :: c2 :: c3 :: rest =>
        (0x90 ≤ c1 && c1 ≤ 0xBF) && isCont c2 && isCont c3 && isValidUtf8 rest
      | _ => false
    else if 0xF1 ≤ c ∧ c ≤ 0xF3 then
      match rest with
      | c1 :: c2 :: c3 :: rest => isCont c1 && isCont c2 && isCont c3 && isValidUtf8 rest
      | _ => false
    else if c = 0xF4 then
      match rest with
      | c1 :: c2 :: c3 :: rest =>
        (0x80 ≤ c1 && c1 ≤ 0x8F) && isCont c2 && isCont c3 && isValidUtf8 rest
      | _ => false
    else false

/-- The `leading_backslashes` closure in `parse_str`: the number of
consecutive `b'\\'` bytes immediately below `index`.  The source loop relies
on a non-backslash byte (the opening quote) existing below `index`; the
model simply counts within the available prefix. -/
def countBackslashes (slice : List Nat) (index : Nat) : Nat :=
  ((slice.take index).reverse.takeWhile (· = 92)).length

/-- `&slice[start..stop]`. -/
def subSlice (slice : List Nat) (start stop : Nat) : List Nat :=
  (slice.take stop).drop start

/-- The scan loop of `Deserializer::parse_str`, on fuel: find the first
unescaped `b'"'`, return the raw span from `start` (UTF-8 checked, no
un-escaping). -/
def parseStrF (start : Nat) : Nat → De → Except DeErr (List Nat × De)
  | 0, _ => .error .EofWhileParsingString
  | fuel + 1, de =>
    match de.peek with
    | some c =>
      if c = 34 then
        if countBackslashes de.slice de.index % 2 = 1 then
          parseStrF start fuel de.eatChar
        else
          let span := subSlice de.slice start de.index
          if isValidUtf8 span then .ok (span, de.eatChar)
          else .error .InvalidUnicodeCodePoint
      else parseStrF start fuel de.eatChar
    | none => .error .EofWhileParsingString

/-- `Deserializer::parse_str`. -/
def parseStr (de : De) : Except DeErr (List Nat × De) :=
  parseStrF de.index (de.remaining + 1) de

/-- `deserialize_str` with the borrowing visitor: requires an opening `"`,
then the zero-copy `parse_str` span. -/
def deserializeStr (de : De) : Except DeErr (List Nat × De) :=
  match de.parseWhitespace with
  | (_, none) => .error .EofWhileParsingValue
  | (de, some c) =>
    if c = 34 then parseStr de.eatChar
    else .error .InvalidType

/-- `from_slice` for a `&str` target: the value is the raw escaped span. -/
def fromSliceStr : List Nat → Except DeErr (List Nat × Nat) :=
  fromSliceD deserializeStr

-- `" \"hel\\tlo\" "` keeps the escape un-decoded: value is `hel\tlo` raw.
example :
    fromSliceStr [32, 34, 104, 101, 108, 92, 116, 108, 111, 34, 32] =
      .ok ([104, 101, 108, 92, 116, 108, 111], 11) := rfl
-- `"\""` (escaped quote inside): span is `\"`.
example : fromSliceStr [34, 92, 34, 34] = .ok ([92, 34], 4) := rfl
-- `"\\"`: even number of backslashes, the second quote closes.
example : fromSliceStr [34, 92, 92, 34] = .ok ([92, 92], 4) := rfl
-- unterminated string
example : fromSliceStr [34, 97, 98] = .error .EofWhileParsingString := rfl
-- invalid UTF-8 in the span (lone continuation byte)
example : fromSliceStr [34, 128, 34] = .error .InvalidUnicodeCodePoint := rfl

/-! ### Float parsing glue (`deserialize_fromstr!`)

The byte-run slicing and hand-off to `FromStr` is the repository's code;
the numeric conversion itself (`f32::from_str` / `f64::from_str`) and the
`ryu` formatter are external crates, abstracted as parameters. -/

/-- The float pattern `b"0123456789+-.eE"`. -/
def isFloatByte (c : Nat) : Bool :=
  isDigit c ∨ c = 43 ∨ c = 45 ∨ c = 46 ∨ c = 101 ∨ c = 69

/-- The chomp loop of `deserialize_fromstr!`: consume bytes in the pattern. -/
def floatChompF : Nat → De → De
  | 0, de => de
  | fuel + 1, de =>
    match de.peek with
    | some c => if isFloatByte c then floatChompF fuel de.eatChar else de
    | none => de

/-- `deserialize_f32`/`deserialize_f64` with the identity visitor,
parametrised by the external `FromStr` conversion `fromStr`. -/
def deserializeFloat {F : Type} (fromStr : List Nat → Option F) (de : De) :
    Except DeErr (F × De) :=
  match de.parseWhitespace with
  | (_, none) => .error .EofWhileParsingValue
  | (de, some _) =>
    let start := de.index
    let de := floatChompF (de.remaining + 1) de
    match fromStr (subSlice de.slice start de.index) with
    | none => .error .InvalidNumber
    | some v => .ok (v, de)

/-- `from_slice` for a float target. -/
def fromSliceFloat {F : Type} (fromStr : List Nat → Option F) :
    List Nat → Except DeErr (F × Nat) :=
  fromSliceD (deserializeFloat fromStr)

/-! ### Ignoring unknown values (`deserialize_ignored_any`)

`deserialize_ignored_any` dispatches on the first non-whitespace byte:
strings and containers are parsed structurally (with the `IgnoredAny`
visitor pulling and discarding every element/entry), while anything else is
chomped up to the next delimiter without validation.  The seq side reuses
the `SeqAccess` logic of `src/de/seq.rs`; the object side (`MapAccess`,
`src/de/map.rs`) is not part of the provided sources and is modelled from
the spec.  Fuel decreases on every call edge; every edge consumes input, so
a fuel linear in the remaining input suffices. -/

/-- The bare-literal chomp loop of `deserialize_ignored_any`: consume bytes
until `,`, `}` or `]`, with no validation of what is skipped. -/
def ignoredChompF : Nat → De → Except DeErr De
  | 0, _ => .error .EofWhileParsingString
  | fuel + 1, de =>
    match de.peek with
    | some c =>
      if c = 44 ∨ c = 125 ∨ c = 93 then .ok de
      else ignoredChompF fuel de.eatChar
    | none => .error .EofWhileParsingString

/-- The ASCII bytes of `"temperature"`. -/
def tempKey : List Nat := [116, 101, 109, 112, 101, 114, 97, 116, 117, 114, 101]

mutual

/-- `deserialize_ignored_any` (with `IgnoredAny`'s visitor), on fuel. -/
def ignoredAnyF : Nat → De → Except DeErr De
  | 0, _ => .error .EofWhileParsingValue
  | fuel + 1, de =>
    match de.parseWhitespace with
    | (_, none) => .error .EofWhileParsingValue
    | (de, some c) =>
      if c = 34 then
        match deserializeStr de with
        | .ok (_, de) => .ok de
        | .error e => .error e
      else if c = 91 then
        match ignoredSeqF fuel true de.eatChar with
        | .ok de => de.endSeq
        | .error e => .error e
      else if c = 123 then
        match ignoredMapF fuel true de.eatChar with
        | .ok de => de.endMap
        | .error e => .error e
      else if c = 44 ∨ c = 125 ∨ c = 93 then .error .ExpectedSomeValue
      else ignoredChompF (fuel + 1) de

/-- `IgnoredAny`'s `visit_seq`: pull (and discard) elements until `None`. -/
def ignoredSeqF : Nat → Bool → De → Except DeErr De
  | 0, _, _ => .error .EofWhileParsingList
  | fuel + 1, first, de =>
    match seqNextElement (fun d => (ignoredAnyF fuel d).map (fun d => ((), d)))
        first de with
    | .error e => .error e
    | .ok (none, _, de) => .ok de
    | .ok (some _, first, de) => ignoredSeqF fuel first de

/-- `IgnoredAny`'s `visit_map` loop.

Modelled from the spec: `MapAccess` (`src/de/map.rs`) is not among the
provided sources; §4.2 prescribes: repeatedly read a string key, require
`:`, decode (here: discard) the value, then expect `,` (continue) or `}`
(stop); `}` immediately after a comma is a trailing-comma error; a
non-string key is a key-must-be-a-string error. -/
def ignoredMapF : Nat → Bool → De → Except DeErr De
  | 0, _, _ => .error .EofWhileParsingObject
  | fuel + 1, first, de =>
    match de.parseWhitespace with
    | (_, none) => .error .EofWhileParsingObject
    | (de, some c) =>
      if c = 125 then .ok de
      else if first then
        if c = 34 then
          match ignoredEntryF fuel de with
          | .error e => .error e
          | .ok de => ignoredMapF fuel false de
        else .error .KeyMustBeAString
      else if c = 44 then
        match de.eatChar.parseWhitespace with
        | (_, none) => .error .EofWhileParsingObject
        | (de, some p) =>
          if p = 125 then .error .TrailingComma
          else if p = 34 then
            match ignoredEntryF fuel de with
            | .error e => .error e
            | .ok de => ignoredMapF fuel false de
          else .error .KeyMustBeAString
      else .error .ExpectedObjectCommaOrEnd

/-- Modelled from the spec: one ignored object entry, cursor on the opening
`"` of the key: read the key string, require `:`, discard the value. -/
def ignoredEntryF : Nat → De → Except DeErr De
  | 0, _ => .error .EofWhileParsingObject
  | fuel + 1, de =>
    match parseStr de.eatChar with
    | .error e => .error e
    | .ok (_, de) =>
      match de.parseObjectColon with
      | .error e => .error e
      | .ok de => ignoredAnyF fuel de

end

/-- `deserialize_ignored_any` entry point, with fuel that always suffices
(every call edge consumes at least one byte per three fuel units). -/
def ignoredAny (de : De) : Except DeErr De :=
  ignoredAnyF (4 * de.remaining + 4) de

/-! ### Struct decoding for a one-field target (`{ temperature: u8 }`)

Modelled from the spec (§4.2 Map/Struct; the repository's `MapAccess` in
`src/de/map.rs` is not among the provided sources): the serde-derive
visitor decodes the recognized `"temperature"` key with the `u8` decoder
and discards every other value through `deserialize_ignored_any`; a
missing field surfaces as the custom error, and `deserialize_map` closes
with `end_map`. -/

mutual

/-- Modelled from the spec: the struct visitor's entry loop. -/
def structTempLoopF : Nat → Bool → Option Nat → De → Except DeErr (Option Nat × De)
  | 0, _, _, _ => .error .EofWhileParsingObject
  | fuel + 1, first, acc, de =>
    match de.parseWhitespace with
    | (_, none) => .error .EofWhileParsingObject
    | (de, some c) =>
      if c = 125 then .ok (acc, de)
      else if first then
        if c = 34 then
          match structTempEntryF fuel acc de with
          | .error e => .error e
          | .ok (acc, de) => structTempLoopF fuel false acc de
        else .error .KeyMustBeAString
      else if c = 44 then
        match de.eatChar.parseWhitespace with
        | (_, none) => .error .EofWhileParsingObject
        | (de, some p) =>
          if p = 125 then .error .TrailingComma
          else if p = 34 then
            match structTempEntryF fuel acc de with
            | .error e => .error e
            | .ok (acc, de) => structTempLoopF fuel false acc de
          else .error .KeyMustBeAString
      else .error .ExpectedObjectCommaOrEnd

/-- Modelled from the spec: one struct entry, cursor on the key's opening
`"`: recognized key decodes a `u8`, an unrecognized key's value is
discarded by `deserialize_ignored_any` regardless of its shape. -/
def structTempEntryF : Nat → Option Nat → De → Except DeErr (Option Nat × De)
  | 0, _, _ => .error .EofWhileParsingObject
  | fuel + 1, acc, de =>
    match parseStr de.eatChar with
    | .error e => .error e
    | .ok (key, de) =>
      match de.parseObjectColon with
      | .error e => .error e
      | .ok de =>
        if key = tempKey then
          match deserializeUnsigned 255 de with
          | .error e => .error e
          | .ok (v, de) => .ok (some v, de)
        else
          match ignoredAnyF fuel de with
          | .error e => .error e
          | .ok de => .ok (acc, de)

end

/-- Modelled from the spec: `deserialize_struct` for the one-field
`Temperature { temperature: u8 }` target. -/
def deserializeTemperature (de : De) : Except DeErr (Nat × De) :=
  match de.parseWhitespace with
  | (_, none) => .error .EofWhileParsingValue
  | (de, some c) =>
    if c = 123 then
      match structTempLoopF (4 * de.remaining + 4) true none de.eatChar with
      | .error e => .error e
      | .ok (none, _) => .error .CustomError
      | .ok (some v, de) =>
        match de.endMap with
        | .error e => .error e
        | .ok de => .ok (v, de)
    else .error .InvalidType

/-- `from_slice` for the `Temperature` struct target. -/
def fromSliceTemperature : List Nat → Except DeErr (Nat × Nat) :=
  fromSliceD deserializeTemperature

-- `{"temperature":20,"extra":{"a":[1,2]}}`: the nested unknown value is ignored.
example :
    fromSliceTemperature [123, 34, 116, 101, 109, 112, 101, 114, 97, 116, 117,
      114, 101, 34, 58, 50, 48, 44, 34, 101, 120, 116, 114, 97, 34, 58, 123, 34,
      97, 34, 58, 91, 49, 44, 50, 93, 125, 125] = .ok (20, 38) := rfl
-- `{"temperature":20,"invalid":this-is-ignored}`: bare garbage is chomped.
example :
    fromSliceTemperature [123, 34, 116, 101, 109, 112, 101, 114, 97, 116, 117,
      114, 101, 34, 58, 50, 48, 44, 34, 105, 110, 118, 97, 108, 105, 100, 34,
      58, 116, 104, 105, 115, 45, 105, 115, 45, 105, 103, 110, 111, 114, 101,
      100, 125] = .ok (20, 44) := rfl
-- `{"temperature":20,"broken":}`: an ignored value starting at `}` is an error.
example :
    fromSliceTemperature [123, 34, 116, 101, 109, 112, 101, 114, 97, 116, 117,
      114, 101, 34, 58, 50, 48, 44, 34, 98, 114, 111, 107, 101, 110, 34, 58,
      125] = .error .ExpectedSomeValue := rfl

/-! ### The serializer (`src/ser/mod.rs`)

`Serializer { buf: &mut [u8], current_length }`: `buf` is a fixed-capacity
cell array (its length is the capacity and never changes); the bytes
written so far are `buf.take current_length`.  Rust's `&mut self` methods
returning `Result<()>` become functions returning the updated state paired
with an optional error; on error the state is returned as the method left
it (for single `push`/`extend_from_slice` calls: untouched). -/

/-- Serialization error, from `ser::Error`. -/
inductive SerErr where
  | BufferFull
  deriving DecidableEq, Repr

/-- `Serializer` in `src/ser/mod.rs`. -/
structure Ser where
  buf : List Nat
  currentLength : Nat
  deriving DecidableEq, Repr

namespace Ser

/-- `Serializer::new(buf)` for a zeroed buffer of capacity `cap`. -/
def new (cap : Nat) : Ser := ⟨List.replicate cap 0, 0⟩

/-- `Serializer::push_unchecked`. -/
def pushUnchecked (s : Ser) (c : Nat) : Ser :=
  ⟨s.buf.set s.currentLength c, s.currentLength + 1⟩

/-- `Serializer::push`: bounds-checked single-byte append. -/
def push (s : Ser) (c : Nat) : Ser × Option SerErr :=
  if s.currentLength < s.buf.length then (s.pushUnchecked c, none)
  else (s, some .BufferFull)

/-- `Serializer::extend_from_slice`: all-or-nothing append of a byte run. -/
def extendFromSlice (s : Ser) (other : List Nat) : Ser × Option SerErr :=
  if s.currentLength + other.length > s.buf.length then
    -- won't fit in the buf; don't modify anything and return an error
    (s, some .BufferFull)
  else
    (other.foldl pushUnchecked s, none)

/-- The bytes written so far (`&buf[..current_length]`). -/
def written (s : Ser) : List Nat := s.buf.take s.currentLength

end Ser

/-- Sequencing of fallible serializer operations (Rust's `?`): on error the
state is frozen and the error propagates. -/
def sseq (r : Ser × Option SerErr) (f : Ser → Ser × Option SerErr) :
    Ser × Option SerErr :=
  match r with
  | (s, none) => f s
  | (s, some e) => (s, some e)

/-! #### The two duplicate historical output-buffer backends -/

/-- `SliceSerializer` in `src/ser/ser_backend.rs`. -/
structure SliceSerializer where
  buf : List Nat
  currentLength : Nat
  deriving DecidableEq, Repr

namespace SliceSerializer

/-- `SliceSerializer::push_unchecked`. -/
def pushUnchecked (s : SliceSerializer) (c : Nat) : SliceSerializer :=
  ⟨s.buf.set s.currentLength c, s.currentLength + 1⟩

/-- `SliceSerializer::push` (`SerializerBackend` impl). -/
def push (s : SliceSerializer) (c : Nat) : SliceSerializer × Option SerErr :=
  if s.currentLength < s.buf.length then (s.pushUnchecked c, none)
  else (s, some .BufferFull)

/-- `SliceSerializer::extend_from_slice` (`SerializerBackend` impl). -/
def extendFromSlice (s : SliceSerializer) (other : List Nat) :
    SliceSerializer × Option SerErr :=
  if s.currentLength + other.length > s.buf.length then
    (s, some .BufferFull)
  else
    (other.foldl pushUnchecked s, none)

end SliceSerializer

/-- `Slice` in `src/ser/slice.rs` (`MutSlice` impl). -/
structure Slice where
  buf : List Nat
  index : Nat
  deriving DecidableEq, Repr

namespace Slice

/-- `Slice::push`; the Rust version returns `Err(b)` carrying the byte. -/
def push (s : Slice) (b : Nat) : Slice × Option SerErr :=
  if s.index ≥ s.buf.length then (s, some .BufferFull)
  else (⟨s.buf.set s.index b, s.index + 1⟩, none)

/-- `Slice::extend_from_slice`: note the `>=` bound (the Rust source rejects
a run that would exactly fill the buffer); `copy_from_slice` writes
`buf[index..index + slice.len()]`. -/
def extendFromSlice (s : Slice) (slice : List Nat) : Slice × Option SerErr :=
  if s.index + slice.length ≥ s.buf.length then (s, some .BufferFull)
  else
    (⟨s.buf.take s.index ++ slice ++ s.buf.drop (s.index + slice.length),
      s.index + slice.length⟩, none)

end Slice

/-! ### String escaping (`serialize_str`)

Rust `&str` values are modelled as lists of Unicode scalar values
(`v.chars()`); `utf8Encode` is `char::encode_utf8`. -/

/-- `hex_4bit`: upper-case hex digit for a value in `0..16`. -/
def hex4bit (c : Nat) : Nat := if c ≤ 9 then 0x30 + c else 0x41 + (c - 10)

/-- `hex`: the two upper-case hex digits of a byte (`c >> 4`, `c & 0x0F`). -/
def hexPair (c : Nat) : Nat × Nat := (hex4bit (c / 16), hex4bit (c % 16))

/-- `char::encode_utf8`: the UTF-8 bytes of a Unicode scalar value. -/
def utf8Encode (c : Nat) : List Nat :=
  if c ≤ 0x7F then [c]
  else if c ≤ 0x7FF then [0xC0 + c / 64, 0x80 + c % 64]
  else if c ≤ 0xFFFF then [0xE0 + c / 4096, 0x80 + c / 64 % 64, 0x80 + c % 64]
  else [0xF0 + c / 262144, 0x80 + c / 4096 % 64, 0x80 + c / 64 % 64, 0x80 + c % 64]

/-- The per-character classification of `serialize_str`, as the bytes the
matched arm pushes (the arms are in source order; `U+000B` falls into the
`\u00XX` range arm). -/
def escapeChar (c : Nat) : List Nat :=
  if c = 92 then [92, 92]
  else if c = 34 then [92, 34]
  else if c = 8 then [92, 98]
  else if c = 9 then [92, 116]
  else if c = 10 then [92, 110]
  else if c = 12 then [92, 102]
  else if c = 13 then [92, 114]
  else if c ≤ 0x1F then [92, 117, 48, 48, (hexPair c).1, (hexPair c).2]
  else utf8Encode c

/-- One arm of the `for c in v.chars()` loop of `serialize_str`: push the
escape bytes (single `push` calls) or the verbatim UTF-8 encoding (one
`extend_from_slice`). -/
def serializeStrChar (s : Ser) (c : Nat) : Ser × Option SerErr :=
  if c = 92 then sseq (s.push 92) (·.push 92)
  else if c = 34 then sseq (s.push 92) (·.push 34)
  else if c = 8 then sseq (s.push 92) (·.push 98)
  else if c = 9 then sseq (s.push 92) (·.push 116)
  else if c = 10 then sseq (s.push 92) (·.push 110)
  else if c = 12 then sseq (s.push 92) (·.push 102)
  else if c = 13 then sseq (s.push 92) (·.push 114)
  else if c ≤ 0x1F then
    sseq (s.push 92) fun s =>
      sseq (s.push 117) fun s =>
        sseq (s.push 48) fun s =>
          sseq (s.push 48) fun s =>
            sseq (s.push (hexPair c).1) (·.push (hexPair c).2)
  else s.extendFromSlice (utf8Encode c)

/-- The character loop of `serialize_str`. -/
def serializeStrChars (s : Ser) : List Nat → Ser × Option SerErr
  | [] => (s, none)
  | c :: cs => sseq (serializeStrChar s c) (serializeStrChars · cs)

/-- `serialize_str`: opening quote, escaped characters, closing quote. -/
def serializeStr (s : Ser) (v : List Nat) : Ser × Option SerErr :=
  sseq (s.push 34) fun s => sseq (serializeStrChars s v) (·.push 34)

/-! ### The escaped-string fragment module (`src/str.rs`)

`EscapedStr` spans are modelled at the character level (lists of Unicode
scalar values), matching `&str` semantics; all escape-introducing
characters are ASCII, so byte and character indexing agree on the bytes
the unescaper inspects.  `split_first_slice(s, 4)` takes the next 4
characters: for the result this agrees with taking 4 bytes, since any
non-ASCII character in the window makes `from_str_radix` fail either way. -/

/-- A fragment of an escaped string (`EscapedStringFragment`). -/
inductive Fragment where
  | NotEscaped (s : List Nat)
  | Escaped (c : Nat)
  deriving DecidableEq, Repr

/-- `StringUnescapeError`. -/
inductive UnescapeErr where
  | InvalidEscapeSequence
  deriving DecidableEq, Repr

/-- Hexadecimal digit value of an ASCII character, if any. -/
def hexVal (c : Nat) : Option Nat :=
  if 48 ≤ c ∧ c ≤ 57 then some (c - 48)
  else if 65 ≤ c ∧ c ≤ 70 then some (c - 55)
  else if 97 ≤ c ∧ c ≤ 102 then some (c - 87)
  else none

/-- `u32::from_str_radix(s, 16)` on a character window (an optional leading
`+` is tolerated by the Rust parser). -/
def fromStrRadix16 (cs : List Nat) : Option Nat :=
  let digits := match cs with | 43 :: rest => rest | _ => cs
  if digits.isEmpty then none
  else digits.foldlM (fun acc c => (hexVal c).map (fun d => acc * 16 + d)) 0

/-- `char::from_u32`: accept Unicode scalar values only. -/
def charFromU32 (n : Nat) : Option Nat :=
  if n < 0xD800 ∨ (0xE000 ≤ n ∧ n ≤ 0x10FFFF) then some n else none

/-- `unescape_next_fragment`: one escape sequence, or a maximal run with no
backslash. -/
def unescapeNextFragment (escapedString : List Nat) :
    Except UnescapeErr (Fragment × List Nat) :=
  match escapedString with
  | 92 :: rest =>
    match rest with
    | [] => .error .InvalidEscapeSequence
    | e :: rest =>
      if e = 34 then .ok (.Escaped 34, rest)
      else if e = 92 then .ok (.Escaped 92, rest)
      else if e = 47 then .ok (.Escaped 47, rest)
      else if e = 98 then .ok (.Escaped 8, rest)
      else if e = 102 then .ok (.Escaped 12, rest)
      else if e = 110 then .ok (.Escaped 10, rest)
      else if e = 114 then .ok (.Escaped 13, rest)
      else if e = 116 then .ok (.Escaped 9, rest)
      else if e = 117 then
        if 4 ≤ rest.length then
          match (fromStrRadix16 (rest.take 4)).bind charFromU32 with
          | some c => .ok (.Escaped c, rest.drop 4)
          | none => .error .InvalidEscapeSequence
        else .error .InvalidEscapeSequence
      else .error .InvalidEscapeSequence
  | _ =>
    (.ok (.NotEscaped (escapedString.takeWhile (· ≠ 92)),
      escapedString.dropWhile (· ≠ 92)))

/-- Driving `EscapedStringFragmentIter` to the end and concatenating the
fragments (a `NotEscaped` run contributes its characters, an `Escaped`
escape its single decoded character), on fuel. -/
def unescapeAllF : Nat → List Nat → Except UnescapeErr (List Nat)
  | 0, _ => .error .InvalidEscapeSequence
  | fuel + 1, s =>
    if s.isEmpty then .ok []
    else
      match unescapeNextFragment s with
      | .error e => .error e
      | .ok (.NotEscaped frag, rest) => (unescapeAllF fuel rest).map (frag ++ ·)
      | .ok (.Escaped c, rest) => (unescapeAllF fuel rest).map (c :: ·)

/-- The concatenation of all fragments of an escaped span (every fragment
consumes at least one character, so `length + 1` fuel suffices). -/
def unescapeAll (s : List Nat) : Except UnescapeErr (List Nat) :=
  unescapeAllF (s.length + 1) s

-- `a\tb` unescapes to `a<TAB>b`; `A` to `A`; bad escape errors.
example : unescapeAll [97, 92, 116, 98] = .ok [97, 9, 98] := rfl
example : unescapeAll [92, 117, 48, 48, 52, 49] = .ok [65] := rfl
example : unescapeAll [92, 120] = .error .InvalidEscapeSequence := rfl

/-! ### Integer rendering (`serialize_unsigned!` / `serialize_signed!`)

The macros fill a `$N`-byte local buffer from the right with `v % 10 + b'0'`
digits, dividing `v` by 10 until it reaches zero, then emit the filled tail
`buf[i..]` with a single `extend_from_slice` (prepending `b'-'` when the
value was negative).  The emitted tail is modelled directly as the list the
loop builds right-to-left; `$N` only sizes the scratch buffer and is
determined by the width (e.g. 3 for `u8`, 20 for `u64`), large enough that
`i` never underflows for an in-range `v`. -/

/-- The digit loop of `serialize_unsigned!`: builds `buf[i..]` right-to-left.
Fuel `v + 1` always suffices since `v` shrinks by `/ 10` every round. -/
def unsignedDigitsF : Nat → Nat → List Nat → List Nat
  | 0, _, acc => acc
  | fuel + 1, v, acc =>
    let acc := (v % 10 + 48) :: acc
    if v / 10 = 0 then acc else unsignedDigitsF fuel (v / 10) acc

/-- The byte run emitted for an unsigned value `v`. -/
def unsignedDigits (v : Nat) : List Nat := unsignedDigitsF (v + 1) v []

/-- The byte run emitted by `serialize_signed!` for `v` in `[min, max]`:
sign handling from the source, including the `ixx::min_value()` special
case computed through the unsigned magnitude `max + 1`. -/
def signedDigits (min max v : Int) : List Nat :=
  let sm : Bool × Nat :=
    if v = min then (true, (max + 1).toNat)
    else if v < 0 then (true, (-v).toNat)
    else (false, v.toNat)
  if sm.1 then 45 :: unsignedDigits sm.2 else unsignedDigits sm.2

/-- `serialize_uXX`: render the digits and append them in one atomic write. -/
def serializeUnsigned (s : Ser) (v : Nat) : Ser × Option SerErr :=
  s.extendFromSlice (unsignedDigits v)

/-- `serialize_iXX` for the width with range `(min, max)`. -/
def serializeSigned (min max : Int) (s : Ser) (v : Int) : Ser × Option SerErr :=
  s.extendFromSlice (signedDigits min max v)

/-- `serialize_bool`. -/
def serializeBool (s : Ser) (v : Bool) : Ser × Option SerErr :=
  if v then s.extendFromSlice [116, 114, 117, 101]
  else s.extendFromSlice [102, 97, 108, 115, 101]

example : unsignedDigits 0 = [48] := rfl
example : unsignedDigits 255 = [50, 53, 53] := rfl
example : signedDigits (-128) 127 (-128) = [45, 49, 50, 56] := rfl
example : signedDigits (-128) 127 42 = [52, 50] := rfl

/-- `serialize_f32`/`serialize_f64` glue: the external `ryu` formatter's
bytes are appended in one atomic write. -/
def serializeFloat {F : Type} (ryuFormat : F → List Nat) (s : Ser) (v : F) :
    Ser × Option SerErr :=
  s.extendFromSlice (ryuFormat v)

/-- `to_slice`: run a rendering function on a fresh buffer of capacity
`cap`; on success the result is `&buf[..current_length]`. -/
def runToSlice (cap : Nat) (f : Ser → Ser × Option SerErr) :
    Except SerErr (List Nat) :=
  match f (Ser.new cap) with
  | (s, none) => .ok s.written
  | (_, some e) => .error e

/-- `to_slice` of a `bool`. -/
def toSliceBool (cap : Nat) (v : Bool) : Except SerErr (List Nat) :=
  runToSlice cap (serializeBool · v)

/-- `to_slice` of an unsigned integer. -/
def toSliceU (cap : Nat) (v : Nat) : Except SerErr (List Nat) :=
  runToSlice cap (serializeUnsigned · v)

/-- `to_slice` of a signed integer of range `(min, max)`. -/
def toSliceI (min max : Int) (cap : Nat) (v : Int) : Except SerErr (List Nat) :=
  runToSlice cap (serializeSigned min max · v)

/-- `to_slice` of a float through the external formatter. -/
def toSliceFloat {F : Type} (ryuFormat : F → List Nat) (cap : Nat) (v : F) :
    Except SerErr (List Nat) :=
  runToSlice cap (serializeFloat ryuFormat · v)

/-- `to_slice` of a `&str` value. -/
def toSliceStr (cap : Nat) (v : List Nat) : Except SerErr (List Nat) :=
  runToSlice cap (serializeStr · v)

example : toSliceBool 8 true = .ok [116, 114, 117, 101] := rfl
example : toSliceU 3 255 = .ok [50, 53, 53] := rfl
example : toSliceU 2 255 = .error .BufferFull := rfl
-- `to_string("a\tb\u{7}")` is `"a\tb\u0007"` with quotes.
example :
    toSliceStr 32 [97, 9, 98, 7] =
      .ok [34, 97, 92, 116, 98, 92, 117, 48, 48, 48, 55, 34] := rfl

/-! ### Specification-side value functions for the round-trip arguments

These fold a digit-byte run into the number the accumulation loops compute,
and package the byte/character output of `serialize_str` for the round-trip
through the fragment iterator. -/

/-- The value the unsigned digit loop accumulates over a byte run, starting
from `n` (each step is `n * 10 + (c - b'0')`). -/
def accDigits (n : Nat) (ds : List Nat) : Nat :=
  ds.foldl (fun n c => n * 10 + (c - 48)) n

/-- The value the signed digit loop accumulates over a byte run (the digit
is negated when the number is negative). -/
def accDigitsI (signed : Bool) (n : Int) (ds : List Nat) : Int :=
  ds.foldl (fun n c => n * 10 + (c - 48 : Nat) * (if signed then -1 else 1)) n

/-- The byte output of the `serialize_str` character loop: the escape runs
of all characters, concatenated. -/
def escapeBytes (v : List Nat) : List Nat :=
  v.foldr (fun c acc => escapeChar c ++ acc) []

/-- The character-level view of one escaped character of `serialize_str`'s
output: the escape arms emit ASCII (one character per byte), and the
default arm's verbatim UTF-8 bytes spell exactly the original character in
the output `&str`, so at character level it contributes itself. -/
def escapeCharsView (c : Nat) : List Nat :=
  if c = 92 then [92, 92]
  else if c = 34 then [92, 34]
  else if c = 8 then [92, 98]
  else if c = 9 then [92, 116]
  else if c = 10 then [92, 110]
  else if c = 12 then [92, 102]
  else if c = 13 then [92, 114]
  else if c ≤ 0x1F then [92, 117, 48, 48, (hexPair c).1, (hexPair c).2]
  else [c]

/-- The characters of the escaped span between the output's quotes. -/
def escapeSpans (v : List Nat) : List Nat :=
  v.foldr (fun c acc => escapeCharsView c ++ acc) []

/-- Contract of a serializer write run: capacity is preserved, the cursor
stays within capacity, and on success exactly `bytes` was appended. -/
def SerOk (s₀ : Ser) (bytes : List Nat) (r : Ser × Option SerErr) : Prop :=
  r.1.buf.length = s₀.buf.length ∧ r.1.currentLength ≤ r.1.buf.length ∧
  (r.2 = none → r.1.written = s₀.written ++ bytes ∧
    r.1.currentLength = s₀.currentLength + bytes.length)

/-- A miniature stand-in for the external `ryu` formatter over a two-value
type, for instantiating the abstract float round-trip at a concrete input. -/
def toyFmt (b : Bool) : List Nat := if b then [49] else [48]

/-- The matching stand-in for the external `FromStr` parser. -/
def toyFromStr (l : List Nat) : Option Bool :=
  if l = [49] then some true else if l = [48] then some false else none

/-! ### Fuel sufficiency for the whitespace loop -/

theorem parseWhitespaceF_enough {fuel₁ fuel₂ : Nat} (de : De)
    (h₁ : de.remaining < fuel₁) (h₂ : de.remaining < fuel₂) :
    De.parseWhitespaceF fuel₁ de = De.parseWhitespaceF fuel₂ de := by
  induction fuel₁ generalizing fuel₂ de with
  | zero => omega
  | succ n ih =>
    cases fuel₂ with
    | zero => omega
    | succ m =>
      simp only [De.parseWhitespaceF]
      cases hp : de.peek with
      | none => rfl
      | some c =>
        by_cases hws : isWs c
        · simp only [hws, if_true]
          exact ih de.eatChar (by have := De.remaining_eatChar_lt hp; omega)
            (by have := De.remaining_eatChar_lt hp; omega)
        · simp [hws]

/-- Unfolding equation for `parseWhitespace` mirroring the source loop. -/
theorem parseWhitespace_eq (de : De) :
    de.parseWhitespace =
      match de.peek with
      | some c => if isWs c then de.eatChar.parseWhitespace else (de, some c)
      | none => (de, none) := by
  show De.parseWhitespaceF (de.remaining + 1) de = _
  rw [De.parseWhitespaceF]
  cases hp : de.peek with
  | none => rfl
  | some c =>
    by_cases hws : isWs c
    · simp only [hws, if_true]
      exact parseWhitespaceF_enough de.eatChar
        (by have := De.remaining_eatChar_lt hp; omega) (by omega)
    · simp [hws]

/-! ### Serializer buffer lemmas -/

theorem pushUnchecked_spec (s : Ser) (c : Nat) (h : s.currentLength < s.buf.length) :
    (s.pushUnchecked c).buf.length = s.buf.length ∧
    (s.pushUnchecked c).currentLength = s.currentLength + 1 ∧
    (s.pushUnchecked c).written = s.written ++ [c] := by
  refine ⟨List.length_set .., rfl, ?_⟩
  show (s.buf.set s.currentLength c).take (s.currentLength + 1) = _
  rw [List.set_eq_take_cons_drop c h, List.take_append_eq_append_take,
    List.take_of_length_le, List.length_take]
  · simp [Ser.written, Nat.min_eq_left h.le]
  · simp [Nat.min_eq_left h.le]

theorem foldl_pushUnchecked_spec (other : List Nat) :
    ∀ s : Ser, s.currentLength + other.length ≤ s.buf.length →
      (other.foldl Ser.pushUnchecked s).buf.length = s.buf.length ∧
      (other.foldl Ser.pushUnchecked s).currentLength =
        s.currentLength + other.length ∧
      (other.foldl Ser.pushUnchecked s).written = s.written ++ other := by
  induction other with
  | nil => intro s _; simp
  | cons c cs ih =>
    intro s h
    simp only [List.length_cons] at h
    have hlt : s.currentLength < s.buf.length := by omega
    obtain ⟨h₁, h₂, h₃⟩ := pushUnchecked_spec s c hlt
    obtain ⟨g₁, g₂, g₃⟩ := ih (s.pushUnchecked c) (by omega)
    refine ⟨by rw [List.foldl_cons, g₁, h₁], ?_, ?_⟩
    · simp only [List.foldl_cons, List.length_cons, g₂, h₂]; omega
    · rw [List.foldl_cons, g₃, h₃, List.append_assoc]; rfl

/-- C6: the all-or-nothing contract of `Serializer::extend_from_slice` and
`Serializer::push`, stated for every reachable buffer state (write cursor
within capacity): an overflowing run performs no write at all and reports
`BufferFull`; a fitting run appends exactly the run and advances the
cursor by its length; a single-byte push fails exactly when the cursor has
reached capacity. -/
theorem extendFromSlice_all_or_nothing (s : Ser) (other : List Nat) (c : Nat)
    (hinv : s.currentLength ≤ s.buf.length) :
    (s.buf.length < s.currentLength + other.length →
      s.extendFromSlice other = (s, some .BufferFull)) ∧
    (s.currentLength + other.length ≤ s.buf.length →
      (s.extendFromSlice other).2 = none ∧
      (s.extendFromSlice other).1.written = s.written ++ other ∧
      (s.extendFromSlice other).1.currentLength =
        s.currentLength + other.length ∧
      (s.extendFromSlice other).1.buf.length = s.buf.length) ∧
    ((s.push c).2 = some .BufferFull ↔ s.currentLength = s.buf.length) ∧
    (s.currentLength < s.buf.length →
      (s.push c).1.written = s.written ++ [c] ∧
      (s.push c).1.currentLength = s.currentLength + 1) := by
  refine ⟨?_, ?_, ?_, ?_⟩
  · intro h
    simp [Ser.extendFromSlice, h]
  · intro h
    obtain ⟨h₁, h₂, h₃⟩ := foldl_pushUnchecked_spec other s h
    simp [Ser.extendFromSlice, Nat.not_lt.mpr h, h₁, h₂, h₃]
  · constructor
    · intro h
      by_cases hlt : s.currentLength < s.buf.length
      · simp [Ser.push, hlt] at h
      · omega
    · intro h
      simp [Ser.push, h]
  · intro hlt
    obtain ⟨_, h₂, h₃⟩ := pushUnchecked_spec s c hlt
    simp [Ser.push, hlt, h₂, h₃]

/-- C6 witness: a fitting two-byte append into capacity 3 at cursor 1, and
an overflowing one at cursor 2. -/
theorem extendFromSlice_all_or_nothing_witness :
    ((⟨[7, 0, 0], 1⟩ : Ser).extendFromSlice [5, 6]).1.written = [7, 5, 6] ∧
    (⟨[7, 0, 0], 2⟩ : Ser).extendFromSlice [5, 6] =
      (⟨[7, 0, 0], 2⟩, some .BufferFull) := by
  refine ⟨((extendFromSlice_all_or_nothing ⟨[7, 0, 0], 1⟩ [5, 6] 0
    (by decide)).2.1 (by decide)).2.1.trans (by decide), ?_⟩
  exact (extendFromSlice_all_or_nothing ⟨[7, 0, 0], 2⟩ [5, 6] 0
    (by decide)).1 (by decide)

/-- C10 (counterexample): the three backends do not succeed on exactly the
same inputs: a one-byte run that exactly fills a capacity-1 buffer is
accepted by `Serializer::extend_from_slice` (`ser/mod.rs`) but rejected by
`Slice::extend_from_slice` (`ser/slice.rs`), whose bound check uses `>=`. -/
theorem backends_not_equivalent :
    (Ser.extendFromSlice ⟨[0], 0⟩ [48]).2 = none ∧
    (SliceSerializer.extendFromSlice ⟨[0], 0⟩ [48]).2 = none ∧
    (Slice.extendFromSlice ⟨[0], 0⟩ [48]).2 = some .BufferFull := by
  exact ⟨rfl, rfl, rfl⟩

/-- C10 (amended): `Serializer::extend_from_slice` (`ser/mod.rs`) and
`SliceSerializer::extend_from_slice` (`ser/ser_backend.rs`) succeed on
exactly the same inputs — iff the run fits the remaining capacity,
including an exact fill — while `Slice::extend_from_slice` (`ser/slice.rs`)
succeeds iff the run fits with strict room to spare, so it differs from the
other two exactly on runs that exactly fill the buffer. -/
theorem backends_equivalence :
    (∀ buf cl other, (Ser.extendFromSlice ⟨buf, cl⟩ other).2 = none ↔
      (SliceSerializer.extendFromSlice ⟨buf, cl⟩ other).2 = none) ∧
    (∀ buf cl other, (Ser.extendFromSlice ⟨buf, cl⟩ other).2 = none ↔
      cl + other.length ≤ buf.length) ∧
    (∀ buf i sl, (Slice.extendFromSlice ⟨buf, i⟩ sl).2 = none ↔
      i + sl.length < buf.length) := by
  refine ⟨fun buf cl other => ?_, fun buf cl other => ?_, fun buf i sl => ?_⟩
  · by_cases h : cl + other.length > buf.length <;>
      simp [Ser.extendFromSlice, SliceSerializer.extendFromSlice, h]
  · by_cases h : cl + other.length > buf.length
    · simp only [Ser.extendFromSlice, if_pos h]
      constructor
      · intro h'; cases h'
      · intro h'; omega
    · simp only [Ser.extendFromSlice, if_neg h]
      constructor
      · intro _; omega
      · intro _; trivial
  · by_cases h : i + sl.length ≥ buf.length
    · simp only [Slice.extendFromSlice, if_pos h]
      constructor
      · intro h'; cases h'
      · intro h'; omega
    · simp only [Slice.extendFromSlice, if_neg h]
      constructor
      · intro _; omega
      · intro _; trivial


/-! ### Characterization of the whitespace scan and the `end` wrapper -/

theorem De.peek_def (de : De) : de.peek = de.slice[de.index]? := rfl

theorem pw_step_ws {de : De} {c : Nat} (hp : de.peek = some c) (hws : isWs c) :
    de.parseWhitespace = de.eatChar.parseWhitespace := by
  rw [parseWhitespace_eq, hp]
  simp [hws]

theorem pw_step_stop {de : De} {c : Nat} (hp : de.peek = some c)
    (hws : ¬ isWs c) : de.parseWhitespace = (de, some c) := by
  rw [parseWhitespace_eq, hp]
  simp [hws]

theorem pw_step_eof {de : De} (hp : de.peek = none) :
    de.parseWhitespace = (de, none) := by
  rw [parseWhitespace_eq, hp]

/-- `parse_whitespace` lands on the first non-whitespace byte at or after
the cursor (or the end of input), every skipped byte is whitespace, and
the returned peek is the byte under the final cursor. -/
theorem parseWhitespace_spec (de : De) :
    de.index ≤ de.parseWhitespace.1.index ∧
    de.parseWhitespace.1.slice = de.slice ∧
    (de.index ≤ de.slice.length → de.parseWhitespace.1.index ≤ de.slice.length) ∧
    (∀ j, de.index ≤ j → j < de.parseWhitespace.1.index →
      ∃ c, de.slice[j]? = some c ∧ isWs c) ∧
    de.parseWhitespace.2 = de.slice[de.parseWhitespace.1.index]? ∧
    (∀ c, de.parseWhitespace.2 = some c → ¬ isWs c) := by
  generalize hm : de.remaining = m
  induction m using Nat.strong_induction_on generalizing de with
  | _ m ih =>
  cases hp : de.peek with
  | none =>
    rw [pw_step_eof hp]
    refine ⟨le_refl _, rfl, fun h => h,
      fun j h₁ h₂ => absurd (show j < de.index from h₂) (by omega),
      by rw [← De.peek_def]; exact hp.symm, fun c h => by simp at h⟩
  | some c =>
    by_cases hws : isWs c
    · rw [pw_step_ws hp hws]
      have hlt := De.peek_some_lt hp
      obtain ⟨g₁, g₂, g₃, g₄, g₅, g₆⟩ :=
        ih de.eatChar.remaining (hm ▸ De.remaining_eatChar_lt hp) de.eatChar rfl
      refine ⟨?_, by simpa using g₂, ?_, ?_, by simpa using g₅, g₆⟩
      · have := g₁; simp only [De.eatChar_index] at this; omega
      · intro _; exact (by simpa using g₃ (by simp; omega))
      · intro j h₁ h₂
        rcases Nat.eq_or_lt_of_le h₁ with h | h
        · exact ⟨c, h ▸ (De.peek_def de ▸ hp), hws⟩
        · have := g₄ j (by simp; omega) h₂
          simpa using this
    · rw [pw_step_stop hp hws]
      refine ⟨le_refl _, rfl, fun h => h,
        fun j h₁ h₂ => absurd (show j < de.index from h₂) (by omega),
        by rw [← De.peek_def]; exact hp.symm, ?_⟩
      intro c' h
      simp only at h
      injection h with h'
      exact h' ▸ hws

/-- When only whitespace remains, `parse_whitespace` consumes the rest of
the input and returns `none`. -/
theorem parseWhitespace_all_ws (de : De) (hle : de.index ≤ de.slice.length)
    (h : ∀ j, de.index ≤ j → j < de.slice.length →
      ∃ c, de.slice[j]? = some c ∧ isWs c) :
    de.parseWhitespace = (⟨de.slice, de.slice.length⟩, none) := by
  obtain ⟨g₁, g₂, g₃, g₄, g₅, g₆⟩ := parseWhitespace_spec de
  rcases hr : de.parseWhitespace with ⟨de', p⟩
  rw [hr] at g₁ g₂ g₃ g₅ g₆
  simp only at g₁ g₂ g₃ g₅ g₆
  have hp : p = none := by
    cases p with
    | none => rfl
    | some c =>
      exfalso
      have hidx : de'.index < de.slice.length := by
        by_contra hc
        rw [List.getElem?_eq_none (by omega)] at g₅
        cases g₅
      obtain ⟨c', hc', hwc'⟩ := h de'.index g₁ hidx
      rw [hc'] at g₅
      injection g₅ with g₅'
      exact g₆ c rfl (g₅' ▸ hwc')
  subst hp
  have hidx : de'.index = de.slice.length := by
    have hnone : de.slice[de'.index]? = none := g₅.symm
    have := List.getElem?_eq_none_iff.mp hnone
    omega
  cases de'
  simp only at g₂ hidx
  rw [g₂, hidx]

/-- C2 companion: `Deserializer::end` either succeeds with the full input
length or fails with `TrailingCharacters`, and it succeeds iff every
remaining byte is whitespace. -/
theorem end_spec (de : De) (hle : de.index ≤ de.slice.length) :
    (de.end_ = .ok de.slice.length ∨ de.end_ = .error .TrailingCharacters) ∧
    (de.end_ = .ok de.slice.length ↔
      ∀ j, de.index ≤ j → j < de.slice.length →
        ∃ c, de.slice[j]? = some c ∧ isWs c) := by
  rcases hr : de.parseWhitespace with ⟨de', p⟩
  have hend : de.end_ = match (de', p) with
      | (_, some _) => .error .TrailingCharacters
      | (de', none) => .ok de'.index := by
    unfold De.end_
    rw [hr]
  cases p with
  | some c =>
    simp only at hend
    constructor
    · right; exact hend
    · constructor
      · intro h
        rw [hend] at h
        cases h
      · intro h
        exfalso
        have := parseWhitespace_all_ws de hle h
        rw [hr] at this
        injection this with h₁ h₂
        cases h₂
  | none =>
    obtain ⟨g₁, g₂, g₃, g₄, g₅, g₆⟩ := parseWhitespace_spec de
    rw [hr] at g₁ g₂ g₃ g₄ g₅
    simp only at g₁ g₂ g₃ g₄ g₅ hend
    have hidx : de'.index = de.slice.length := by
      have := List.getElem?_eq_none_iff.mp g₅.symm
      have := g₃ hle
      omega
    rw [hidx] at hend
    constructor
    · left; exact hend
    · constructor
      · intro _ j h₁ h₂
        exact g₄ j h₁ (by omega)
      · intro _; exact hend

/-! ### C5: width boundaries -/

/-- C5: integer decoding respects exact width boundaries: `"256"` into `u8`
fails with `InvalidNumber` while `"255"` yields 255; `"-129"` into `i8`
fails with `InvalidNumber` while `"-128"` yields -128 (the per-digit
negation reaches the minimum); and decoding any unsigned target from input
starting with `-` fails with `InvalidNumber`. -/
theorem integer_width_boundaries :
    fromSliceU 255 [50, 53, 54] = .error .InvalidNumber ∧
    fromSliceU 255 [50, 53, 53] = .ok (255, 3) ∧
    fromSliceI (-128) 127 [45, 49, 50, 57] = .error .InvalidNumber ∧
    fromSliceI (-128) 127 [45, 49, 50, 56] = .ok (-128, 4) ∧
    ∀ (max : Nat) (rest : List Nat),
      fromSliceU max (45 :: rest) = .error .InvalidNumber := by
  refine ⟨rfl, rfl, rfl, rfl, fun max rest => ?_⟩
  have hp : (⟨45 :: rest, 0⟩ : De).peek = some 45 := by simp [De.peek]
  have hpw := pw_step_stop hp (by decide)
  have hD : deserializeUnsigned max ⟨45 :: rest, 0⟩ = .error .InvalidNumber := by
    unfold deserializeUnsigned
    rw [hpw]
    rfl
  unfold fromSliceU fromSliceD
  rw [hD]
  rfl

/-! ### C7: list separators and the trailing comma -/

/-- C7: in a JSON array, a `]` right after a comma (whitespace ignored)
fails with `TrailingComma` — both when pulling the next element and when
closing the list — and anything other than `,` or `]` after an element
fails; concretely, `[0, 1,]` into a 2-element array fails with
`TrailingComma` while `[0, 1]` yields `[0, 1]`. -/
theorem array_trailing_comma :
    fromSliceArr2I32 [91, 48, 44, 32, 49, 44, 93] = .error .TrailingComma ∧
    fromSliceArr2I32 [91, 48, 44, 32, 49, 93] = .ok ((0, 1), 6) ∧
    (∀ (α : Type) (elem : De → Except DeErr (α × De)) (first : Bool)
      (de de₁ de₂ : De), de.parseWhitespace = (de₁, some 44) →
        de₁.eatChar.parseWhitespace = (de₂, some 93) →
        seqNextElement elem first de = .error .TrailingComma) ∧
    (∀ (α : Type) (elem : De → Except DeErr (α × De)) (de de₁ : De) (c : Nat),
      de.parseWhitespace = (de₁, some c) → c ≠ 44 → c ≠ 93 →
        seqNextElement elem false de = .error .ExpectedListCommaOrEnd) ∧
    (∀ de de₁ de₂ : De, de.parseWhitespace = (de₁, some 44) →
      de₁.eatChar.parseWhitespace = (de₂, some 93) →
        de.endSeq = .error .TrailingComma) ∧
    (∀ (de de₁ : De) (c : Nat), de.parseWhitespace = (de₁, some c) →
      c ≠ 44 → c ≠ 93 → de.endSeq = .error .TrailingCharacters) := by
  refine ⟨rfl, rfl, ?_, ?_, ?_, ?_⟩
  · intro α elem first de de₁ de₂ h₁ h₂
    simp only [seqNextElement, h₁]
    norm_num
    rw [h₂]
    rfl
  · intro α elem de de₁ c h₁ hc₁ hc₂
    simp only [seqNextElement, h₁, if_neg hc₂, if_neg hc₁, if_neg (by simp : ¬False)]
    simp [hc₁, hc₂]
  · intro de de₁ de₂ h₁ h₂
    simp only [De.endSeq, h₁]
    norm_num
    rw [h₂]
    rfl
  · intro de de₁ c h₁ hc₁ hc₂
    simp only [De.endSeq, h₁]
    simp [hc₁, hc₂]

/-- C7 witness: the general clauses applied at concrete states: `",]"` when
closing (trailing comma), `";"` after an element (malformed separator). -/
theorem array_trailing_comma_witness :
    (⟨[44, 93], 0⟩ : De).endSeq = .error .TrailingComma ∧
    seqNextElement (fun de => .ok (0, de)) false ⟨[59], 0⟩ =
      .error .ExpectedListCommaOrEnd ∧
    (⟨[59], 0⟩ : De).endSeq = .error .TrailingCharacters ∧
    seqNextElement (fun de => .ok (0, de)) true ⟨[44, 93], 0⟩ =
      .error .TrailingComma := by
  refine ⟨?_, ?_, ?_, ?_⟩
  · exact array_trailing_comma.2.2.2.2.1 ⟨[44, 93], 0⟩ ⟨[44, 93], 0⟩
      ⟨[44, 93], 1⟩ rfl rfl
  · exact array_trailing_comma.2.2.2.1 Nat (fun de => .ok (0, de)) ⟨[59], 0⟩
      ⟨[59], 0⟩ 59 rfl (by decide) (by decide)
  · exact array_trailing_comma.2.2.2.2.2 ⟨[59], 0⟩ ⟨[59], 0⟩ 59 rfl
      (by decide) (by decide)
  · exact array_trailing_comma.2.2.1 Nat (fun de => .ok (0, de)) true
      ⟨[44, 93], 0⟩ ⟨[44, 93], 0⟩ ⟨[44, 93], 1⟩ rfl rfl

/-! ### C8: ignoring unknown fields -/

theorem ignoredChompF_finds {fuel : Nat} :
    ∀ (de : De) (pos : Nat), de.remaining < fuel → de.index ≤ pos →
      (∀ d, de.slice[pos]? = some d → (d = 44 ∨ d = 125 ∨ d = 93)) →
      (∃ d, de.slice[pos]? = some d) →
      (∀ j e, de.index ≤ j → j < pos → de.slice[j]? = some e →
        ¬ (e = 44 ∨ e = 125 ∨ e = 93)) →
      ignoredChompF fuel de = .ok ⟨de.slice, pos⟩ := by
  induction fuel with
  | zero => intro de pos h; omega
  | succ n ih =>
    intro de pos hf hle hdel ⟨d, hd⟩ hbet
    have hposlt : pos < de.slice.length := (List.getElem?_eq_some.mp hd).1
    rcases Nat.eq_or_lt_of_le hle with heq | hlt
    · have hdd := hdel d hd
      have hpk : de.peek = some d := by rw [De.peek_def, heq]; exact hd
      simp only [ignoredChompF, hpk]
      rw [if_pos hdd]
      cases de
      simp only at heq ⊢
      rw [heq]
    · have hidxlt : de.index < de.slice.length := by omega
      obtain ⟨e, he⟩ : ∃ e, de.slice[de.index]? = some e :=
        ⟨de.slice[de.index], List.getElem?_eq_getElem hidxlt⟩
      have hpk : de.peek = some e := he
      have hne := hbet de.index e (le_refl _) hlt he
      simp only [ignoredChompF, hpk]
      rw [if_neg hne]
      have := ih de.eatChar pos
        (by have := De.remaining_eatChar_lt hpk; omega)
        (by simp; omega)
        (by simpa using hdel) (by simpa using ⟨d, hd⟩)
        (by intro j e' h₁ h₂ h₃
            exact hbet j e' (by simp at h₁; omega) h₂ (by simpa using h₃))
      simpa using this

theorem ignoredChompF_eof {fuel : Nat} :
    ∀ de : De, de.remaining < fuel →
      (∀ j e, de.index ≤ j → de.slice[j]? = some e →
        ¬ (e = 44 ∨ e = 125 ∨ e = 93)) →
      ignoredChompF fuel de = .error .EofWhileParsingString := by
  induction fuel with
  | zero => intro de h; omega
  | succ n ih =>
    intro de hf hbet
    cases hpk : de.peek with
    | none => simp only [ignoredChompF, hpk]
    | some e =>
      have hne := hbet de.index e (le_refl _) hpk
      simp only [ignoredChompF, hpk]
      rw [if_neg hne]
      have := ih de.eatChar (by have := De.remaining_eatChar_lt hpk; omega)
        (by intro j e' h₁ h₃
            exact hbet j e' (by simp at h₁; omega) (by simpa using h₃))
      simpa using this

theorem remaining_pw_le (de : De) :
    de.parseWhitespace.1.remaining ≤ de.remaining := by
  obtain ⟨g₁, g₂, -⟩ := parseWhitespace_spec de
  simp only [De.remaining, g₂]
  omega

/-- C8: decoding an object into a struct ignores unrecognized keys of any
nested shape (the spec's example object decodes to `temperature = 20`);
an ignored bare literal is chomped to the next `,`, `}` or `]` with no
validation of the skipped bytes (reaching end of input without a delimiter
is the string-EOF error), and `deserialize_ignored_any` fails with
`ExpectedSomeValue` when the ignored value starts with `,`, `}` or `]`. -/
theorem ignored_any_skip :
    fromSliceTemperature [123, 34, 116, 101, 109, 112, 101, 114, 97, 116, 117,
      114, 101, 34, 58, 50, 48, 44, 34, 101, 120, 116, 114, 97, 34, 58, 123, 34,
      97, 34, 58, 91, 49, 44, 50, 93, 125, 125] = .ok (20, 38) ∧
    fromSliceTemperature [123, 32, 34, 116, 101, 109, 112, 101, 114, 97, 116,
      117, 114, 101, 34, 58, 32, 50, 48, 44, 32, 34, 115, 111, 117, 114, 99,
      101, 34, 58, 32, 123, 32, 34, 115, 116, 97, 116, 105, 111, 110, 34, 58,
      32, 34, 100, 111, 99, 107, 34, 44, 32, 34, 115, 101, 110, 115, 111, 114,
      115, 34, 58, 32, 91, 34, 102, 114, 111, 110, 116, 34, 44, 32, 34, 98, 97,
      99, 107, 34, 93, 32, 125, 32, 125] = .ok (20, 84) ∧
    (∀ (de de₁ : De) (c : Nat), de.parseWhitespace = (de₁, some c) →
      (c = 44 ∨ c = 125 ∨ c = 93) →
      ignoredAny de = .error .ExpectedSomeValue) ∧
    (∀ (de de₁ : De) (c : Nat) (pos : Nat),
      de.parseWhitespace = (de₁, some c) →
      c ≠ 34 → c ≠ 91 → c ≠ 123 → ¬ (c = 44 ∨ c = 125 ∨ c = 93) →
      de₁.index ≤ pos →
      (∀ d, de₁.slice[pos]? = some d → (d = 44 ∨ d = 125 ∨ d = 93)) →
      (∃ d, de₁.slice[pos]? = some d) →
      (∀ j e, de₁.index ≤ j → j < pos → de₁.slice[j]? = some e →
        ¬ (e = 44 ∨ e = 125 ∨ e = 93)) →
      ignoredAny de = .ok ⟨de₁.slice, pos⟩) ∧
    (∀ (de de₁ : De) (c : Nat), de.parseWhitespace = (de₁, some c) →
      c ≠ 34 → c ≠ 91 → c ≠ 123 → ¬ (c = 44 ∨ c = 125 ∨ c = 93) →
      (∀ j e, de₁.index ≤ j → de₁.slice[j]? = some e →
        ¬ (e = 44 ∨ e = 125 ∨ e = 93)) →
      ignoredAny de = .error .EofWhileParsingString) := by
  have hfuel : ∀ de : De, 4 * de.remaining + 4 = (4 * de.remaining + 3) + 1 :=
    fun _ => rfl
  refine ⟨rfl, rfl, ?_, ?_, ?_⟩
  · intro de de₁ c hpw hc
    have hc34 : c ≠ 34 := by rcases hc with h | h | h <;> omega
    have hc91 : c ≠ 91 := by rcases hc with h | h | h <;> omega
    have hc123 : c ≠ 123 := by rcases hc with h | h | h <;> omega
    unfold ignoredAny
    rw [hfuel de]
    simp only [ignoredAnyF, hpw, if_neg hc34, if_neg hc91, if_neg hc123,
      if_pos hc]
  · intro de de₁ c pos hpw hc34 hc91 hc123 hcd hle hdel hex hbet
    unfold ignoredAny
    rw [hfuel de]
    simp only [ignoredAnyF, hpw, if_neg hc34, if_neg hc91, if_neg hc123,
      if_neg hcd]
    have hrem : de₁.remaining ≤ de.remaining := by
      have := remaining_pw_le de
      rw [hpw] at this
      exact this
    exact ignoredChompF_finds de₁ pos (by omega) hle hdel hex hbet
  · intro de de₁ c hpw hc34 hc91 hc123 hcd hbet
    unfold ignoredAny
    rw [hfuel de]
    simp only [ignoredAnyF, hpw, if_neg hc34, if_neg hc91, if_neg hc123,
      if_neg hcd]
    have hrem : de₁.remaining ≤ de.remaining := by
      have := remaining_pw_le de
      rw [hpw] at this
      exact this
    exact ignoredChompF_eof de₁ (by omega) hbet

/-- C8 witness: the bare-literal clauses at concrete inputs: `xy,` chomps
to the comma, `xy` runs out of input, `}` at value position errors. -/
theorem ignored_any_skip_witness :
    ignoredAny ⟨[120, 121, 44], 0⟩ = .ok ⟨[120, 121, 44], 2⟩ ∧
    ignoredAny ⟨[120, 121], 0⟩ = .error .EofWhileParsingString ∧
    ignoredAny ⟨[125], 0⟩ = .error .ExpectedSomeValue := by
  refine ⟨?_, ?_, ?_⟩
  · refine ignored_any_skip.2.2.2.1 ⟨[120, 121, 44], 0⟩ ⟨[120, 121, 44], 0⟩
      120 2 rfl (by decide) (by decide) (by decide) (by decide) (by decide)
      (by intro d hd; simp at hd; omega) ⟨44, rfl⟩ ?_
    intro j e h₁ h₂ h₃
    interval_cases j
    · simp at h₃; omega
    · simp at h₃; omega
  · refine ignored_any_skip.2.2.2.2 ⟨[120, 121], 0⟩ ⟨[120, 121], 0⟩ 120 rfl
      (by decide) (by decide) (by decide) (by decide) ?_
    intro j e h₁ h₃
    have hj := (List.getElem?_eq_some.mp h₃).1
    simp only [List.length_cons, List.length_nil] at hj
    interval_cases j
    · simp at h₃; omega
    · simp at h₃; omega
  · exact ignored_any_skip.2.2.1 ⟨[125], 0⟩ ⟨[125], 0⟩ 125 rfl (by decide)

/-! ### C4: zero-copy string slicing -/

theorem parseStrF_step_found {de : De} {start n : Nat} (hpk : de.peek = some 34)
    (hev : countBackslashes de.slice de.index % 2 = 0) :
    parseStrF start (n + 1) de =
      (if isValidUtf8 (subSlice de.slice start de.index) then
        .ok (subSlice de.slice start de.index, de.eatChar)
      else .error .InvalidUnicodeCodePoint) := by
  simp only [parseStrF, hpk, if_true]
  rw [if_neg (by omega : ¬ countBackslashes de.slice de.index % 2 = 1)]

theorem parseStrF_step_cont {de : De} {start n : Nat} {c : Nat}
    (hpk : de.peek = some c)
    (h : c = 34 → countBackslashes de.slice de.index % 2 = 1) :
    parseStrF start (n + 1) de = parseStrF start n de.eatChar := by
  simp only [parseStrF, hpk]
  by_cases hc : c = 34
  · rw [if_pos hc, if_pos (h hc)]
  · rw [if_neg hc]

theorem parseStrF_step_eof {de : De} {start n : Nat} (hpk : de.peek = none) :
    parseStrF start (n + 1) de = .error .EofWhileParsingString := by
  simp only [parseStrF, hpk]

theorem parseStrF_finds {fuel : Nat} :
    ∀ (de : De) (start j : Nat), de.remaining < fuel → de.index ≤ j →
      de.slice[j]? = some 34 → countBackslashes de.slice j % 2 = 0 →
      (∀ k, de.index ≤ k → k < j →
        ¬ (de.slice[k]? = some 34 ∧ countBackslashes de.slice k % 2 = 0)) →
      parseStrF start fuel de =
        (if isValidUtf8 (subSlice de.slice start j) then
          .ok (subSlice de.slice start j, ⟨de.slice, j + 1⟩)
        else .error .InvalidUnicodeCodePoint) := by
  induction fuel with
  | zero => intro de start j h; omega
  | succ n ih =>
    intro de start j hf hle hq hev hfirst
    have hjlt : j < de.slice.length := (List.getElem?_eq_some.mp hq).1
    rcases Nat.eq_or_lt_of_le hle with heq | hlt
    · have hpk : de.peek = some 34 := by rw [De.peek_def, heq]; exact hq
      rw [parseStrF_step_found hpk (heq ▸ hev), heq]
      have : de.eatChar = ⟨de.slice, j + 1⟩ := by
        cases de
        simp only at heq ⊢
        rw [heq]
        rfl
      rw [this]
    · have hidxlt : de.index < de.slice.length := by omega
      obtain ⟨e, he⟩ : ∃ e, de.slice[de.index]? = some e :=
        ⟨de.slice[de.index], List.getElem?_eq_getElem hidxlt⟩
      have hpk : de.peek = some e := he
      have hstep : parseStrF start (n + 1) de = parseStrF start n de.eatChar := by
        refine parseStrF_step_cont hpk (fun hc => ?_)
        subst hc
        have := hfirst de.index (le_refl _) hlt
        have hnev : ¬ countBackslashes de.slice de.index % 2 = 0 :=
          fun hc' => this ⟨he, hc'⟩
        omega
      rw [hstep]
      have hrec := ih de.eatChar start j
        (by have := De.remaining_eatChar_lt hpk; omega)
        (by simp; omega) (by simpa using hq) (by simpa using hev)
        (by intro k h₁ h₂
            exact (by simpa using hfirst k (by simp at h₁; omega) h₂ :
              ¬ (de.eatChar.slice[k]? = some 34 ∧
                countBackslashes de.eatChar.slice k % 2 = 0)))
      simpa using hrec

theorem parseStrF_eof {fuel : Nat} :
    ∀ (de : De) (start : Nat), de.remaining < fuel →
      (∀ j, de.index ≤ j →
        ¬ (de.slice[j]? = some 34 ∧ countBackslashes de.slice j % 2 = 0)) →
      parseStrF start fuel de = .error .EofWhileParsingString := by
  induction fuel with
  | zero => intro de start h; omega
  | succ n ih =>
    intro de start hf hnone
    cases hpk : de.peek with
    | none => exact parseStrF_step_eof hpk
    | some e =>
      have hstep : parseStrF start (n + 1) de = parseStrF start n de.eatChar := by
        refine parseStrF_step_cont hpk (fun hc => ?_)
        subst hc
        have := hnone de.index (le_refl _)
        have hnev : ¬ countBackslashes de.slice de.index % 2 = 0 :=
          fun hc' => this ⟨hpk, hc'⟩
        omega
      rw [hstep]
      have hrec := ih de.eatChar start
        (by have := De.remaining_eatChar_lt hpk; omega)
        (by intro j h₁
            exact (by simpa using hnone j (by simp at h₁; omega) :
              ¬ (de.eatChar.slice[j]? = some 34 ∧
                countBackslashes de.eatChar.slice j % 2 = 0)))
      simpa using hrec

/-- C4: string decoding requires an opening `"` (else `InvalidType`) and
returns, with no un-escaping, the raw span strictly between the opening
quote and the first following `"` preceded by an even number of
consecutive backslashes; a span that is not valid UTF-8 is
`InvalidUnicodeCodePoint`, and input ending before such a closing quote is
`EofWhileParsingString`. -/
theorem parse_str_spec :
    (∀ (de de₁ : De) (c : Nat), de.parseWhitespace = (de₁, some c) →
      c ≠ 34 → deserializeStr de = .error .InvalidType) ∧
    (∀ de de₁ : De, de.parseWhitespace = (de₁, some 34) →
      deserializeStr de = parseStr de₁.eatChar) ∧
    (∀ (slice : List Nat) (start j : Nat), start ≤ j →
      slice[j]? = some 34 → countBackslashes slice j % 2 = 0 →
      (∀ k, start ≤ k → k < j →
        ¬ (slice[k]? = some 34 ∧ countBackslashes slice k % 2 = 0)) →
      parseStr ⟨slice, start⟩ =
        (if isValidUtf8 (subSlice slice start j) then
          .ok (subSlice slice start j, ⟨slice, j + 1⟩)
        else .error .InvalidUnicodeCodePoint)) ∧
    (∀ (slice : List Nat) (start : Nat),
      (∀ j, start ≤ j →
        ¬ (slice[j]? = some 34 ∧ countBackslashes slice j % 2 = 0)) →
      parseStr ⟨slice, start⟩ = .error .EofWhileParsingString) := by
  refine ⟨?_, ?_, ?_, ?_⟩
  · intro de de₁ c hpw hc
    simp only [deserializeStr, hpw]
    rw [if_neg hc]
  · intro de de₁ hpw
    simp only [deserializeStr, hpw, if_true]
  · intro slice start j hle hq hev hfirst
    exact parseStrF_finds ⟨slice, start⟩ start j (by simp [De.remaining]) hle
      hq hev hfirst
  · intro slice start hnone
    exact parseStrF_eof ⟨slice, start⟩ start (by simp [De.remaining]) hnone

/-- C4 witness: `"a\tb"` (escaped tab kept raw), a non-quote opener, a
lone continuation byte (invalid UTF-8), and an unterminated string. -/
theorem parse_str_spec_witness :
    deserializeStr ⟨[116, 114, 117, 101], 0⟩ = .error .InvalidType ∧
    parseStr ⟨[97, 92, 116, 98, 34], 0⟩ =
      .ok ([97, 92, 116, 98], ⟨[97, 92, 116, 98, 34], 5⟩) ∧
    parseStr ⟨[128, 34], 0⟩ = .error .InvalidUnicodeCodePoint ∧
    parseStr ⟨[97, 98], 0⟩ = .error .EofWhileParsingString := by
  refine ⟨?_, ?_, ?_, ?_⟩
  · exact parse_str_spec.1 ⟨[116, 114, 117, 101], 0⟩ ⟨[116, 114, 117, 101], 0⟩
      116 rfl (by decide)
  · have := parse_str_spec.2.2.1 [97, 92, 116, 98, 34] 0 4 (by decide) rfl
      (by decide) ?_
    · rw [this]; rfl
    · intro k h₁ h₂ hk
      interval_cases k
      · exact absurd hk.1 (by decide)
      · exact absurd hk.1 (by decide)
      · exact absurd hk.1 (by decide)
      · exact absurd hk.1 (by decide)
  · have := parse_str_spec.2.2.1 [128, 34] 0 1 (by decide) rfl (by decide) ?_
    · rw [this]; rfl
    · intro k h₁ h₂ hk
      interval_cases k
      exact absurd hk.1 (by decide)
  · refine parse_str_spec.2.2.2 [97, 98] 0 ?_
    intro j h₁ hj
    have hjlt := (List.getElem?_eq_some.mp hj.1).1
    simp only [List.length_cons, List.length_nil] at hjlt
    interval_cases j
    · exact absurd hj.1 (by decide)
    · exact absurd hj.1 (by decide)

/-! ### C2: transport of the decoders into whitespace-padded input

Every cursor primitive reads the slice only at or after the cursor (with
`parse_str`'s backward backslash scan stopped by the opening quote), so a
successful parse transports verbatim into `w ++ slice ++ t` at the shifted
cursor, provided the suffix `t` opens with whitespace (which never extends
a digit/float/chomp run). -/

@[simp] theorem padSt_slice (w t : List Nat) (de : De) :
    (padSt w t de).slice = w ++ de.slice ++ t := rfl

@[simp] theorem padSt_index (w t : List Nat) (de : De) :
    (padSt w t de).index = w.length + de.index := rfl

theorem padSt_eatChar (w t : List Nat) (de : De) :
    padSt w t de.eatChar = (padSt w t de).eatChar := by
  simp [padSt, De.eatChar, Nat.add_assoc]

theorem peek_pad {w t : List Nat} {de : De} {c : Nat} (h : de.peek = some c) :
    (padSt w t de).peek = some c := by
  rw [De.peek_def] at h ⊢
  have hlt : de.index < de.slice.length := (List.getElem?_eq_some.mp h).1
  simp only [padSt_slice, padSt_index, List.append_assoc]
  rw [List.getElem?_append_right (by omega), Nat.add_sub_cancel_left,
    List.getElem?_append_left hlt]
  exact h

theorem pw_pad {w t : List Nat} {de de' : De} {c : Nat}
    (h : de.parseWhitespace = (de', some c)) :
    (padSt w t de).parseWhitespace = (padSt w t de', some c) := by
  generalize hm : de.remaining = m
  induction m using Nat.strong_induction_on generalizing de with
  | _ m ih =>
  cases hp : de.peek with
  | none => rw [pw_step_eof hp] at h; simp at h
  | some e =>
    by_cases hws : isWs e
    · rw [pw_step_ws hp hws] at h
      rw [pw_step_ws (peek_pad hp) hws, ← padSt_eatChar]
      exact ih de.eatChar.remaining (hm ▸ De.remaining_eatChar_lt hp) h rfl
    · rw [pw_step_stop hp hws] at h
      injection h with h₁ h₂
      injection h₂ with h₂
      subst h₁ h₂
      exact pw_step_stop (peek_pad hp) hws

/-- Leading whitespace absorption: with an all-whitespace prefix `w`, the
whitespace scan started anywhere inside `w` equals the scan started right
after `w`. -/
theorem pw_absorb {w : List Nat} (u : List Nat) (hw : ∀ c ∈ w, isWs c) :
    ∀ i, i ≤ w.length →
      (⟨w ++ u, i⟩ : De).parseWhitespace = (⟨w ++ u, w.length⟩ : De).parseWhitespace := by
  intro i hle
  generalize hn : w.length - i = n
  induction n generalizing i with
  | zero =>
    have : i = w.length := by omega
    rw [this]
  | succ n ihn =>
    have hlt : i < w.length := by omega
    have hpk : (⟨w ++ u, i⟩ : De).peek = some (w.get ⟨i, hlt⟩) := by
      rw [De.peek_def]
      simp only
      rw [List.getElem?_append_left hlt]
      exact List.getElem?_eq_getElem hlt
    have hws : isWs (w.get ⟨i, hlt⟩) := hw _ (List.get_mem w i hlt)
    rw [pw_step_ws hpk hws]
    have : (⟨w ++ u, i⟩ : De).eatChar = (⟨w ++ u, i + 1⟩ : De) := rfl
    rw [this]
    exact ihn (i + 1) (by omega) (by omega)

/-- Whitespace padding transports through `from_slice` for any deserialize
routine `D` that (a) depends on its state only through `parse_whitespace`,
(b) preserves the slice and stays within it, and (c) transports into padded
input; the padded call consumes the whole padded input. -/
theorem fromSliceD_pad {α : Type} (D : De → Except DeErr (α × De))
    (hcongr : ∀ d₁ d₂ : De, d₁.parseWhitespace = d₂.parseWhitespace →
      D d₁ = D d₂)
    (hinv : ∀ de val de', D de = .ok (val, de') →
      de'.slice = de.slice ∧ (de.index ≤ de.slice.length →
        de'.index ≤ de.slice.length))
    (hpad : ∀ (w t : List Nat) (de : De) (val : α) (de' : De),
      (∀ c ∈ t, isWs c) → D de = .ok (val, de') →
      D (padSt w t de) = .ok (val, padSt w t de'))
    (w t v : List Nat) (hw : ∀ c ∈ w, isWs c) (ht : ∀ c ∈ t, isWs c)
    (val : α) (n : Nat) (h : fromSliceD D v = .ok (val, n)) :
    fromSliceD D (w ++ v ++ t) = .ok (val, (w ++ v ++ t).length) := by
  rcases hD : D ⟨v, 0⟩ with e | ⟨val₁, de₁⟩
  · unfold fromSliceD at h
    rw [hD] at h
    exact Except.noConfusion
      (show (Except.error e : Except DeErr (α × Nat)) = Except.ok (val, n) from h)
  unfold fromSliceD at h
  rw [hD] at h
  replace h : (do
      let m ← de₁.end_
      (Except.ok (val₁, m) : Except DeErr (α × Nat))) = Except.ok (val, n) := h
  rcases hend : de₁.end_ with e₂ | m
  · rw [hend] at h
    exact Except.noConfusion
      (show (Except.error e₂ : Except DeErr (α × Nat)) = Except.ok (val, n) from h)
  rw [hend] at h
  replace h : (Except.ok (val₁, m) : Except DeErr (α × Nat)) = Except.ok (val, n) := h
  injection h with h'
  injection h' with hval hn
  subst hval
  obtain ⟨hsl, hidx⟩ := hinv _ _ _ hD
  have hsl' : de₁.slice = v := hsl
  have hidx' : de₁.index ≤ v.length := hidx (by simp)
  -- the unpadded `end` succeeded, so everything after the value is whitespace
  have hclass := end_spec de₁ (by rw [hsl']; exact hidx')
  have hok : de₁.end_ = .ok de₁.slice.length := by
    rcases hclass.1 with h' | h'
    · exact h'
    · rw [hend] at h'; cases h'
  have hws₁ := hclass.2.mp hok
  -- move the padded call's cursor past the whitespace prefix
  have h2 : padSt w t (⟨v, 0⟩ : De) = ⟨w ++ (v ++ t), w.length⟩ := by
    simp [padSt]
  have h0 : (⟨w ++ v ++ t, 0⟩ : De).parseWhitespace =
      (padSt w t (⟨v, 0⟩ : De)).parseWhitespace := by
    rw [List.append_assoc, h2]
    exact pw_absorb (v ++ t) hw 0 (by omega)
  have hDres := hpad w t ⟨v, 0⟩ val₁ de₁ ht hD
  have hDpadded : D ⟨w ++ v ++ t, 0⟩ = .ok (val₁, padSt w t de₁) :=
    (hcongr _ _ h0).trans hDres
  -- the padded `end` consumes the value's trailing whitespace and `t`
  have hlen : (padSt w t de₁).slice = w ++ v ++ t := by
    simp [padSt, hsl']
  have hle' : (padSt w t de₁).index ≤ (padSt w t de₁).slice.length := by
    rw [hlen]
    simp only [padSt_index, List.append_assoc, List.length_append]
    omega
  have hendpad : (padSt w t de₁).end_ = .ok ((w ++ v ++ t).length) := by
    have := (end_spec (padSt w t de₁) hle').2.mpr ?_
    · rw [hlen] at this
      exact this
    · intro j h₁ h₂
      rw [hlen] at h₂
      simp only [padSt_index] at h₁
      simp only [hlen]
      by_cases hj : j < w.length + v.length
      · have hj₂ : w.length ≤ j := by omega
        have hjv : j - w.length < v.length := by omega
        obtain ⟨c, hc, hcw⟩ := by
          refine hws₁ (j - w.length) ?_ ?_
          · omega
          · rw [hsl']; exact hjv
        refine ⟨c, ?_, hcw⟩
        rw [List.append_assoc, List.getElem?_append_right hj₂]
        rw [hsl'] at hc
        rw [List.getElem?_append_left hjv]
        exact hc
      · have hj₂ : w.length + v.length ≤ j := by omega
        have hjt : j - (w.length + v.length) < t.length := by
          simp only [List.append_assoc, List.length_append] at h₂
          omega
        refine ⟨t.get ⟨j - (w.length + v.length), hjt⟩, ?_,
          ht _ (List.get_mem t _ hjt)⟩
        rw [List.getElem?_append_right (by simp; omega)]
        simp only [List.length_append]
        exact List.getElem?_eq_getElem hjt
  unfold fromSliceD
  rw [hDpadded]
  show (do
      let m ← (padSt w t de₁).end_
      (Except.ok (val₁, m) : Except DeErr (α × Nat))) =
    Except.ok (val₁, (w ++ v ++ t).length)
  rw [hendpad]
  rfl

theorem parseIdent_ok :
    ∀ (l : List Nat) (de de' : De), de.index ≤ de.slice.length →
      de.parseIdent l = .ok de' →
      de' = ⟨de.slice, de.index + l.length⟩ ∧
        de.index + l.length ≤ de.slice.length := by
  intro l
  induction l with
  | nil =>
    intro de de' hle h
    injection h with h'
    subst h'
    cases de
    exact ⟨rfl, by simpa using hle⟩
  | cons c rest ih =>
    intro de de' hle h
    unfold De.parseIdent at h
    cases hpk : de.peek with
    | none => rw [show de.nextChar = (de, none) by unfold De.nextChar; rw [hpk]] at h; cases h
    | some c' =>
      rw [show de.nextChar = (de.eatChar, some c') by
        unfold De.nextChar; rw [hpk]] at h
      replace h : (if c = c' then de.eatChar.parseIdent rest
          else (.error .ExpectedSomeIdent : Except DeErr De)) = .ok de' := h
      by_cases hc : c = c'
      · rw [if_pos hc] at h
        have hlt := De.peek_some_lt hpk
        obtain ⟨h₁, h₂⟩ := ih de.eatChar de' (by simp; omega) h
        constructor
        · rw [h₁]; simp [List.length_cons]; omega
        · simp only [De.eatChar_slice, De.eatChar_index] at h₂
          simp [List.length_cons]; omega
      · rw [if_neg hc] at h; cases h

theorem parseIdent_pad (w t : List Nat) :
    ∀ (l : List Nat) (de de' : De), de.parseIdent l = .ok de' →
      (padSt w t de).parseIdent l = .ok (padSt w t de') := by
  intro l
  induction l with
  | nil =>
    intro de de' h
    injection h with h'
    subst h'
    rfl
  | cons c rest ih =>
    intro de de' h
    unfold De.parseIdent at h ⊢
    cases hpk : de.peek with
    | none => rw [show de.nextChar = (de, none) by unfold De.nextChar; rw [hpk]] at h; cases h
    | some c' =>
      rw [show de.nextChar = (de.eatChar, some c') by
        unfold De.nextChar; rw [hpk]] at h
      rw [show (padSt w t de).nextChar = ((padSt w t de).eatChar, some c') by
        unfold De.nextChar; rw [peek_pad hpk]]
      replace h : (if c = c' then de.eatChar.parseIdent rest
          else (.error .ExpectedSomeIdent : Except DeErr De)) = .ok de' := h
      show (if c = c' then (padSt w t de).eatChar.parseIdent rest
          else (.error .ExpectedSomeIdent : Except DeErr De)) = _
      by_cases hc : c = c'
      · rw [if_pos hc] at h
        rw [if_pos hc, ← padSt_eatChar]
        exact ih de.eatChar de' h
      · rw [if_neg hc] at h; cases h

theorem deserializeBool_congr (d₁ d₂ : De)
    (h : d₁.parseWhitespace = d₂.parseWhitespace) :
    deserializeBool d₁ = deserializeBool d₂ := by
  unfold deserializeBool
  rw [h]

theorem deserializeBool_inv (de : De) (val : Bool) (de' : De)
    (h : deserializeBool de = .ok (val, de')) :
    de'.slice = de.slice ∧
      (de.index ≤ de.slice.length → de'.index ≤ de.slice.length) := by
  obtain ⟨g₁, g₂, g₃, g₄, g₅, g₆⟩ := parseWhitespace_spec de
  unfold deserializeBool at h
  rcases hpw : de.parseWhitespace with ⟨de₁, p⟩
  rw [hpw] at h g₂ g₅
  cases p with
  | none => cases h
  | some c =>
    simp only at g₂ g₅
    have hle₁ : de₁.index < de.slice.length :=
      (List.getElem?_eq_some.mp g₅.symm).1
    replace h : (if c = 116 then
        (do let de ← de₁.eatChar.parseIdent [114, 117, 101]
            Except.ok (true, de))
      else if c = 102 then
        (do let de ← de₁.eatChar.parseIdent [97, 108, 115, 101]
            Except.ok (false, de))
      else (Except.error .InvalidType : Except DeErr (Bool × De))) =
        .ok (val, de') := h
    by_cases hc : c = 116
    · rw [if_pos hc] at h
      rcases hid : de₁.eatChar.parseIdent [114, 117, 101] with e | de₂
      · rw [hid] at h
        exact Except.noConfusion (show (Except.error e : Except DeErr (Bool × De)) =
          .ok (val, de') from h)
      · rw [hid] at h
        replace h : (Except.ok (true, de₂) : Except DeErr (Bool × De)) =
            .ok (val, de') := h
        injection h with h'
        injection h' with hval hde
        subst hde
        obtain ⟨h₁, h₂⟩ := parseIdent_ok _ de₁.eatChar de₂ (by simp only [De.eatChar_slice, De.eatChar_index, g₂]; omega) hid
        rw [h₁]
        simp only [De.eatChar_slice, De.eatChar_index] at h₂ ⊢
        exact ⟨g₂, fun _ => by rw [← g₂]; simpa using h₂⟩
    · rw [if_neg hc] at h
      by_cases hc₂ : c = 102
      · rw [if_pos hc₂] at h
        rcases hid : de₁.eatChar.parseIdent [97, 108, 115, 101] with e | de₂
        · rw [hid] at h
          exact Except.noConfusion (show (Except.error e : Except DeErr (Bool × De)) =
            .ok (val, de') from h)
        · rw [hid] at h
          replace h : (Except.ok (false, de₂) : Except DeErr (Bool × De)) =
              .ok (val, de') := h
          injection h with h'
          injection h' with hval hde
          subst hde
          obtain ⟨h₁, h₂⟩ := parseIdent_ok _ de₁.eatChar de₂ (by simp only [De.eatChar_slice, De.eatChar_index, g₂]; omega) hid
          rw [h₁]
          simp only [De.eatChar_slice, De.eatChar_index] at h₂ ⊢
          exact ⟨g₂, fun _ => by rw [← g₂]; simpa using h₂⟩
      · rw [if_neg hc₂] at h
        cases h

theorem deserializeBool_pad (w t : List Nat) (de : De) (val : Bool) (de' : De)
    (_ht : ∀ c ∈ t, isWs c)
    (h : deserializeBool de = .ok (val, de')) :
    deserializeBool (padSt w t de) = .ok (val, padSt w t de') := by
  unfold deserializeBool at h ⊢
  rcases hpw : de.parseWhitespace with ⟨de₁, p⟩
  rw [hpw] at h
  cases p with
  | none => cases h
  | some c =>
    rw [pw_pad hpw]
    replace h : (if c = 116 then
        (do let de ← de₁.eatChar.parseIdent [114, 117, 101]
            Except.ok (true, de))
      else if c = 102 then
        (do let de ← de₁.eatChar.parseIdent [97, 108, 115, 101]
            Except.ok (false, de))
      else (Except.error .InvalidType : Except DeErr (Bool × De))) =
        .ok (val, de') := h
    show (if c = 116 then
        (do let de ← (padSt w t de₁).eatChar.parseIdent [114, 117, 101]
            Except.ok (true, de))
      else if c = 102 then
        (do let de ← (padSt w t de₁).eatChar.parseIdent [97, 108, 115, 101]
            Except.ok (false, de))
      else (Except.error .InvalidType : Except DeErr (Bool × De))) = _
    by_cases hc : c = 116
    · rw [if_pos hc] at h ⊢
      rcases hid : de₁.eatChar.parseIdent [114, 117, 101] with e | de₂
      · rw [hid] at h
        exact Except.noConfusion (show (Except.error e : Except DeErr (Bool × De)) =
          .ok (val, de') from h)
      · rw [hid] at h
        replace h : (Except.ok (true, de₂) : Except DeErr (Bool × De)) =
            .ok (val, de') := h
        injection h with h'
        injection h' with hval hde
        subst hval; subst hde
        rw [show (padSt w t de₁).eatChar = padSt w t de₁.eatChar from
          (padSt_eatChar w t de₁).symm]
        rw [parseIdent_pad w t _ _ _ hid]
        rfl
    · rw [if_neg hc] at h ⊢
      by_cases hc₂ : c = 102
      · rw [if_pos hc₂] at h ⊢
        rcases hid : de₁.eatChar.parseIdent [97, 108, 115, 101] with e | de₂
        · rw [hid] at h
          exact Except.noConfusion (show (Except.error e : Except DeErr (Bool × De)) =
            .ok (val, de') from h)
        · rw [hid] at h
          replace h : (Except.ok (false, de₂) : Except DeErr (Bool × De)) =
              .ok (val, de') := h
          injection h with h'
          injection h' with hval hde
          subst hval; subst hde
          rw [show (padSt w t de₁).eatChar = padSt w t de₁.eatChar from
            (padSt_eatChar w t de₁).symm]
          rw [parseIdent_pad w t _ _ _ hid]
          rfl
      · rw [if_neg hc₂] at h
        cases h

theorem ws_not_digit {c : Nat} (h : isWs c) : ¬ isDigit c := by
  simp only [isWs, decide_eq_true_eq] at h
  simp only [isDigit, decide_eq_true_eq]
  omega

theorem ws_not_float {c : Nat} (h : isWs c) : ¬ isFloatByte c := by
  simp only [isWs, decide_eq_true_eq] at h
  simp only [isFloatByte, isDigit, decide_eq_true_eq, not_or]
  omega

theorem peek_pad_eof {w t : List Nat} {de : De} (h : de.peek = none) :
    (padSt w t de).peek = t[de.index - de.slice.length]? := by
  rw [De.peek_def] at h ⊢
  have hge : de.slice.length ≤ de.index := List.getElem?_eq_none_iff.mp h
  simp only [padSt_slice, padSt_index, List.append_assoc]
  rw [List.getElem?_append_right (by omega), Nat.add_sub_cancel_left,
    List.getElem?_append_right hge]

theorem remaining_pad (w t : List Nat) (de : De) :
    (padSt w t de).remaining = de.slice.length + t.length - de.index := by
  simp only [De.remaining, padSt_slice, padSt_index, List.length_append,
    List.append_assoc]
  omega

theorem uloop_succ (max a n : Nat) (de : De) :
    parseUnsignedLoopF max (a + 1) n de =
      match de.peek with
      | some c =>
        if isDigit c then
          match uChecked max (n * 10) with
          | none => .error .InvalidNumber
          | some n10 =>
            match uChecked max (n10 + (c - 48)) with
            | none => .error .InvalidNumber
            | some n' => parseUnsignedLoopF max a n' de.eatChar
        else .ok (n, de)
      | none => .ok (n, de) := rfl

theorem parseUnsignedLoopF_inv {max : Nat} :
    ∀ (fuel n : Nat) (de : De) (r : Nat × De),
      parseUnsignedLoopF max fuel n de = .ok r →
      r.2.slice = de.slice ∧ de.index ≤ r.2.index ∧
        (de.index ≤ de.slice.length → r.2.index ≤ de.slice.length) := by
  intro fuel
  induction fuel with
  | zero =>
    intro n de r h
    injection h with h'
    subst h'
    exact ⟨rfl, le_refl _, fun h => h⟩
  | succ a ih =>
    intro n de r h
    rw [uloop_succ] at h
    cases hpk : de.peek with
    | none =>
      rw [hpk] at h
      injection h with h'
      subst h'
      exact ⟨rfl, le_refl _, fun h => h⟩
    | some c =>
      rw [hpk] at h
      replace h : (if isDigit c then
          match uChecked max (n * 10) with
          | none => .error .InvalidNumber
          | some n10 =>
            match uChecked max (n10 + (c - 48)) with
            | none => .error .InvalidNumber
            | some n' => parseUnsignedLoopF max a n' de.eatChar
        else (.ok (n, de) : Except DeErr (Nat × De))) = .ok r := h
      by_cases hd : isDigit c
      · rw [if_pos hd] at h
        cases hm : uChecked max (n * 10) with
        | none =>
          rw [hm] at h
          exact Except.noConfusion (show (Except.error .InvalidNumber :
            Except DeErr (Nat × De)) = .ok r from h)
        | some n10 =>
          rw [hm] at h
          replace h : (match uChecked max (n10 + (c - 48)) with
            | none => .error .InvalidNumber
            | some n' => parseUnsignedLoopF max a n' de.eatChar :
              Except DeErr (Nat × De)) = .ok r := h
          cases ha : uChecked max (n10 + (c - 48)) with
          | none =>
            rw [ha] at h
            exact Except.noConfusion (show (Except.error .InvalidNumber :
              Except DeErr (Nat × De)) = .ok r from h)
          | some n' =>
            rw [ha] at h
            replace h : parseUnsignedLoopF max a n' de.eatChar = .ok r := h
            have hlt := De.peek_some_lt hpk
            obtain ⟨h₁, h₂, h₃⟩ := ih n' de.eatChar r h
            simp only [De.eatChar_slice, De.eatChar_index] at h₁ h₂ h₃
            exact ⟨h₁, by omega, fun _ => h₃ (by omega)⟩
      · rw [if_neg hd] at h
        injection h with h'
        subst h'
        exact ⟨rfl, le_refl _, fun h => h⟩

theorem parseUnsignedLoopF_pad {max : Nat} {w t : List Nat}
    (ht : ∀ c ∈ t, isWs c) :
    ∀ (f₁ f₂ n : Nat) (de : De) (r : Nat × De),
      de.remaining < f₁ → (padSt w t de).remaining < f₂ →
      parseUnsignedLoopF max f₁ n de = .ok r →
      parseUnsignedLoopF max f₂ n (padSt w t de) = .ok (r.1, padSt w t r.2) := by
  intro f₁
  induction f₁ with
  | zero => intro f₂ n de r h; omega
  | succ a ih =>
    intro f₂ n de r hf₁ hf₂ h
    cases f₂ with
    | zero => omega
    | succ b =>
    rw [uloop_succ] at h
    rw [uloop_succ]
    cases hpk : de.peek with
    | none =>
      rw [hpk] at h
      injection h with h'
      subst h'
      cases hpk' : (padSt w t de).peek with
      | none => rfl
      | some c =>
        have hmem : c ∈ t := by
          rw [peek_pad_eof hpk] at hpk'
          exact List.getElem?_mem hpk'
        show (if isDigit c then _ else (.ok (n, padSt w t de) :
          Except DeErr (Nat × De))) = _
        rw [if_neg (ws_not_digit (ht c hmem))]
    | some c =>
      rw [hpk] at h
      rw [peek_pad (w := w) (t := t) hpk]
      replace h : (if isDigit c then
          match uChecked max (n * 10) with
          | none => .error .InvalidNumber
          | some n10 =>
            match uChecked max (n10 + (c - 48)) with
            | none => .error .InvalidNumber
            | some n' => parseUnsignedLoopF max a n' de.eatChar
        else (.ok (n, de) : Except DeErr (Nat × De))) = .ok r := h
      show (if isDigit c then
          match uChecked max (n * 10) with
          | none => .error .InvalidNumber
          | some n10 =>
            match uChecked max (n10 + (c - 48)) with
            | none => .error .InvalidNumber
            | some n' => parseUnsignedLoopF max b n' (padSt w t de).eatChar
        else (.ok (n, padSt w t de) : Except DeErr (Nat × De))) = _
      by_cases hd : isDigit c
      · rw [if_pos hd] at h ⊢
        cases hm : uChecked max (n * 10) with
        | none =>
          try rw [hm] at h
          exact Except.noConfusion (show (Except.error .InvalidNumber :
            Except DeErr (Nat × De)) = .ok r from h)
        | some n10 =>
          try rw [hm] at h
          try rw [hm]
          replace h : (match uChecked max (n10 + (c - 48)) with
            | none => .error .InvalidNumber
            | some n' => parseUnsignedLoopF max a n' de.eatChar :
              Except DeErr (Nat × De)) = .ok r := h
          show (match uChecked max (n10 + (c - 48)) with
            | none => .error .InvalidNumber
            | some n' => parseUnsignedLoopF max b n' (padSt w t de).eatChar :
              Except DeErr (Nat × De)) = _
          cases ha : uChecked max (n10 + (c - 48)) with
          | none =>
            try rw [ha] at h
            exact Except.noConfusion (show (Except.error .InvalidNumber :
              Except DeErr (Nat × De)) = .ok r from h)
          | some n' =>
            try rw [ha] at h
            try rw [ha]
            replace h : parseUnsignedLoopF max a n' de.eatChar = .ok r := h
            show parseUnsignedLoopF max b n' (padSt w t de).eatChar = _
            have hlt := De.peek_some_lt hpk
            rw [← padSt_eatChar]
            refine ih b n' de.eatChar r ?_ ?_ h
            · have := De.remaining_eatChar_lt hpk
              omega
            · rw [remaining_pad] at hf₂ ⊢
              simp only [De.eatChar_slice, De.eatChar_index]
              omega
      · rw [if_neg hd] at h ⊢
        injection h with h'
        subst h'
        rfl

theorem deserializeUnsigned_congr (max : Nat) (d₁ d₂ : De)
    (h : d₁.parseWhitespace = d₂.parseWhitespace) :
    deserializeUnsigned max d₁ = deserializeUnsigned max d₂ := by
  unfold deserializeUnsigned
  rw [h]

theorem deserializeUnsigned_inv (max : Nat) (de : De) (val : Nat) (de' : De)
    (h : deserializeUnsigned max de = .ok (val, de')) :
    de'.slice = de.slice ∧
      (de.index ≤ de.slice.length → de'.index ≤ de.slice.length) := by
  obtain ⟨g₁, g₂, g₃, g₄, g₅, g₆⟩ := parseWhitespace_spec de
  unfold deserializeUnsigned at h
  rcases hpw : de.parseWhitespace with ⟨de₁, p⟩
  rw [hpw] at h g₂ g₅
  cases p with
  | none => cases h
  | some c =>
    simp only at g₂ g₅
    have hle₁ : de₁.index < de.slice.length :=
      (List.getElem?_eq_some.mp g₅.symm).1
    replace h : (if c = 45 then (Except.error .InvalidNumber : Except DeErr (Nat × De))
      else if c = 48 then .ok (0, de₁.eatChar)
      else if 49 ≤ c ∧ c ≤ 57 then
        parseUnsignedLoopF max (de₁.remaining + 1) (c - 48) de₁.eatChar
      else .error .InvalidType) = .ok (val, de') := h
    by_cases h45 : c = 45
    · rw [if_pos h45] at h; cases h
    rw [if_neg h45] at h
    by_cases h48 : c = 48
    · rw [if_pos h48] at h
      injection h with h'
      injection h' with hval hde
      subst hde
      refine ⟨by simpa using g₂, fun _ => ?_⟩
      simp only [De.eatChar_index]
      omega
    rw [if_neg h48] at h
    by_cases h19 : 49 ≤ c ∧ c ≤ 57
    · rw [if_pos h19] at h
      obtain ⟨h₁, h₂, h₃⟩ := parseUnsignedLoopF_inv _ _ _ _ h
      simp only [De.eatChar_slice, De.eatChar_index] at h₁ h₃
      refine ⟨by rw [h₁]; exact g₂, fun _ => ?_⟩
      rw [← g₂]
      refine h₃ ?_
      rw [g₂]
      omega
    · rw [if_neg h19] at h; cases h

theorem deserializeUnsigned_pad (max : Nat) (w t : List Nat) (de : De)
    (val : Nat) (de' : De) (ht : ∀ c ∈ t, isWs c)
    (h : deserializeUnsigned max de = .ok (val, de')) :
    deserializeUnsigned max (padSt w t de) = .ok (val, padSt w t de') := by
  unfold deserializeUnsigned at h ⊢
  rcases hpw : de.parseWhitespace with ⟨de₁, p⟩
  rw [hpw] at h
  cases p with
  | none => cases h
  | some c =>
    rw [pw_pad hpw]
    replace h : (if c = 45 then (Except.error .InvalidNumber : Except DeErr (Nat × De))
      else if c = 48 then .ok (0, de₁.eatChar)
      else if 49 ≤ c ∧ c ≤ 57 then
        parseUnsignedLoopF max (de₁.remaining + 1) (c - 48) de₁.eatChar
      else .error .InvalidType) = .ok (val, de') := h
    show (if c = 45 then (Except.error .InvalidNumber : Except DeErr (Nat × De))
      else if c = 48 then .ok (0, (padSt w t de₁).eatChar)
      else if 49 ≤ c ∧ c ≤ 57 then
        parseUnsignedLoopF max ((padSt w t de₁).remaining + 1) (c - 48)
          (padSt w t de₁).eatChar
      else .error .InvalidType) = _
    by_cases h45 : c = 45
    · rw [if_pos h45] at h; cases h
    rw [if_neg h45] at h ⊢
    by_cases h48 : c = 48
    · rw [if_pos h48] at h ⊢
      injection h with h'
      injection h' with hval hde
      subst hval; subst hde
      rw [← padSt_eatChar]
    rw [if_neg h48] at h ⊢
    by_cases h19 : 49 ≤ c ∧ c ≤ 57
    · rw [if_pos h19] at h ⊢
      rw [← padSt_eatChar]
      have := parseUnsignedLoopF_pad (w := w) ht (de₁.remaining + 1)
        ((padSt w t de₁).remaining + 1) (c - 48) de₁.eatChar (val, de') ?_ ?_ h
      · exact this
      · have : de₁.eatChar.remaining ≤ de₁.remaining := by
          simp only [De.remaining, De.eatChar_slice, De.eatChar_index]
          omega
        omega
      · rw [remaining_pad, remaining_pad]
        simp only [De.eatChar_slice, De.eatChar_index]
        omega
    · rw [if_neg h19] at h; cases h

theorem sloop_succ (min max : Int) (signed : Bool) (a : Nat) (n : Int)
    (de : De) :
    parseSignedLoopF min max signed (a + 1) n de =
      match de.peek with
      | some c =>
        if isDigit c then
          match iChecked min max (n * 10) with
          | none => .error .InvalidNumber
          | some n10 =>
            match iChecked min max
                (n10 + (c - 48 : Nat) * (if signed then -1 else 1)) with
            | none => .error .InvalidNumber
            | some n' => parseSignedLoopF min max signed a n' de.eatChar
        else .ok (n, de)
      | none => .ok (n, de) := rfl

theorem parseSignedLoopF_inv {min max : Int} {signed : Bool} :
    ∀ (fuel : Nat) (n : Int) (de : De) (r : Int × De),
      parseSignedLoopF min max signed fuel n de = .ok r →
      r.2.slice = de.slice ∧ de.index ≤ r.2.index ∧
        (de.index ≤ de.slice.length → r.2.index ≤ de.slice.length) := by
  intro fuel
  induction fuel with
  | zero =>
    intro n de r h
    injection h with h'
    subst h'
    exact ⟨rfl, le_refl _, fun h => h⟩
  | succ a ih =>
    intro n de r h
    rw [sloop_succ] at h
    cases hpk : de.peek with
    | none =>
      rw [hpk] at h
      injection h with h'
      subst h'
      exact ⟨rfl, le_refl _, fun h => h⟩
    | some c =>
      rw [hpk] at h
      replace h : (if isDigit c then
          match iChecked min max (n * 10) with
          | none => .error .InvalidNumber
          | some n10 =>
            match iChecked min max
                (n10 + (c - 48 : Nat) * (if signed then -1 else 1)) with
            | none => .error .InvalidNumber
            | some n' => parseSignedLoopF min max signed a n' de.eatChar
        else (.ok (n, de) : Except DeErr (Int × De))) = .ok r := h
      by_cases hd : isDigit c
      · rw [if_pos hd] at h
        cases hm : iChecked min max (n * 10) with
        | none =>
          try rw [hm] at h
          exact Except.noConfusion (show (Except.error .InvalidNumber :
            Except DeErr (Int × De)) = .ok r from h)
        | some n10 =>
          try rw [hm] at h
          replace h : (match iChecked min max
              (n10 + (c - 48 : Nat) * (if signed then -1 else 1)) with
            | none => .error .InvalidNumber
            | some n' => parseSignedLoopF min max signed a n' de.eatChar :
              Except DeErr (Int × De)) = .ok r := h
          cases ha : iChecked min max
              (n10 + (c - 48 : Nat) * (if signed then -1 else 1)) with
          | none =>
            try rw [ha] at h
            exact Except.noConfusion (show (Except.error .InvalidNumber :
              Except DeErr (Int × De)) = .ok r from h)
          | some n' =>
            try rw [ha] at h
            replace h : parseSignedLoopF min max signed a n' de.eatChar =
              .ok r := h
            have hlt := De.peek_some_lt hpk
            obtain ⟨h₁, h₂, h₃⟩ := ih n' de.eatChar r h
            simp only [De.eatChar_slice, De.eatChar_index] at h₁ h₂ h₃
            exact ⟨h₁, by omega, fun _ => h₃ (by omega)⟩
      · rw [if_neg hd] at h
        injection h with h'
        subst h'
        exact ⟨rfl, le_refl _, fun h => h⟩

theorem parseSignedLoopF_pad {min max : Int} {signed : Bool} {w t : List Nat}
    (ht : ∀ c ∈ t, isWs c) :
    ∀ (f₁ f₂ : Nat) (n : Int) (de : De) (r : Int × De),
      de.remaining < f₁ → (padSt w t de).remaining < f₂ →
      parseSignedLoopF min max signed f₁ n de = .ok r →
      parseSignedLoopF min max signed f₂ n (padSt w t de) =
        .ok (r.1, padSt w t r.2) := by
  intro f₁
  induction f₁ with
  | zero => intro f₂ n de r h; omega
  | succ a ih =>
    intro f₂ n de r hf₁ hf₂ h
    cases f₂ with
    | zero => omega
    | succ b =>
    rw [sloop_succ] at h
    rw [sloop_succ]
    cases hpk : de.peek with
    | none =>
      rw [hpk] at h
      injection h with h'
      subst h'
      cases hpk' : (padSt w t de).peek with
      | none => rfl
      | some c =>
        have hmem : c ∈ t := by
          rw [peek_pad_eof hpk] at hpk'
          exact List.getElem?_mem hpk'
        show (if isDigit c then _ else (.ok (n, padSt w t de) :
          Except DeErr (Int × De))) = _
        rw [if_neg (ws_not_digit (ht c hmem))]
    | some c =>
      rw [hpk] at h
      rw [peek_pad (w := w) (t := t) hpk]
      replace h : (if isDigit c then
          match iChecked min max (n * 10) with
          | none => .error .InvalidNumber
          | some n10 =>
            match iChecked min max
                (n10 + (c - 48 : Nat) * (if signed then -1 else 1)) with
            | none => .error .InvalidNumber
            | some n' => parseSignedLoopF min max signed a n' de.eatChar
        else (.ok (n, de) : Except DeErr (Int × De))) = .ok r := h
      show (if isDigit c then
          match iChecked min max (n * 10) with
          | none => .error .InvalidNumber
          | some n10 =>
            match iChecked min max
                (n10 + (c - 48 : Nat) * (if signed then -1 else 1)) with
            | none => .error .InvalidNumber
            | some n' => parseSignedLoopF min max signed b n' (padSt w t de).eatChar
        else (.ok (n, padSt w t de) : Except DeErr (Int × De))) = _
      by_cases hd : isDigit c
      · rw [if_pos hd] at h ⊢
        cases hm : iChecked min max (n * 10) with
        | none =>
          try rw [hm] at h
          exact Except.noConfusion (show (Except.error .InvalidNumber :
            Except DeErr (Int × De)) = .ok r from h)
        | some n10 =>
          try rw [hm] at h
          try rw [hm]
          replace h : (match iChecked min max
              (n10 + (c - 48 : Nat) * (if signed then -1 else 1)) with
            | none => .error .InvalidNumber
            | some n' => parseSignedLoopF min max signed a n' de.eatChar :
              Except DeErr (Int × De)) = .ok r := h
          show (match iChecked min max
              (n10 + (c - 48 : Nat) * (if signed then -1 else 1)) with
            | none => .error .InvalidNumber
            | some n' => parseSignedLoopF min max signed b n' (padSt w t de).eatChar :
              Except DeErr (Int × De)) = _
          cases ha : iChecked min max
              (n10 + (c - 48 : Nat) * (if signed then -1 else 1)) with
          | none =>
            try rw [ha] at h
            exact Except.noConfusion (show (Except.error .InvalidNumber :
              Except DeErr (Int × De)) = .ok r from h)
          | some n' =>
            try rw [ha] at h
            try rw [ha]
            replace h : parseSignedLoopF min max signed a n' de.eatChar =
              .ok r := h
            show parseSignedLoopF min max signed b n' (padSt w t de).eatChar = _
            have hlt := De.peek_some_lt hpk
            rw [← padSt_eatChar]
            refine ih b n' de.eatChar r ?_ ?_ h
            · have := De.remaining_eatChar_lt hpk
              omega
            · rw [remaining_pad] at hf₂ ⊢
              simp only [De.eatChar_slice, De.eatChar_index]
              omega
      · rw [if_neg hd] at h ⊢
        injection h with h'
        subst h'
        rfl

theorem signedBody_inv (min max : Int) (signed : Bool) (de : De) (val : Int)
    (de' : De) (h : signedBody min max signed de = .ok (val, de')) :
    de'.slice = de.slice ∧ de.index ≤ de'.index ∧
      (de.index ≤ de.slice.length → de'.index ≤ de.slice.length) := by
  unfold signedBody at h
  cases hpk : de.peek with
  | none => rw [hpk] at h; cases h
  | some c =>
    rw [hpk] at h
    replace h : (if c = 48 then .ok (0, de.eatChar)
      else if 49 ≤ c ∧ c ≤ 57 then
        parseSignedLoopF min max signed (de.eatChar.remaining + 1)
          ((c - 48 : Nat) * (if signed then -1 else 1)) de.eatChar
      else (.error .InvalidType : Except DeErr (Int × De))) = .ok (val, de') := h
    have hlt := De.peek_some_lt hpk
    by_cases h48 : c = 48
    · rw [if_pos h48] at h
      injection h with h'
      injection h' with hval hde
      subst hde
      exact ⟨rfl, by simp, fun _ => by simp only [De.eatChar_index]; omega⟩
    rw [if_neg h48] at h
    by_cases h19 : 49 ≤ c ∧ c ≤ 57
    · rw [if_pos h19] at h
      obtain ⟨h₁, h₂, h₃⟩ := parseSignedLoopF_inv _ _ _ _ h
      simp only [De.eatChar_slice, De.eatChar_index] at h₁ h₂ h₃
      exact ⟨h₁, by omega, fun _ => h₃ (by omega)⟩
    · rw [if_neg h19] at h; cases h

theorem signedBody_pad (min max : Int) (signed : Bool) (w t : List Nat)
    (de : De) (val : Int) (de' : De) (ht : ∀ c ∈ t, isWs c)
    (h : signedBody min max signed de = .ok (val, de')) :
    signedBody min max signed (padSt w t de) = .ok (val, padSt w t de') := by
  unfold signedBody at h ⊢
  cases hpk : de.peek with
  | none => rw [hpk] at h; cases h
  | some c =>
    rw [hpk] at h
    rw [peek_pad (w := w) (t := t) hpk]
    replace h : (if c = 48 then .ok (0, de.eatChar)
      else if 49 ≤ c ∧ c ≤ 57 then
        parseSignedLoopF min max signed (de.eatChar.remaining + 1)
          ((c - 48 : Nat) * (if signed then -1 else 1)) de.eatChar
      else (.error .InvalidType : Except DeErr (Int × De))) = .ok (val, de') := h
    show (if c = 48 then .ok (0, (padSt w t de).eatChar)
      else if 49 ≤ c ∧ c ≤ 57 then
        parseSignedLoopF min max signed ((padSt w t de).eatChar.remaining + 1)
          ((c - 48 : Nat) * (if signed then -1 else 1)) (padSt w t de).eatChar
      else (.error .InvalidType : Except DeErr (Int × De))) = _
    have hlt := De.peek_some_lt hpk
    by_cases h48 : c = 48
    · rw [if_pos h48] at h ⊢
      injection h with h'
      injection h' with hval hde
      subst hval; subst hde
      rw [← padSt_eatChar]
    rw [if_neg h48] at h ⊢
    by_cases h19 : 49 ≤ c ∧ c ≤ 57
    · rw [if_pos h19] at h ⊢
      rw [← padSt_eatChar]
      refine parseSignedLoopF_pad (w := w) ht (de.eatChar.remaining + 1)
        ((padSt w t de).eatChar.remaining + 1) _ de.eatChar (val, de') ?_ ?_ h
      · omega
      · rw [← padSt_eatChar, remaining_pad]
        simp only [De.eatChar_slice, De.eatChar_index]
        omega
    · rw [if_neg h19] at h; cases h

theorem deserializeSigned_congr (min max : Int) (d₁ d₂ : De)
    (h : d₁.parseWhitespace = d₂.parseWhitespace) :
    deserializeSigned min max d₁ = deserializeSigned min max d₂ := by
  unfold deserializeSigned
  rw [h]

theorem deserializeSigned_inv (min max : Int) (de : De) (val : Int) (de' : De)
    (h : deserializeSigned min max de = .ok (val, de')) :
    de'.slice = de.slice ∧
      (de.index ≤ de.slice.length → de'.index ≤ de.slice.length) := by
  obtain ⟨g₁, g₂, g₃, g₄, g₅, g₆⟩ := parseWhitespace_spec de
  unfold deserializeSigned at h
  rcases hpw : de.parseWhitespace with ⟨de₁, p⟩
  rw [hpw] at h g₂ g₅
  cases p with
  | none => cases h
  | some c₀ =>
    simp only at g₂ g₅
    have hle₁ : de₁.index < de.slice.length :=
      (List.getElem?_eq_some.mp g₅.symm).1
    replace h : (if c₀ = 45 then signedBody min max true de₁.eatChar
      else signedBody min max false de₁) = .ok (val, de') := h
    by_cases h45 : c₀ = 45
    · rw [if_pos h45] at h
      obtain ⟨h₁, h₂, h₃⟩ := signedBody_inv _ _ _ _ _ _ h
      simp only [De.eatChar_slice, De.eatChar_index] at h₁ h₂ h₃
      refine ⟨by rw [h₁]; exact g₂, fun _ => ?_⟩
      rw [← g₂]
      refine h₃ ?_
      rw [g₂]
      omega
    · rw [if_neg h45] at h
      obtain ⟨h₁, h₂, h₃⟩ := signedBody_inv _ _ _ _ _ _ h
      refine ⟨by rw [h₁]; exact g₂, fun _ => ?_⟩
      rw [← g₂]
      refine h₃ ?_
      rw [g₂]
      omega

theorem deserializeSigned_pad (min max : Int) (w t : List Nat) (de : De)
    (val : Int) (de' : De) (ht : ∀ c ∈ t, isWs c)
    (h : deserializeSigned min max de = .ok (val, de')) :
    deserializeSigned min max (padSt w t de) = .ok (val, padSt w t de') := by
  unfold deserializeSigned at h ⊢
  rcases hpw : de.parseWhitespace with ⟨de₁, p⟩
  rw [hpw] at h
  cases p with
  | none => cases h
  | some c₀ =>
    rw [pw_pad hpw]
    replace h : (if c₀ = 45 then signedBody min max true de₁.eatChar
      else signedBody min max false de₁) = .ok (val, de') := h
    show (if c₀ = 45 then signedBody min max true (padSt w t de₁).eatChar
      else signedBody min max false (padSt w t de₁)) = _
    by_cases h45 : c₀ = 45
    · rw [if_pos h45] at h ⊢
      rw [← padSt_eatChar]
      exact signedBody_pad _ _ _ w t _ _ _ ht h
    · rw [if_neg h45] at h ⊢
      exact signedBody_pad _ _ _ w t _ _ _ ht h

theorem takeWhile_append_of_not {p : Nat → Bool} :
    ∀ a b : List Nat, (∃ x ∈ a, ¬ p x) →
      (a ++ b).takeWhile p = a.takeWhile p := by
  intro a
  induction a with
  | nil => intro b h; obtain ⟨x, hx, -⟩ := h; cases hx
  | cons c a' ih =>
    intro b h
    by_cases hc : p c
    · simp only [List.cons_append, List.takeWhile_cons, hc]
      obtain ⟨x, hx, hpx⟩ := h
      rcases List.mem_cons.mp hx with rfl | hx'
      · exact absurd hc hpx
      · rw [ih b ⟨x, hx', hpx⟩]
    · simp only [List.cons_append, List.takeWhile_cons]
      rw [if_neg hc, if_neg hc]

theorem countBackslashes_pad {w s t : List Nat} {k : Nat} (hk : k ≤ s.length)
    (hq : ∃ m, m < k ∧ s[m]? = some 34) :
    countBackslashes (w ++ s ++ t) (w.length + k) = countBackslashes s k := by
  unfold countBackslashes
  have h₁ : (w ++ s ++ t).take (w.length + k) = w ++ s.take k := by
    rw [List.append_assoc, List.take_append_eq_append_take,
      List.take_of_length_le (by omega), Nat.add_sub_cancel_left,
      List.take_append_of_le_length hk]
  rw [h₁, List.reverse_append]
  obtain ⟨m, hm, hms⟩ := hq
  have h34 : (34 : Nat) ∈ (s.take k).reverse := by
    rw [List.mem_reverse]
    exact List.getElem?_mem (by rw [List.getElem?_take_of_lt hm]; exact hms)
  rw [takeWhile_append_of_not _ _ ⟨34, h34, by decide⟩]

theorem subSlice_pad (w s t : List Nat) (a b : Nat) (hb : b ≤ s.length) :
    subSlice (w ++ s ++ t) (w.length + a) (w.length + b) = subSlice s a b := by
  unfold subSlice
  rw [List.append_assoc, List.take_append_eq_append_take,
    List.take_of_length_le (by omega), Nat.add_sub_cancel_left,
    List.take_append_of_le_length hb, List.drop_append]

theorem parseStrF_inv :
    ∀ (fuel start : Nat) (de : De) (r : List Nat × De),
      parseStrF start fuel de = .ok r →
      r.2.slice = de.slice ∧ de.index ≤ r.2.index ∧
        r.2.index ≤ de.slice.length := by
  intro fuel
  induction fuel with
  | zero => intro start de r h; cases h
  | succ a ih =>
    intro start de r h
    cases hpk : de.peek with
    | none => simp only [parseStrF, hpk] at h; cases h
    | some c =>
      have hlt := De.peek_some_lt hpk
      by_cases hc : c = 34
      · subst hc
        by_cases hodd : countBackslashes de.slice de.index % 2 = 1
        · rw [show parseStrF start (a + 1) de = parseStrF start a de.eatChar
            from parseStrF_step_cont hpk (fun _ => hodd)] at h
          obtain ⟨h₁, h₂, h₃⟩ := ih start de.eatChar r h
          simp only [De.eatChar_slice, De.eatChar_index] at h₁ h₂ h₃
          exact ⟨h₁, by omega, h₃⟩
        · rw [parseStrF_step_found hpk (by omega)] at h
          by_cases hv : isValidUtf8 (subSlice de.slice start de.index)
          · rw [if_pos hv] at h
            injection h with h'
            subst h'
            exact ⟨rfl, by simp, by simp only [De.eatChar_index]; omega⟩
          · rw [if_neg hv] at h; cases h
      · rw [show parseStrF start (a + 1) de = parseStrF start a de.eatChar
          from parseStrF_step_cont hpk (fun hcc => absurd hcc hc)] at h
        obtain ⟨h₁, h₂, h₃⟩ := ih start de.eatChar r h
        simp only [De.eatChar_slice, De.eatChar_index] at h₁ h₂ h₃
        exact ⟨h₁, by omega, h₃⟩

theorem parseStrF_pad {w t : List Nat} :
    ∀ (f₁ f₂ start : Nat) (de : De) (r : List Nat × De),
      de.remaining < f₁ → (padSt w t de).remaining < f₂ →
      start ≤ de.index →
      (∃ m, m < de.index ∧ de.slice[m]? = some 34) →
      parseStrF start f₁ de = .ok r →
      parseStrF (w.length + start) f₂ (padSt w t de) =
        .ok (r.1, padSt w t r.2) := by
  intro f₁
  induction f₁ with
  | zero => intro f₂ start de r h; omega
  | succ a ih =>
    intro f₂ start de r hf₁ hf₂ hstart hq h
    cases f₂ with
    | zero => omega
    | succ b =>
    cases hpk : de.peek with
    | none => simp only [parseStrF, hpk] at h; cases h
    | some c =>
      have hlt := De.peek_some_lt hpk
      have hcb := countBackslashes_pad (w := w) (t := t) (k := de.index)
        (by omega) hq
      by_cases hc : c = 34
      · subst hc
        by_cases hodd : countBackslashes de.slice de.index % 2 = 1
        · rw [show parseStrF start (a + 1) de = parseStrF start a de.eatChar
            from parseStrF_step_cont hpk (fun _ => hodd)] at h
          rw [show parseStrF (w.length + start) (b + 1) (padSt w t de) =
              parseStrF (w.length + start) b (padSt w t de).eatChar
            from parseStrF_step_cont (peek_pad hpk)
              (fun _ => by
                simp only [padSt_slice, padSt_index]
                rw [hcb]
                exact hodd)]
          rw [← padSt_eatChar]
          refine ih b start de.eatChar r ?_ ?_ (by simp; omega) ?_ h
          · have := De.remaining_eatChar_lt hpk; omega
          · rw [remaining_pad] at hf₂ ⊢
            simp only [De.eatChar_slice, De.eatChar_index]
            omega
          · obtain ⟨m, hm, hms⟩ := hq
            exact ⟨m, by simp; omega, by simpa using hms⟩
        · have hspan := subSlice_pad w de.slice t start de.index (by omega)
          rw [parseStrF_step_found hpk (by omega)] at h
          rw [show parseStrF (w.length + start) (b + 1) (padSt w t de) =
              (if isValidUtf8 (subSlice (padSt w t de).slice (w.length + start)
                  (padSt w t de).index) then
                .ok (subSlice (padSt w t de).slice (w.length + start)
                  (padSt w t de).index, (padSt w t de).eatChar)
              else .error .InvalidUnicodeCodePoint)
            from parseStrF_step_found (peek_pad hpk)
              (by simp only [padSt_slice, padSt_index]; rw [hcb]; omega)]
          simp only [padSt_slice, padSt_index]
          rw [hspan]
          by_cases hv : isValidUtf8 (subSlice de.slice start de.index)
          · rw [if_pos hv] at h ⊢
            injection h with h'
            subst h'
            rw [← padSt_eatChar]
          · rw [if_neg hv] at h; cases h
      · rw [show parseStrF start (a + 1) de = parseStrF start a de.eatChar
          from parseStrF_step_cont hpk (fun hcc => absurd hcc hc)] at h
        rw [show parseStrF (w.length + start) (b + 1) (padSt w t de) =
            parseStrF (w.length + start) b (padSt w t de).eatChar
          from parseStrF_step_cont (peek_pad hpk) (fun hcc => absurd hcc hc)]
        rw [← padSt_eatChar]
        refine ih b start de.eatChar r ?_ ?_ (by simp; omega) ?_ h
        · have := De.remaining_eatChar_lt hpk; omega
        · rw [remaining_pad] at hf₂ ⊢
          simp only [De.eatChar_slice, De.eatChar_index]
          omega
        · obtain ⟨m, hm, hms⟩ := hq
          exact ⟨m, by simp; omega, by simpa using hms⟩

theorem deserializeStr_congr (d₁ d₂ : De)
    (h : d₁.parseWhitespace = d₂.parseWhitespace) :
    deserializeStr d₁ = deserializeStr d₂ := by
  unfold deserializeStr
  rw [h]

theorem deserializeStr_inv (de : De) (val : List Nat) (de' : De)
    (h : deserializeStr de = .ok (val, de')) :
    de'.slice = de.slice ∧
      (de.index ≤ de.slice.length → de'.index ≤ de.slice.length) := by
  obtain ⟨g₁, g₂, g₃, g₄, g₅, g₆⟩ := parseWhitespace_spec de
  unfold deserializeStr at h
  rcases hpw : de.parseWhitespace with ⟨de₁, p⟩
  rw [hpw] at h g₂ g₅
  cases p with
  | none => cases h
  | some c =>
    simp only at g₂ g₅
    replace h : (if c = 34 then parseStr de₁.eatChar
      else (.error .InvalidType : Except DeErr (List Nat × De))) =
        .ok (val, de') := h
    by_cases hc : c = 34
    · rw [if_pos hc] at h
      obtain ⟨h₁, h₂, h₃⟩ := parseStrF_inv _ _ _ _ h
      simp only [De.eatChar_slice, De.eatChar_index] at h₁ h₂ h₃
      exact ⟨by rw [h₁]; exact g₂, fun _ => by rw [← g₂]; exact h₃⟩
    · rw [if_neg hc] at h; cases h

theorem deserializeStr_pad (w t : List Nat) (de : De) (val : List Nat)
    (de' : De) (_ht : ∀ c ∈ t, isWs c)
    (h : deserializeStr de = .ok (val, de')) :
    deserializeStr (padSt w t de) = .ok (val, padSt w t de') := by
  obtain ⟨g₁, g₂, g₃, g₄, g₅, g₆⟩ := parseWhitespace_spec de
  unfold deserializeStr at h ⊢
  rcases hpw : de.parseWhitespace with ⟨de₁, p⟩
  rw [hpw] at h g₂ g₅
  cases p with
  | none => cases h
  | some c =>
    simp only at g₂ g₅
    rw [pw_pad hpw]
    replace h : (if c = 34 then parseStr de₁.eatChar
      else (.error .InvalidType : Except DeErr (List Nat × De))) =
        .ok (val, de') := h
    show (if c = 34 then parseStr (padSt w t de₁).eatChar
      else (.error .InvalidType : Except DeErr (List Nat × De))) = _
    by_cases hc : c = 34
    · rw [if_pos hc] at h ⊢
      subst hc
      have hq34 : de₁.slice[de₁.index]? = some 34 := by rw [g₂]; exact g₅.symm
      have hlt : de₁.index < de₁.slice.length :=
        (List.getElem?_eq_some.mp hq34).1
      unfold parseStr at h ⊢
      have := parseStrF_pad (w := w) (t := t) (de₁.eatChar.remaining + 1)
        ((padSt w t de₁).eatChar.remaining + 1) de₁.eatChar.index de₁.eatChar
        (val, de') (by omega) ?_ (le_refl _) ?_ h
      · rw [← padSt_eatChar]
        have hidx : (padSt w t de₁.eatChar).index = w.length + de₁.eatChar.index := rfl
        rw [hidx]
        exact this
      · rw [← padSt_eatChar, remaining_pad]
        simp only [De.eatChar_slice, De.eatChar_index]
        omega
      · exact ⟨de₁.index, by simp, by simpa using hq34⟩
    · rw [if_neg hc] at h; cases h

theorem chompF_succ (a : Nat) (de : De) :
    floatChompF (a + 1) de =
      match de.peek with
      | some c => if isFloatByte c then floatChompF a de.eatChar else de
      | none => de := rfl

theorem floatChompF_inv :
    ∀ (fuel : Nat) (de : De),
      (floatChompF fuel de).slice = de.slice ∧
      de.index ≤ (floatChompF fuel de).index ∧
      (de.index ≤ de.slice.length →
        (floatChompF fuel de).index ≤ de.slice.length) := by
  intro fuel
  induction fuel with
  | zero => intro de; exact ⟨rfl, le_refl _, fun h => h⟩
  | succ a ih =>
    intro de
    rw [chompF_succ]
    cases hpk : de.peek with
    | none => exact ⟨rfl, le_refl _, fun h => h⟩
    | some c =>
      show (if isFloatByte c then floatChompF a de.eatChar else de).slice = de.slice ∧
        de.index ≤ (if isFloatByte c then floatChompF a de.eatChar else de).index ∧
        (de.index ≤ de.slice.length →
          (if isFloatByte c then floatChompF a de.eatChar else de).index ≤
            de.slice.length)
      by_cases hf : isFloatByte c
      · rw [if_pos hf]
        have hlt := De.peek_some_lt hpk
        obtain ⟨h₁, h₂, h₃⟩ := ih de.eatChar
        simp only [De.eatChar_slice, De.eatChar_index] at h₁ h₂ h₃
        exact ⟨h₁, by omega, fun _ => h₃ (by omega)⟩
      · rw [if_neg hf]
        exact ⟨rfl, le_refl _, fun h => h⟩

theorem floatChompF_pad {w t : List Nat} (ht : ∀ c ∈ t, isWs c) :
    ∀ (f₁ f₂ : Nat) (de : De),
      de.remaining < f₁ → (padSt w t de).remaining < f₂ →
      floatChompF f₂ (padSt w t de) = padSt w t (floatChompF f₁ de) := by
  intro f₁
  induction f₁ with
  | zero => intro f₂ de h; omega
  | succ a ih =>
    intro f₂ de hf₁ hf₂
    cases f₂ with
    | zero => omega
    | succ b =>
    rw [chompF_succ, chompF_succ]
    cases hpk : de.peek with
    | none =>
      cases hpk' : (padSt w t de).peek with
      | none => rfl
      | some c =>
        have hmem : c ∈ t := by
          rw [peek_pad_eof hpk] at hpk'
          exact List.getElem?_mem hpk'
        show (if isFloatByte c then floatChompF b (padSt w t de).eatChar
          else padSt w t de) = _
        rw [if_neg (ws_not_float (ht c hmem))]
    | some c =>
      rw [peek_pad (w := w) (t := t) hpk]
      show (if isFloatByte c then floatChompF b (padSt w t de).eatChar
          else padSt w t de) =
        padSt w t (if isFloatByte c then floatChompF a de.eatChar else de)
      by_cases hf : isFloatByte c
      · rw [if_pos hf, if_pos hf, ← padSt_eatChar]
        refine ih b de.eatChar ?_ ?_
        · have := De.remaining_eatChar_lt hpk; omega
        · rw [remaining_pad] at hf₂ ⊢
          simp only [De.eatChar_slice, De.eatChar_index]
          have := De.peek_some_lt hpk
          omega
      · rw [if_neg hf, if_neg hf]

theorem deserializeFloat_congr {F : Type} (fromStr : List Nat → Option F)
    (d₁ d₂ : De) (h : d₁.parseWhitespace = d₂.parseWhitespace) :
    deserializeFloat fromStr d₁ = deserializeFloat fromStr d₂ := by
  unfold deserializeFloat
  rw [h]

theorem deserializeFloat_inv {F : Type} (fromStr : List Nat → Option F)
    (de : De) (val : F) (de' : De)
    (h : deserializeFloat fromStr de = .ok (val, de')) :
    de'.slice = de.slice ∧
      (de.index ≤ de.slice.length → de'.index ≤ de.slice.length) := by
  obtain ⟨g₁, g₂, g₃, g₄, g₅, g₆⟩ := parseWhitespace_spec de
  unfold deserializeFloat at h
  rcases hpw : de.parseWhitespace with ⟨de₁, p⟩
  rw [hpw] at h g₂ g₅
  cases p with
  | none => cases h
  | some c =>
    simp only at g₂ g₅
    have hle₁ : de₁.index < de.slice.length :=
      (List.getElem?_eq_some.mp g₅.symm).1
    replace h : (match fromStr (subSlice
        (floatChompF (de₁.remaining + 1) de₁).slice de₁.index
        (floatChompF (de₁.remaining + 1) de₁).index) with
      | none => .error .InvalidNumber
      | some v => .ok (v, floatChompF (de₁.remaining + 1) de₁) :
        Except DeErr (F × De)) = .ok (val, de') := h
    obtain ⟨h₁, h₂, h₃⟩ := floatChompF_inv (de₁.remaining + 1) de₁
    cases hfs : fromStr (subSlice (floatChompF (de₁.remaining + 1) de₁).slice
        de₁.index (floatChompF (de₁.remaining + 1) de₁).index) with
    | none => rw [hfs] at h; cases h
    | some v =>
      rw [hfs] at h
      replace h : (Except.ok (v, floatChompF (de₁.remaining + 1) de₁) :
        Except DeErr (F × De)) = .ok (val, de') := h
      injection h with h'
      injection h' with hval hde
      subst hde
      refine ⟨by rw [h₁]; exact g₂, fun _ => ?_⟩
      rw [← g₂]
      refine h₃ ?_
      rw [g₂]
      omega

theorem deserializeFloat_pad {F : Type} (fromStr : List Nat → Option F)
    (w t : List Nat) (de : De) (val : F) (de' : De) (ht : ∀ c ∈ t, isWs c)
    (h : deserializeFloat fromStr de = .ok (val, de')) :
    deserializeFloat fromStr (padSt w t de) = .ok (val, padSt w t de') := by
  obtain ⟨g₁, g₂, g₃, g₄, g₅, g₆⟩ := parseWhitespace_spec de
  unfold deserializeFloat at h ⊢
  rcases hpw : de.parseWhitespace with ⟨de₁, p⟩
  rw [hpw] at h g₂ g₅
  cases p with
  | none => cases h
  | some c =>
    simp only at g₂ g₅
    have hle₁ : de₁.index < de.slice.length :=
      (List.getElem?_eq_some.mp g₅.symm).1
    rw [pw_pad hpw]
    replace h : (match fromStr (subSlice
        (floatChompF (de₁.remaining + 1) de₁).slice de₁.index
        (floatChompF (de₁.remaining + 1) de₁).index) with
      | none => .error .InvalidNumber
      | some v => .ok (v, floatChompF (de₁.remaining + 1) de₁) :
        Except DeErr (F × De)) = .ok (val, de') := h
    show (match fromStr (subSlice
        (floatChompF ((padSt w t de₁).remaining + 1) (padSt w t de₁)).slice
        (padSt w t de₁).index
        (floatChompF ((padSt w t de₁).remaining + 1) (padSt w t de₁)).index) with
      | none => .error .InvalidNumber
      | some v => .ok (v, floatChompF ((padSt w t de₁).remaining + 1)
          (padSt w t de₁)) :
        Except DeErr (F × De)) = _
    have hchomp : floatChompF ((padSt w t de₁).remaining + 1) (padSt w t de₁) =
        padSt w t (floatChompF (de₁.remaining + 1) de₁) :=
      floatChompF_pad ht (de₁.remaining + 1) ((padSt w t de₁).remaining + 1)
        de₁ (by omega) (by omega)
    rw [hchomp]
    obtain ⟨h₁, h₂, h₃⟩ := floatChompF_inv (de₁.remaining + 1) de₁
    have hend : (floatChompF (de₁.remaining + 1) de₁).index ≤ de₁.slice.length := by
      refine h₃ ?_
      rw [g₂]
      omega
    have hspan : subSlice (padSt w t (floatChompF (de₁.remaining + 1) de₁)).slice
        (padSt w t de₁).index
        (padSt w t (floatChompF (de₁.remaining + 1) de₁)).index =
        subSlice (floatChompF (de₁.remaining + 1) de₁).slice de₁.index
          (floatChompF (de₁.remaining + 1) de₁).index := by
      simp only [padSt_slice, padSt_index, h₁]
      exact subSlice_pad w de₁.slice t de₁.index _ hend
    rw [hspan]
    cases hfs : fromStr (subSlice (floatChompF (de₁.remaining + 1) de₁).slice
        de₁.index (floatChompF (de₁.remaining + 1) de₁).index) with
    | none => rw [hfs] at h; cases h
    | some v =>
      rw [hfs] at h
      replace h : (Except.ok (v, floatChompF (de₁.remaining + 1) de₁) :
        Except DeErr (F × De)) = .ok (val, de') := h
      injection h with h'
      injection h' with hval hde
      subst hval; subst hde
      rfl

/-- C2 (counterexample): on `" true "` the returned `bytes_consumed` is 6 —
the whole padded input, including the trailing whitespace, which the
`end` wrapper consumes — contradicting the claim that `bytes_consumed`
reflects a consumed span smaller than the whole padded input. -/
theorem bytes_consumed_whole_input :
    fromSliceBool [32, 116, 114, 117, 101, 32] =
      .ok (true, ([32, 116, 114, 117, 101, 32] : List Nat).length) ∧
    ([32, 116, 114, 117, 101, 32] : List Nat).length = 6 := ⟨rfl, rfl⟩

/-- C2 (amended): decoding a whitespace-padded value text yields the same
value as decoding the text alone, and on success `from_slice` returns the
whole input length as `bytes_consumed` (the wrapper consumes the trailing
whitespace); the top-level wrapper succeeds exactly when every byte
remaining after the value is whitespace and otherwise fails with
`TrailingCharacters`.  Stated for every scalar decoder of the codec
(bool, unsigned and signed integers of every width, strings, floats). -/
theorem whitespace_padding :
    (∀ (w t v : List Nat) (val : Bool) (n : Nat),
      (∀ c ∈ w, isWs c) → (∀ c ∈ t, isWs c) →
      fromSliceBool v = .ok (val, n) →
      fromSliceBool (w ++ v ++ t) = .ok (val, (w ++ v ++ t).length)) ∧
    (∀ (max : Nat) (w t v : List Nat) (val n : Nat),
      (∀ c ∈ w, isWs c) → (∀ c ∈ t, isWs c) →
      fromSliceU max v = .ok (val, n) →
      fromSliceU max (w ++ v ++ t) = .ok (val, (w ++ v ++ t).length)) ∧
    (∀ (min max : Int) (w t v : List Nat) (val : Int) (n : Nat),
      (∀ c ∈ w, isWs c) → (∀ c ∈ t, isWs c) →
      fromSliceI min max v = .ok (val, n) →
      fromSliceI min max (w ++ v ++ t) = .ok (val, (w ++ v ++ t).length)) ∧
    (∀ (w t v : List Nat) (val : List Nat) (n : Nat),
      (∀ c ∈ w, isWs c) → (∀ c ∈ t, isWs c) →
      fromSliceStr v = .ok (val, n) →
      fromSliceStr (w ++ v ++ t) = .ok (val, (w ++ v ++ t).length)) ∧
    (∀ (F : Type) (fromStr : List Nat → Option F) (w t v : List Nat)
      (val : F) (n : Nat),
      (∀ c ∈ w, isWs c) → (∀ c ∈ t, isWs c) →
      fromSliceFloat fromStr v = .ok (val, n) →
      fromSliceFloat fromStr (w ++ v ++ t) =
        .ok (val, (w ++ v ++ t).length)) ∧
    (∀ de : De, de.index ≤ de.slice.length →
      (de.end_ = .ok de.slice.length ∨ de.end_ = .error .TrailingCharacters) ∧
      (de.end_ = .ok de.slice.length ↔
        ∀ j, de.index ≤ j → j < de.slice.length →
          ∃ c, de.slice[j]? = some c ∧ isWs c)) := by
  refine ⟨?_, ?_, ?_, ?_, ?_, end_spec⟩
  · intro w t v val n hw ht h
    exact fromSliceD_pad deserializeBool deserializeBool_congr
      deserializeBool_inv deserializeBool_pad w t v hw ht val n h
  · intro max w t v val n hw ht h
    exact fromSliceD_pad (deserializeUnsigned max)
      (deserializeUnsigned_congr max) (deserializeUnsigned_inv max)
      (deserializeUnsigned_pad max) w t v hw ht val n h
  · intro min max w t v val n hw ht h
    exact fromSliceD_pad (deserializeSigned min max)
      (deserializeSigned_congr min max) (deserializeSigned_inv min max)
      (deserializeSigned_pad min max) w t v hw ht val n h
  · intro w t v val n hw ht h
    exact fromSliceD_pad deserializeStr deserializeStr_congr
      deserializeStr_inv deserializeStr_pad w t v hw ht val n h
  · intro F fromStr w t v val n hw ht h
    exact fromSliceD_pad (deserializeFloat fromStr)
      (deserializeFloat_congr fromStr) (deserializeFloat_inv fromStr)
      (deserializeFloat_pad fromStr) w t v hw ht val n h

/-- C2 witness: each padded decode evaluated at a concrete padded input. -/
theorem whitespace_padding_witness :
    fromSliceBool [32, 116, 114, 117, 101, 9] = .ok (true, 6) ∧
    fromSliceU 255 [32, 50, 53, 32] = .ok (25, 4) ∧
    fromSliceI (-128) 127 [10, 45, 51, 13] = .ok (-3, 4) ∧
    fromSliceStr [32, 34, 104, 105, 34, 32] = .ok ([104, 105], 6) ∧
    fromSliceFloat (fun s => if s = [48] then some () else none)
      [32, 48, 32] = .ok ((), 3) ∧
    (⟨[116, 114, 117, 101, 32, 120], 4⟩ : De).end_ =
      .error .TrailingCharacters := by
  refine ⟨?_, ?_, ?_, ?_, ?_, ?_⟩
  · exact whitespace_padding.1 [32] [9] [116, 114, 117, 101] true 4
      (by decide) (by decide) rfl
  · exact whitespace_padding.2.1 255 [32] [32] [50, 53] 25 2
      (by decide) (by decide) rfl
  · exact whitespace_padding.2.2.1 (-128) 127 [10] [13] [45, 51] (-3) 2
      (by decide) (by decide) rfl
  · exact whitespace_padding.2.2.2.1 [32] [32] [34, 104, 105, 34]
      [104, 105] 4 (by decide) (by decide) rfl
  · exact whitespace_padding.2.2.2.2.1 Unit
      (fun s => if s = [48] then some () else none) [32] [32] [48] () 1
      (by decide) (by decide) rfl
  · have := (whitespace_padding.2.2.2.2.2
      ⟨[116, 114, 117, 101, 32, 120], 4⟩ (by decide)).1
    rcases this with h | h
    · exfalso
      have h₂ := (whitespace_padding.2.2.2.2.2
        ⟨[116, 114, 117, 101, 32, 120], 4⟩ (by decide)).2.mp h
      obtain ⟨c, hc, hcw⟩ := h₂ 5 (by decide) (by decide)
      simp at hc
      subst hc
      simp [isWs] at hcw
    · exact h

/-! ### C1: the digit rendering loop versus `Nat.digits` -/

theorem udigits_succ (f v : Nat) (acc : List Nat) :
    unsignedDigitsF (f + 1) v acc =
      if v / 10 = 0 then (v % 10 + 48) :: acc
      else unsignedDigitsF f (v / 10) ((v % 10 + 48) :: acc) := rfl

theorem unsignedDigitsF_eq :
    ∀ (fuel v : Nat) (acc : List Nat), v < fuel →
      unsignedDigitsF fuel v acc =
        (if v = 0 then [48] else (Nat.digits 10 v).reverse.map (· + 48)) ++ acc := by
  intro fuel
  induction fuel with
  | zero => intro v acc h; exact absurd h (Nat.not_lt_zero v)
  | succ f ih =>
    intro v acc h
    rw [udigits_succ]
    by_cases h10 : v / 10 = 0
    · rw [if_pos h10]
      by_cases hv : v = 0
      · subst hv; simp
      · rw [if_neg hv]
        have hd : Nat.digits 10 v = [v % 10] := by
          rw [Nat.digits_def' (by norm_num) (Nat.pos_of_ne_zero hv), h10]
          simp
        rw [hd]
        simp
    · rw [if_neg h10]
      have h1 : 1 ≤ v / 10 := Nat.pos_of_ne_zero h10
      have hvpos : 0 < v := by
        rcases Nat.eq_zero_or_pos v with h0 | h0
        · subst h0; simp at h1
        · exact h0
      have hfuel2 : v / 10 < f := by
        have hlt : v / 10 < v := Nat.div_lt_self hvpos (by norm_num)
        omega
      rw [ih (v / 10) ((v % 10 + 48) :: acc) hfuel2]
      rw [if_neg h10]
      have hd : Nat.digits 10 v = v % 10 :: Nat.digits 10 (v / 10) :=
        Nat.digits_def' (by norm_num) hvpos
      rw [hd, if_neg (show ¬ v = 0 by omega)]
      simp [List.append_assoc]

theorem unsignedDigits_eq (v : Nat) :
    unsignedDigits v =
      if v = 0 then [48] else (Nat.digits 10 v).reverse.map (· + 48) := by
  have h := unsignedDigitsF_eq (v + 1) v [] (by omega)
  simpa using h

theorem accDigits_append (n : Nat) (xs : List Nat) (b : Nat) :
    accDigits n (xs ++ [b]) = accDigits n xs * 10 + (b - 48) := by
  simp [accDigits, List.foldl_append]

theorem accDigits_reverse_map (L : List Nat) :
    ∀ n : Nat, accDigits n (L.reverse.map (· + 48)) =
      n * 10 ^ L.length + Nat.ofDigits 10 L := by
  induction L with
  | nil => intro n; simp [accDigits, Nat.ofDigits]
  | cons l L ih =>
    intro n
    rw [List.reverse_cons, List.map_append]
    rw [show ([l].map (· + 48)) = [l + 48] from rfl]
    rw [accDigits_append, ih n, Nat.ofDigits_cons]
    have hl : l + 48 - 48 = l := by omega
    rw [hl]
    simp only [List.length_cons, pow_succ]
    ring

theorem accDigits_unsignedDigits (v : Nat) : accDigits 0 (unsignedDigits v) = v := by
  rw [unsignedDigits_eq]
  by_cases hv : v = 0
  · subst hv; rfl
  · rw [if_neg hv, accDigits_reverse_map]
    simp [Nat.ofDigits_digits]

theorem le_accDigits : ∀ (ds : List Nat) (n : Nat), n ≤ accDigits n ds := by
  intro ds
  induction ds with
  | nil => intro n; exact le_refl n
  | cons c cs ih =>
    intro n
    exact le_trans (by omega) (ih (n * 10 + (c - 48)))

theorem unsignedDigits_pos (v : Nat) (hv : v ≠ 0) :
    ∃ d₀ rest, unsignedDigits v = d₀ :: rest ∧ 49 ≤ d₀ ∧ d₀ ≤ 57 ∧
      (∀ c ∈ rest, isDigit c) ∧ accDigits (d₀ - 48) rest = v := by
  have hL : Nat.digits 10 v ≠ [] := Nat.digits_ne_nil_iff_ne_zero.mpr hv
  have hsplit : Nat.digits 10 v =
      (Nat.digits 10 v).dropLast ++ [(Nat.digits 10 v).getLast hL] :=
    (List.dropLast_concat_getLast hL).symm
  have hrev : (Nat.digits 10 v).reverse =
      (Nat.digits 10 v).getLast hL :: (Nat.digits 10 v).dropLast.reverse := by
    conv_lhs => rw [hsplit]
    rw [List.reverse_append]
    rfl
  have hbs : unsignedDigits v = ((Nat.digits 10 v).getLast hL + 48) ::
      (Nat.digits 10 v).dropLast.reverse.map (· + 48) := by
    rw [unsignedDigits_eq, if_neg hv, hrev]
    rfl
  refine ⟨(Nat.digits 10 v).getLast hL + 48,
    (Nat.digits 10 v).dropLast.reverse.map (· + 48), hbs, ?_, ?_, ?_, ?_⟩
  · have h1 : (Nat.digits 10 v).getLast hL ≠ 0 := Nat.getLast_digit_ne_zero 10 hv
    omega
  · have h2 : (Nat.digits 10 v).getLast hL < 10 :=
      Nat.digits_lt_base' (List.getLast_mem hL)
    omega
  · intro c hc
    simp only [List.mem_map] at hc
    obtain ⟨d, hd, rfl⟩ := hc
    have hd10 : d < 10 :=
      Nat.digits_lt_base' (List.mem_of_mem_dropLast (List.mem_reverse.mp hd))
    simp only [isDigit, decide_eq_true_eq]
    omega
  · have hg : (Nat.digits 10 v).getLast hL + 48 - 48 = (Nat.digits 10 v).getLast hL := by
      omega
    rw [hg]
    have h0 : accDigits 0 (unsignedDigits v) = v := accDigits_unsignedDigits v
    rw [hbs] at h0
    have hstep : accDigits 0 (((Nat.digits 10 v).getLast hL + 48) ::
        (Nat.digits 10 v).dropLast.reverse.map (· + 48)) =
        accDigits ((Nat.digits 10 v).getLast hL)
          ((Nat.digits 10 v).dropLast.reverse.map (· + 48)) := by
      show accDigits (0 * 10 + ((Nat.digits 10 v).getLast hL + 48 - 48)) _ = _
      congr 1
      omega
    rw [hstep] at h0
    exact h0

/-! ### C1: running the digit loops over a rendered digit string -/

theorem end_at_eof (s : List Nat) : De.end_ ⟨s, s.length⟩ = .ok s.length := by
  unfold De.end_
  rw [pw_step_eof (show (⟨s, s.length⟩ : De).peek = none by
    simp [De.peek])]

theorem fromSliceD_run {α : Type} (D : De → Except DeErr (α × De)) (s : List Nat)
    (v : α) (h : D ⟨s, 0⟩ = .ok (v, ⟨s, s.length⟩)) :
    fromSliceD D s = .ok (v, s.length) := by
  unfold fromSliceD
  rw [h]
  show (De.end_ ⟨s, s.length⟩).bind (fun n => .ok (v, n)) = _
  rw [end_at_eof]
  rfl

theorem uloop_run (max : Nat) :
    ∀ (ds : List Nat) (fuel : Nat) (pre post : List Nat) (n : Nat),
      (∀ c ∈ ds, isDigit c) →
      (∀ c, post[0]? = some c → isDigit c = false) →
      ds.length < fuel → accDigits n ds ≤ max →
      parseUnsignedLoopF max fuel n ⟨pre ++ (ds ++ post), pre.length⟩ =
        .ok (accDigits n ds, ⟨pre ++ (ds ++ post), pre.length + ds.length⟩) := by
  intro ds
  induction ds with
  | nil =>
    intro fuel pre post n _ hpost hfuel _
    obtain ⟨f, rfl⟩ : ∃ f, fuel = f + 1 := ⟨fuel - 1, by omega⟩
    rw [uloop_succ]
    have hpk : (⟨pre ++ ([] ++ post), pre.length⟩ : De).peek = post[0]? := by
      show (pre ++ ([] ++ post))[pre.length]? = _
      rw [List.nil_append, List.getElem?_append_right (le_refl _)]
      simp
    cases hp : post[0]? with
    | none =>
      rw [hpk, hp]
      rfl
    | some c =>
      rw [hpk, hp]
      show (if isDigit c = true then
          match uChecked max (n * 10) with
          | none => (.error .InvalidNumber : Except DeErr (Nat × De))
          | some n10 =>
            match uChecked max (n10 + (c - 48)) with
            | none => .error .InvalidNumber
            | some n' => parseUnsignedLoopF max f n'
                (⟨pre ++ ([] ++ post), pre.length⟩ : De).eatChar
        else .ok (n, ⟨pre ++ ([] ++ post), pre.length⟩)) = _
      rw [if_neg (by simp [hpost c hp])]
      rfl
  | cons d ds ih =>
    intro fuel pre post n hds hpost hfuel hacc
    obtain ⟨f, rfl⟩ : ∃ f, fuel = f + 1 := ⟨fuel - 1, by omega⟩
    rw [uloop_succ]
    have hpk : (⟨pre ++ ((d :: ds) ++ post), pre.length⟩ : De).peek = some d := by
      show (pre ++ ((d :: ds) ++ post))[pre.length]? = _
      rw [List.getElem?_append_right (le_refl _)]
      simp
    rw [hpk]
    have hdd : isDigit d := hds d (List.mem_cons_self ..)
    show (if isDigit d = true then
        match uChecked max (n * 10) with
        | none => (.error .InvalidNumber : Except DeErr (Nat × De))
        | some n10 =>
          match uChecked max (n10 + (d - 48)) with
          | none => .error .InvalidNumber
          | some n' => parseUnsignedLoopF max f n'
              (⟨pre ++ ((d :: ds) ++ post), pre.length⟩ : De).eatChar
      else .ok (n, ⟨pre ++ ((d :: ds) ++ post), pre.length⟩)) = _
    rw [if_pos hdd]
    have hacc' : accDigits (n * 10 + (d - 48)) ds ≤ max := hacc
    have hmono := le_accDigits ds (n * 10 + (d - 48))
    have h10 : n * 10 ≤ max := by omega
    have hnd : n * 10 + (d - 48) ≤ max := by omega
    have hu1 : uChecked max (n * 10) = some (n * 10) := by
      unfold uChecked; rw [if_pos h10]
    have hu2 : uChecked max (n * 10 + (d - 48)) = some (n * 10 + (d - 48)) := by
      unfold uChecked; rw [if_pos hnd]
    rw [hu1]
    show (match uChecked max (n * 10 + (d - 48)) with
      | none => (.error .InvalidNumber : Except DeErr (Nat × De))
      | some n' => parseUnsignedLoopF max f n'
          (⟨pre ++ ((d :: ds) ++ post), pre.length⟩ : De).eatChar) = _
    rw [hu2]
    show parseUnsignedLoopF max f (n * 10 + (d - 48))
        (⟨pre ++ ((d :: ds) ++ post), pre.length⟩ : De).eatChar = _
    have h1 : pre ++ ((d :: ds) ++ post) = (pre ++ [d]) ++ (ds ++ post) := by simp
    have heat : (⟨pre ++ ((d :: ds) ++ post), pre.length⟩ : De).eatChar =
        ⟨(pre ++ [d]) ++ (ds ++ post), (pre ++ [d]).length⟩ := by
      show De.mk (pre ++ ((d :: ds) ++ post)) (pre.length + 1) = _
      rw [h1]
      congr 1
      simp
    rw [heat]
    rw [ih f (pre ++ [d]) post (n * 10 + (d - 48))
      (fun c hc => hds c (List.mem_cons_of_mem d hc)) hpost
      (by simp only [List.length_cons] at hfuel; omega) hacc']
    rw [← h1]
    have h3 : (pre ++ [d]).length + ds.length = pre.length + (d :: ds).length := by
      simp only [List.length_append, List.length_cons, List.length_nil]
      omega
    rw [h3]
    rfl

theorem runToSlice_ok {cap : Nat} {f : Ser → Ser × Option SerErr} {bs : List Nat}
    (bytes : List Nat) (hf : ∀ s : Ser, f s = Ser.extendFromSlice s bytes)
    (h : runToSlice cap f = .ok bs) : bs = bytes := by
  unfold runToSlice at h
  rw [hf] at h
  unfold Ser.extendFromSlice at h
  by_cases hfit : (Ser.new cap).currentLength + bytes.length > (Ser.new cap).buf.length
  · rw [if_pos hfit] at h
    exact Except.noConfusion (show (Except.error SerErr.BufferFull :
      Except SerErr (List Nat)) = .ok bs from h)
  · rw [if_neg hfit] at h
    replace h : Except.ok ((bytes.foldl Ser.pushUnchecked (Ser.new cap)).written) =
      .ok bs := h
    obtain ⟨_, _, hwr⟩ := foldl_pushUnchecked_spec bytes (Ser.new cap) (by omega)
    injection h with h'
    rw [hwr] at h'
    have hw0 : (Ser.new cap).written = [] := rfl
    rw [hw0] at h'
    simpa using h'.symm

theorem fromSliceU_roundtrip (max v : Nat) (hv : v ≤ max) :
    fromSliceU max (unsignedDigits v) = .ok (v, (unsignedDigits v).length) := by
  by_cases hv0 : v = 0
  · subst hv0
    rfl
  · obtain ⟨d₀, rest, hbs, h49, h57, hrd, hacc⟩ := unsignedDigits_pos v hv0
    rw [hbs]
    have hdd : isDigit d₀ := by simp only [isDigit, decide_eq_true_eq]; omega
    have hpk : (⟨d₀ :: rest, 0⟩ : De).peek = some d₀ := by simp [De.peek]
    have hnws : ¬ isWs d₀ := fun hws => (ws_not_digit hws) hdd
    have hpw := pw_step_stop hpk hnws
    have hD : deserializeUnsigned max ⟨d₀ :: rest, 0⟩ =
        parseUnsignedLoopF max ((⟨d₀ :: rest, 0⟩ : De).remaining + 1) (d₀ - 48)
          (⟨d₀ :: rest, 0⟩ : De).eatChar := by
      unfold deserializeUnsigned
      rw [hpw]
      show (if d₀ = 45 then (.error .InvalidNumber : Except DeErr (Nat × De))
        else if d₀ = 48 then .ok (0, (⟨d₀ :: rest, 0⟩ : De).eatChar)
        else if 49 ≤ d₀ ∧ d₀ ≤ 57 then
          parseUnsignedLoopF max ((⟨d₀ :: rest, 0⟩ : De).remaining + 1) (d₀ - 48)
            (⟨d₀ :: rest, 0⟩ : De).eatChar
        else .error .InvalidType) = _
      rw [if_neg (by omega : ¬ d₀ = 45), if_neg (by omega : ¬ d₀ = 48),
        if_pos (⟨h49, h57⟩ : 49 ≤ d₀ ∧ d₀ ≤ 57)]
    have hsl : d₀ :: rest = [d₀] ++ (rest ++ []) := by simp
    have hrun := uloop_run max rest ((⟨d₀ :: rest, 0⟩ : De).remaining + 1) [d₀] []
      (d₀ - 48) hrd (fun c hc => absurd hc (by simp))
      (by simp only [De.remaining, List.length_cons]; omega)
      (by rw [hacc]; exact hv)
    rw [← hsl] at hrun
    rw [hacc] at hrun
    have hidx : ([d₀] : List Nat).length + rest.length = (d₀ :: rest).length := by
      simp only [List.length_cons, List.length_nil]
      omega
    rw [hidx] at hrun
    have hD2 : deserializeUnsigned max ⟨d₀ :: rest, 0⟩ =
        .ok (v, ⟨d₀ :: rest, (d₀ :: rest).length⟩) := by
      rw [hD]
      exact hrun
    exact fromSliceD_run (deserializeUnsigned max) (d₀ :: rest) v hD2

theorem if_sign_false : (if false then (-1 : Int) else 1) = 1 := rfl

theorem if_sign_true : (if true then (-1 : Int) else 1) = -1 := rfl

theorem accDigitsI_false_le : ∀ (ds : List Nat) (n : Int),
    0 ≤ n → n ≤ accDigitsI false n ds := by
  intro ds
  induction ds with
  | nil => intro n _; exact le_refl n
  | cons c cs ih =>
    intro n hn
    have hd0 : (0 : Int) ≤ ((c - 48 : Nat) : Int) := Int.ofNat_zero_le _
    refine le_trans ?_
      (ih (n * 10 + ((c - 48 : Nat) : Int) * (if false then -1 else 1)) ?_)
    · rw [if_sign_false]
      omega
    · rw [if_sign_false]
      omega

theorem accDigitsI_true_le : ∀ (ds : List Nat) (n : Int),
    n ≤ 0 → accDigitsI true n ds ≤ n := by
  intro ds
  induction ds with
  | nil => intro n _; exact le_refl n
  | cons c cs ih =>
    intro n hn
    have hd0 : (0 : Int) ≤ ((c - 48 : Nat) : Int) := Int.ofNat_zero_le _
    refine le_trans
      (ih (n * 10 + ((c - 48 : Nat) : Int) * (if true then -1 else 1)) ?_) ?_
    · rw [if_sign_true]
      omega
    · rw [if_sign_true]
      omega

theorem accDigitsI_false_eq : ∀ (ds : List Nat) (n : Nat),
    accDigitsI false (n : Int) ds = ((accDigits n ds : Nat) : Int) := by
  intro ds
  induction ds with
  | nil => intro n; rfl
  | cons c cs ih =>
    intro n
    have harg : (n : Int) * 10 + ((c - 48 : Nat) : Int) * (if false then -1 else 1) =
        ((n * 10 + (c - 48) : Nat) : Int) := by
      rw [if_sign_false]
      push_cast
      ring
    show accDigitsI false
      ((n : Int) * 10 + ((c - 48 : Nat) : Int) * (if false then -1 else 1)) cs = _
    rw [harg]
    exact ih (n * 10 + (c - 48))

theorem accDigitsI_true_eq : ∀ (ds : List Nat) (n : Nat),
    accDigitsI true (-(n : Int)) ds = -((accDigits n ds : Nat) : Int) := by
  intro ds
  induction ds with
  | nil => intro n; rfl
  | cons c cs ih =>
    intro n
    have harg : (-(n : Int)) * 10 + ((c - 48 : Nat) : Int) * (if true then -1 else 1) =
        -((n * 10 + (c - 48) : Nat) : Int) := by
      rw [if_sign_true]
      push_cast
      ring
    show accDigitsI true
      ((-(n : Int)) * 10 + ((c - 48 : Nat) : Int) * (if true then -1 else 1)) cs = _
    rw [harg]
    exact ih (n * 10 + (c - 48))

theorem sloop_run_false (min max : Int) (hmin : min ≤ 0) (hmax : 0 ≤ max) :
    ∀ (ds : List Nat) (fuel : Nat) (pre post : List Nat) (n : Int),
      (∀ c ∈ ds, isDigit c) →
      (∀ c, post[0]? = some c → isDigit c = false) →
      ds.length < fuel → 0 ≤ n → accDigitsI false n ds ≤ max →
      parseSignedLoopF min max false fuel n ⟨pre ++ (ds ++ post), pre.length⟩ =
        .ok (accDigitsI false n ds, ⟨pre ++ (ds ++ post), pre.length + ds.length⟩) := by
  intro ds
  induction ds with
  | nil =>
    intro fuel pre post n _ hpost hfuel _ _
    obtain ⟨f, rfl⟩ : ∃ f, fuel = f + 1 := ⟨fuel - 1, by omega⟩
    rw [sloop_succ]
    have hpk : (⟨pre ++ ([] ++ post), pre.length⟩ : De).peek = post[0]? := by
      show (pre ++ ([] ++ post))[pre.length]? = _
      rw [List.nil_append, List.getElem?_append_right (le_refl _)]
      simp
    cases hp : post[0]? with
    | none =>
      rw [hpk, hp]
      rfl
    | some c =>
      rw [hpk, hp]
      show (if isDigit c = true then
          match iChecked min max (n * 10) with
          | none => (.error .InvalidNumber : Except DeErr (Int × De))
          | some n10 =>
            match iChecked min max
                (n10 + ((c - 48 : Nat) : Int) * (if false then -1 else 1)) with
            | none => .error .InvalidNumber
            | some n' => parseSignedLoopF min max false f n'
                (⟨pre ++ ([] ++ post), pre.length⟩ : De).eatChar
        else .ok (n, ⟨pre ++ ([] ++ post), pre.length⟩)) = _
      rw [if_neg (by simp [hpost c hp])]
      rfl
  | cons d ds ih =>
    intro fuel pre post n hds hpost hfuel hn hacc
    obtain ⟨f, rfl⟩ : ∃ f, fuel = f + 1 := ⟨fuel - 1, by omega⟩
    rw [sloop_succ]
    have hpk : (⟨pre ++ ((d :: ds) ++ post), pre.length⟩ : De).peek = some d := by
      show (pre ++ ((d :: ds) ++ post))[pre.length]? = _
      rw [List.getElem?_append_right (le_refl _)]
      simp
    rw [hpk]
    have hdd : isDigit d := hds d (List.mem_cons_self ..)
    show (if isDigit d = true then
        match iChecked min max (n * 10) with
        | none => (.error .InvalidNumber : Except DeErr (Int × De))
        | some n10 =>
          match iChecked min max
              (n10 + ((d - 48 : Nat) : Int) * (if false then -1 else 1)) with
          | none => .error .InvalidNumber
          | some n' => parseSignedLoopF min max false f n'
              (⟨pre ++ ((d :: ds) ++ post), pre.length⟩ : De).eatChar
      else .ok (n, ⟨pre ++ ((d :: ds) ++ post), pre.length⟩)) = _
    rw [if_pos hdd]
    have hA : (0 : Int) ≤ ((d - 48 : Nat) : Int) * (if false then -1 else 1) := by
      rw [if_sign_false]
      omega
    have hX0 : (0 : Int) ≤ n * 10 + ((d - 48 : Nat) : Int) * (if false then -1 else 1) := by
      omega
    have hacc' : accDigitsI false
        (n * 10 + ((d - 48 : Nat) : Int) * (if false then -1 else 1)) ds ≤ max := hacc
    have hmono := accDigitsI_false_le ds
      (n * 10 + ((d - 48 : Nat) : Int) * (if false then -1 else 1)) hX0
    have hi1 : iChecked min max (n * 10) = some (n * 10) := by
      unfold iChecked
      rw [if_pos (⟨by omega, by omega⟩ : min ≤ n * 10 ∧ n * 10 ≤ max)]
    have hi2 : iChecked min max
        (n * 10 + ((d - 48 : Nat) : Int) * (if false then -1 else 1)) =
        some (n * 10 + ((d - 48 : Nat) : Int) * (if false then -1 else 1)) := by
      unfold iChecked
      rw [if_pos (⟨by omega, by omega⟩ : min ≤ _ ∧ _ ≤ max)]
    rw [hi1]
    show (match iChecked min max
        (n * 10 + ((d - 48 : Nat) : Int) * (if false then -1 else 1)) with
      | none => (.error .InvalidNumber : Except DeErr (Int × De))
      | some n' => parseSignedLoopF min max false f n'
          (⟨pre ++ ((d :: ds) ++ post), pre.length⟩ : De).eatChar) = _
    rw [hi2]
    show parseSignedLoopF min max false f
        (n * 10 + ((d - 48 : Nat) : Int) * (if false then -1 else 1))
        (⟨pre ++ ((d :: ds) ++ post), pre.length⟩ : De).eatChar = _
    have h1 : pre ++ ((d :: ds) ++ post) = (pre ++ [d]) ++ (ds ++ post) := by simp
    have heat : (⟨pre ++ ((d :: ds) ++ post), pre.length⟩ : De).eatChar =
        ⟨(pre ++ [d]) ++ (ds ++ post), (pre ++ [d]).length⟩ := by
      show De.mk (pre ++ ((d :: ds) ++ post)) (pre.length + 1) = _
      rw [h1]
      congr 1
      simp
    rw [heat]
    rw [ih f (pre ++ [d]) post
      (n * 10 + ((d - 48 : Nat) : Int) * (if false then -1 else 1))
      (fun c hc => hds c (List.mem_cons_of_mem d hc)) hpost
      (by simp only [List.length_cons] at hfuel; omega) hX0 hacc']
    rw [← h1]
    have h3 : (pre ++ [d]).length + ds.length = pre.length + (d :: ds).length := by
      simp only [List.length_append, List.length_cons, List.length_nil]
      omega
    rw [h3]
    rfl

theorem sloop_run_true (min max : Int) (hmin : min ≤ 0) (hmax : 0 ≤ max) :
    ∀ (ds : List Nat) (fuel : Nat) (pre post : List Nat) (n : Int),
      (∀ c ∈ ds, isDigit c) →
      (∀ c, post[0]? = some c → isDigit c = false) →
      ds.length < fuel → n ≤ 0 → min ≤ accDigitsI true n ds →
      parseSignedLoopF min max true fuel n ⟨pre ++ (ds ++ post), pre.length⟩ =
        .ok (accDigitsI true n ds, ⟨pre ++ (ds ++ post), pre.length + ds.length⟩) := by
  intro ds
  induction ds with
  | nil =>
    intro fuel pre post n _ hpost hfuel _ _
    obtain ⟨f, rfl⟩ : ∃ f, fuel = f + 1 := ⟨fuel - 1, by omega⟩
    rw [sloop_succ]
    have hpk : (⟨pre ++ ([] ++ post), pre.length⟩ : De).peek = post[0]? := by
      show (pre ++ ([] ++ post))[pre.length]? = _
      rw [List.nil_append, List.getElem?_append_right (le_refl _)]
      simp
    cases hp : post[0]? with
    | none =>
      rw [hpk, hp]
      rfl
    | some c =>
      rw [hpk, hp]
      show (if isDigit c = true then
          match iChecked min max (n * 10) with
          | none => (.error .InvalidNumber : Except DeErr (Int × De))
          | some n10 =>
            match iChecked min max
                (n10 + ((c - 48 : Nat) : Int) * (if true then -1 else 1)) with
            | none => .error .InvalidNumber
            | some n' => parseSignedLoopF min max true f n'
                (⟨pre ++ ([] ++ post), pre.length⟩ : De).eatChar
        else .ok (n, ⟨pre ++ ([] ++ post), pre.length⟩)) = _
      rw [if_neg (by simp [hpost c hp])]
      rfl
  | cons d ds ih =>
    intro fuel pre post n hds hpost hfuel hn hacc
    obtain ⟨f, rfl⟩ : ∃ f, fuel = f + 1 := ⟨fuel - 1, by omega⟩
    rw [sloop_succ]
    have hpk : (⟨pre ++ ((d :: ds) ++ post), pre.length⟩ : De).peek = some d := by
      show (pre ++ ((d :: ds) ++ post))[pre.length]? = _
      rw [List.getElem?_append_right (le_refl _)]
      simp
    rw [hpk]
    have hdd : isDigit d := hds d (List.mem_cons_self ..)
    show (if isDigit d = true then
        match iChecked min max (n * 10) with
        | none => (.error .InvalidNumber : Except DeErr (Int × De))
        | some n10 =>
          match iChecked min max
              (n10 + ((d - 48 : Nat) : Int) * (if true then -1 else 1)) with
          | none => .error .InvalidNumber
          | some n' => parseSignedLoopF min max true f n'
              (⟨pre ++ ((d :: ds) ++ post), pre.length⟩ : De).eatChar
      else .ok (n, ⟨pre ++ ((d :: ds) ++ post), pre.length⟩)) = _
    rw [if_pos hdd]
    have hA : ((d - 48 : Nat) : Int) * (if true then -1 else 1) ≤ 0 := by
      rw [if_sign_true]
      omega
    have hX0 : n * 10 + ((d - 48 : Nat) : Int) * (if true then -1 else 1) ≤ 0 := by
      omega
    have hacc' : min ≤ accDigitsI true
        (n * 10 + ((d - 48 : Nat) : Int) * (if true then -1 else 1)) ds := hacc
    have hmono := accDigitsI_true_le ds
      (n * 10 + ((d - 48 : Nat) : Int) * (if true then -1 else 1)) hX0
    have hi1 : iChecked min max (n * 10) = some (n * 10) := by
      unfold iChecked
      rw [if_pos (⟨by omega, by omega⟩ : min ≤ n * 10 ∧ n * 10 ≤ max)]
    have hi2 : iChecked min max
        (n * 10 + ((d - 48 : Nat) : Int) * (if true then -1 else 1)) =
        some (n * 10 + ((d - 48 : Nat) : Int) * (if true then -1 else 1)) := by
      unfold iChecked
      rw [if_pos (⟨by omega, by omega⟩ : min ≤ _ ∧ _ ≤ max)]
    rw [hi1]
    show (match iChecked min max
        (n * 10 + ((d - 48 : Nat) : Int) * (if true then -1 else 1)) with
      | none => (.error .InvalidNumber : Except DeErr (Int × De))
      | some n' => parseSignedLoopF min max true f n'
          (⟨pre ++ ((d :: ds) ++ post), pre.length⟩ : De).eatChar) = _
    rw [hi2]
    show parseSignedLoopF min max true f
        (n * 10 + ((d - 48 : Nat) : Int) * (if true then -1 else 1))
        (⟨pre ++ ((d :: ds) ++ post), pre.length⟩ : De).eatChar = _
    have h1 : pre ++ ((d :: ds) ++ post) = (pre ++ [d]) ++ (ds ++ post) := by simp
    have heat : (⟨pre ++ ((d :: ds) ++ post), pre.length⟩ : De).eatChar =
        ⟨(pre ++ [d]) ++ (ds ++ post), (pre ++ [d]).length⟩ := by
      show De.mk (pre ++ ((d :: ds) ++ post)) (pre.length + 1) = _
      rw [h1]
      congr 1
      simp
    rw [heat]
    rw [ih f (pre ++ [d]) post
      (n * 10 + ((d - 48 : Nat) : Int) * (if true then -1 else 1))
      (fun c hc => hds c (List.mem_cons_of_mem d hc)) hpost
      (by simp only [List.length_cons] at hfuel; omega) hX0 hacc']
    rw [← h1]
    have h3 : (pre ++ [d]).length + ds.length = pre.length + (d :: ds).length := by
      simp only [List.length_append, List.length_cons, List.length_nil]
      omega
    rw [h3]
    rfl

theorem fromSliceI_roundtrip (min max v : Int) (hmin : min = -max - 1)
    (h1 : min ≤ v) (h2 : v ≤ max) :
    fromSliceI min max (signedDigits min max v) =
      .ok (v, (signedDigits min max v).length) := by
  have hmax0 : (0 : Int) ≤ max := by omega
  by_cases hv0 : 0 ≤ v
  · have hne : ¬ v = min := by omega
    have hnlt : ¬ v < 0 := by omega
    have hbs : signedDigits min max v = unsignedDigits v.toNat := by
      unfold signedDigits
      rw [if_neg hne, if_neg hnlt]
      rfl
    rw [hbs]
    by_cases hvz : v = 0
    · subst hvz
      rfl
    · have hvpos : v.toNat ≠ 0 := by omega
      obtain ⟨d₀, rest, hds, h49, h57, hrd, hacc⟩ := unsignedDigits_pos v.toNat hvpos
      rw [hds]
      have hdd : isDigit d₀ := by simp only [isDigit, decide_eq_true_eq]; omega
      have hpk : (⟨d₀ :: rest, 0⟩ : De).peek = some d₀ := by simp [De.peek]
      have hnws : ¬ isWs d₀ := fun hws => (ws_not_digit hws) hdd
      have hpw := pw_step_stop hpk hnws
      have hD : deserializeSigned min max ⟨d₀ :: rest, 0⟩ =
          parseSignedLoopF min max false
            ((⟨d₀ :: rest, 0⟩ : De).eatChar.remaining + 1)
            (((d₀ - 48 : Nat) : Int) * (if false then -1 else 1))
            (⟨d₀ :: rest, 0⟩ : De).eatChar := by
        unfold deserializeSigned
        rw [hpw]
        show (if d₀ = 45 then signedBody min max true (⟨d₀ :: rest, 0⟩ : De).eatChar
          else signedBody min max false ⟨d₀ :: rest, 0⟩) = _
        rw [if_neg (by omega : ¬ d₀ = 45)]
        unfold signedBody
        rw [hpk]
        show (if d₀ = 48 then .ok (0, (⟨d₀ :: rest, 0⟩ : De).eatChar)
          else if 49 ≤ d₀ ∧ d₀ ≤ 57 then
            parseSignedLoopF min max false
              ((⟨d₀ :: rest, 0⟩ : De).eatChar.remaining + 1)
              (((d₀ - 48 : Nat) : Int) * (if false then -1 else 1))
              (⟨d₀ :: rest, 0⟩ : De).eatChar
          else (.error .InvalidType : Except DeErr (Int × De))) = _
        rw [if_neg (by omega : ¬ d₀ = 48),
          if_pos (⟨h49, h57⟩ : 49 ≤ d₀ ∧ d₀ ≤ 57)]
      have hsl : d₀ :: rest = [d₀] ++ (rest ++ []) := by simp
      have hval : accDigitsI false
          (((d₀ - 48 : Nat) : Int) * (if false then -1 else 1)) rest = v := by
        have e1 : ((d₀ - 48 : Nat) : Int) * (if false then -1 else 1) =
            ((d₀ - 48 : Nat) : Int) := by
          rw [if_sign_false]
          ring
        rw [e1, accDigitsI_false_eq rest (d₀ - 48), hacc]
        omega
      have hrun := sloop_run_false min max (by omega) hmax0 rest
        ((⟨d₀ :: rest, 0⟩ : De).eatChar.remaining + 1) [d₀] []
        (((d₀ - 48 : Nat) : Int) * (if false then -1 else 1))
        hrd (fun c hc => absurd hc (by simp))
        (by simp only [De.remaining, De.eatChar_slice, De.eatChar_index,
          List.length_cons]; omega)
        (by rw [if_sign_false]; omega)
        (by rw [hval]; exact h2)
      rw [← hsl] at hrun
      rw [hval] at hrun
      have hidx : ([d₀] : List Nat).length + rest.length = (d₀ :: rest).length := by
        simp only [List.length_cons, List.length_nil]
        omega
      rw [hidx] at hrun
      have hD2 : deserializeSigned min max ⟨d₀ :: rest, 0⟩ =
          .ok (v, ⟨d₀ :: rest, (d₀ :: rest).length⟩) := by
        rw [hD]
        exact hrun
      exact fromSliceD_run (deserializeSigned min max) (d₀ :: rest) v hD2
  · push_neg at hv0
    have hmagpos : (-v).toNat ≠ 0 := by omega
    have hbs : signedDigits min max v = 45 :: unsignedDigits (-v).toNat := by
      unfold signedDigits
      by_cases hvm : v = min
      · rw [if_pos hvm]
        show 45 :: unsignedDigits (max + 1).toNat = _
        have hmt : (max + 1).toNat = (-v).toNat := by omega
        rw [hmt]
      · rw [if_neg hvm, if_pos hv0]
        rfl
    rw [hbs]
    obtain ⟨d₀, rest, hds, h49, h57, hrd, hacc⟩ :=
      unsignedDigits_pos (-v).toNat hmagpos
    rw [hds]
    have hdd : isDigit d₀ := by simp only [isDigit, decide_eq_true_eq]; omega
    have hpk0 : (⟨45 :: d₀ :: rest, 0⟩ : De).peek = some 45 := by simp [De.peek]
    have hpw := pw_step_stop hpk0 (by decide)
    have hpk1 : (⟨45 :: d₀ :: rest, 0⟩ : De).eatChar.peek = some d₀ := by
      simp [De.peek, De.eatChar]
    have hD : deserializeSigned min max ⟨45 :: d₀ :: rest, 0⟩ =
        parseSignedLoopF min max true
          ((⟨45 :: d₀ :: rest, 0⟩ : De).eatChar.eatChar.remaining + 1)
          (((d₀ - 48 : Nat) : Int) * (if true then -1 else 1))
          (⟨45 :: d₀ :: rest, 0⟩ : De).eatChar.eatChar := by
      unfold deserializeSigned
      rw [hpw]
      show (if (45 : Nat) = 45 then
          signedBody min max true (⟨45 :: d₀ :: rest, 0⟩ : De).eatChar
        else signedBody min max false ⟨45 :: d₀ :: rest, 0⟩) = _
      rw [if_pos rfl]
      unfold signedBody
      rw [hpk1]
      show (if d₀ = 48 then .ok (0, (⟨45 :: d₀ :: rest, 0⟩ : De).eatChar.eatChar)
        else if 49 ≤ d₀ ∧ d₀ ≤ 57 then
          parseSignedLoopF min max true
            ((⟨45 :: d₀ :: rest, 0⟩ : De).eatChar.eatChar.remaining + 1)
            (((d₀ - 48 : Nat) : Int) * (if true then -1 else 1))
            (⟨45 :: d₀ :: rest, 0⟩ : De).eatChar.eatChar
        else (.error .InvalidType : Except DeErr (Int × De))) = _
      rw [if_neg (by omega : ¬ d₀ = 48),
        if_pos (⟨h49, h57⟩ : 49 ≤ d₀ ∧ d₀ ≤ 57)]
    have hsl : 45 :: d₀ :: rest = [45, d₀] ++ (rest ++ []) := by simp
    have hval : accDigitsI true
        (((d₀ - 48 : Nat) : Int) * (if true then -1 else 1)) rest = v := by
      have e1 : ((d₀ - 48 : Nat) : Int) * (if true then -1 else 1) =
          -((d₀ - 48 : Nat) : Int) := by
        rw [if_sign_true]
        ring
      rw [e1, accDigitsI_true_eq rest (d₀ - 48), hacc]
      omega
    have hrun := sloop_run_true min max (by omega) hmax0 rest
      ((⟨45 :: d₀ :: rest, 0⟩ : De).eatChar.eatChar.remaining + 1) [45, d₀] []
      (((d₀ - 48 : Nat) : Int) * (if true then -1 else 1))
      hrd (fun c hc => absurd hc (by simp))
      (by simp only [De.remaining, De.eatChar_slice, De.eatChar_index,
        List.length_cons]; omega)
      (by rw [if_sign_true]; omega)
      (by rw [hval]; exact h1)
    rw [← hsl] at hrun
    rw [hval] at hrun
    have hidx : ([45, d₀] : List Nat).length + rest.length =
        (45 :: d₀ :: rest).length := by
      simp only [List.length_cons, List.length_nil]
      omega
    rw [hidx] at hrun
    have hD2 : deserializeSigned min max ⟨45 :: d₀ :: rest, 0⟩ =
        .ok (v, ⟨45 :: d₀ :: rest, (45 :: d₀ :: rest).length⟩) := by
      rw [hD]
      exact hrun
    exact fromSliceD_run (deserializeSigned min max) (45 :: d₀ :: rest) v hD2

theorem subSlice_full (s : List Nat) : subSlice s 0 s.length = s := by
  simp [subSlice]

theorem floatChompF_all :
    ∀ (fuel : Nat) (de : De), de.remaining < fuel →
      de.index ≤ de.slice.length →
      (∀ j c, de.index ≤ j → de.slice[j]? = some c → isFloatByte c) →
      floatChompF fuel de = ⟨de.slice, de.slice.length⟩ := by
  intro fuel
  induction fuel with
  | zero => intro de h _ _; exact absurd h (Nat.not_lt_zero _)
  | succ f ih =>
    intro de hf hle hall
    rw [chompF_succ]
    cases hp : de.peek with
    | none =>
      have hlen : de.slice.length ≤ de.index := List.getElem?_eq_none_iff.mp hp
      have hidx : de.index = de.slice.length := by omega
      cases de with
      | mk s i =>
        simp only at hidx
        rw [hidx]
    | some c =>
      have hc : isFloatByte c := hall de.index c (le_refl _) hp
      show (if isFloatByte c = true then floatChompF f de.eatChar else de) = _
      rw [if_pos hc]
      have hrec := ih de.eatChar
        (by have := De.remaining_eatChar_lt hp; omega)
        (by have := De.peek_some_lt hp
            simp only [De.eatChar_slice, De.eatChar_index]
            omega)
        (fun j c' hj hg => hall j c' (by simp only [De.eatChar_index] at hj; omega)
          (by simpa using hg))
      simpa using hrec

theorem fromSliceFloat_run {F : Type} (fromStr : List Nat → Option F)
    (bs : List Nat) (v : F) (hne : bs ≠ []) (hfb : ∀ c ∈ bs, isFloatByte c)
    (hfs : fromStr bs = some v) :
    fromSliceFloat fromStr bs = .ok (v, bs.length) := by
  obtain ⟨c₀, rest, rfl⟩ : ∃ c₀ rest, bs = c₀ :: rest := by
    cases bs with
    | nil => exact absurd rfl hne
    | cons a l => exact ⟨a, l, rfl⟩
  have hc₀ : isFloatByte c₀ := hfb c₀ (List.mem_cons_self ..)
  have hpk : (⟨c₀ :: rest, 0⟩ : De).peek = some c₀ := by simp [De.peek]
  have hnws : ¬ isWs c₀ := fun hws => (ws_not_float hws) hc₀
  have hpw := pw_step_stop hpk hnws
  have hch : floatChompF ((⟨c₀ :: rest, 0⟩ : De).remaining + 1) ⟨c₀ :: rest, 0⟩ =
      ⟨c₀ :: rest, (c₀ :: rest).length⟩ := by
    refine floatChompF_all _ _ ?_ (Nat.zero_le _) ?_
    · simp only [De.remaining]
      omega
    · intro j c _ hj
      exact hfb c (List.getElem?_mem hj)
  have hD : deserializeFloat fromStr ⟨c₀ :: rest, 0⟩ =
      .ok (v, ⟨c₀ :: rest, (c₀ :: rest).length⟩) := by
    unfold deserializeFloat
    rw [hpw]
    show (match fromStr (subSlice
        (floatChompF ((⟨c₀ :: rest, 0⟩ : De).remaining + 1) ⟨c₀ :: rest, 0⟩).slice 0
        (floatChompF ((⟨c₀ :: rest, 0⟩ : De).remaining + 1) ⟨c₀ :: rest, 0⟩).index) with
      | none => (.error .InvalidNumber : Except DeErr (F × De))
      | some w => .ok (w,
          floatChompF ((⟨c₀ :: rest, 0⟩ : De).remaining + 1) ⟨c₀ :: rest, 0⟩)) = _
    rw [hch]
    show (match fromStr (subSlice (c₀ :: rest) 0 (c₀ :: rest).length) with
      | none => (.error .InvalidNumber : Except DeErr (F × De))
      | some w => .ok (w, (⟨c₀ :: rest, (c₀ :: rest).length⟩ : De))) = _
    rw [subSlice_full, hfs]
  exact fromSliceD_run (deserializeFloat fromStr) (c₀ :: rest) v hD

/-- C1: for every supported scalar type, decoding the text produced by
encoding a value yields exactly that value and consumes the whole encoded
text: booleans; unsigned integers of every width (`max` is `uxx::MAX`);
signed integers of every two's-complement width (`ixx::MIN = -ixx::MAX - 1`,
with `ixx::MIN` itself included); and floats, whose external `ryu` formatter
and `FromStr` parser are abstracted as a pair `fmt`/`fromStr` that is exact
(bit-for-bit: `fromStr (fmt u) = some u`) and formats into the accepted
float byte pattern. -/
theorem scalar_roundtrip :
    (∀ (cap : Nat) (v : Bool) (bs : List Nat),
      toSliceBool cap v = .ok bs → fromSliceBool bs = .ok (v, bs.length)) ∧
    (∀ (max cap v : Nat) (bs : List Nat), v ≤ max →
      toSliceU cap v = .ok bs → fromSliceU max bs = .ok (v, bs.length)) ∧
    (∀ (max : Int) (cap : Nat) (v : Int) (bs : List Nat),
      -max - 1 ≤ v → v ≤ max →
      toSliceI (-max - 1) max cap v = .ok bs →
      fromSliceI (-max - 1) max bs = .ok (v, bs.length)) ∧
    (∀ (F : Type) (fmt : F → List Nat) (fromStr : List Nat → Option F)
      (cap : Nat) (v : F) (bs : List Nat),
      (∀ u, fromStr (fmt u) = some u) →
      (∀ u, fmt u ≠ [] ∧ ∀ c ∈ fmt u, isFloatByte c) →
      toSliceFloat fmt cap v = .ok bs →
      fromSliceFloat fromStr bs = .ok (v, bs.length)) := by
  refine ⟨?_, ?_, ?_, ?_⟩
  · intro cap v bs h
    cases v with
    | false =>
      have hbs : bs = [102, 97, 108, 115, 101] :=
        runToSlice_ok [102, 97, 108, 115, 101] (fun s => rfl) h
      subst hbs
      rfl
    | true =>
      have hbs : bs = [116, 114, 117, 101] :=
        runToSlice_ok [116, 114, 117, 101] (fun s => rfl) h
      subst hbs
      rfl
  · intro max cap v bs hv h
    have hbs : bs = unsignedDigits v :=
      runToSlice_ok (unsignedDigits v) (fun s => rfl) h
    subst hbs
    exact fromSliceU_roundtrip max v hv
  · intro max cap v bs h1 h2 h
    have hbs : bs = signedDigits (-max - 1) max v :=
      runToSlice_ok (signedDigits (-max - 1) max v) (fun s => rfl) h
    subst hbs
    exact fromSliceI_roundtrip (-max - 1) max v rfl h1 h2
  · intro F fmt fromStr cap v bs hrt hpat h
    have hbs : bs = fmt v := runToSlice_ok (fmt v) (fun s => rfl) h
    subst hbs
    exact fromSliceFloat_run fromStr (fmt v) v (hpat v).1 (hpat v).2 (hrt v)

/-- C1 witness: the round-trips applied at concrete encodings: `true`,
`255` into `u8`, `-128` into `i8`, and a two-value float type with an
exact formatter/parser pair. -/
theorem scalar_roundtrip_witness :
    fromSliceBool [116, 114, 117, 101] = .ok (true, 4) ∧
    fromSliceU 255 [50, 53, 53] = .ok (255, 3) ∧
    fromSliceI (-127 - 1) 127 [45, 49, 50, 56] = .ok (-128, 4) ∧
    fromSliceFloat toyFromStr [49] = .ok (true, 1) := by
  refine ⟨?_, ?_, ?_, ?_⟩
  · exact scalar_roundtrip.1 8 true [116, 114, 117, 101] rfl
  · exact scalar_roundtrip.2.1 255 4 255 [50, 53, 53] (by decide) rfl
  · exact scalar_roundtrip.2.2.1 127 5 (-128) [45, 49, 50, 56]
      (by decide) (by decide) rfl
  · exact scalar_roundtrip.2.2.2 Bool toyFmt toyFromStr 2 true [49]
      (by decide) (by decide) rfl

/-! ### C9: every scan loop consumes input, so fuel linear in the
remaining input is already enough -/

theorem parseStrF_enough {start : Nat} :
    ∀ (fuel₁ fuel₂ : Nat) (de : De), de.remaining < fuel₁ → de.remaining < fuel₂ →
      parseStrF start fuel₁ de = parseStrF start fuel₂ de := by
  intro fuel₁
  induction fuel₁ with
  | zero => intro fuel₂ de h₁ h₂; omega
  | succ a ih =>
    intro fuel₂ de h₁ h₂
    cases fuel₂ with
    | zero => omega
    | succ b =>
      cases hp : de.peek with
      | none => rw [parseStrF_step_eof hp, parseStrF_step_eof hp]
      | some c =>
        have hre := De.remaining_eatChar_lt hp
        by_cases h34 : c = 34
        · subst h34
          by_cases hbk : countBackslashes de.slice de.index % 2 = 1
          · rw [parseStrF_step_cont hp (fun _ => hbk),
              parseStrF_step_cont hp (fun _ => hbk)]
            exact ih b de.eatChar (by omega) (by omega)
          · have hev : countBackslashes de.slice de.index % 2 = 0 := by omega
            rw [parseStrF_step_found hp hev, parseStrF_step_found hp hev]
        · rw [parseStrF_step_cont hp (fun hc => absurd hc h34),
            parseStrF_step_cont hp (fun hc => absurd hc h34)]
          exact ih b de.eatChar (by omega) (by omega)

theorem parseUnsignedLoopF_enough {max : Nat} :
    ∀ (fuel₁ fuel₂ n : Nat) (de : De), de.remaining < fuel₁ → de.remaining < fuel₂ →
      parseUnsignedLoopF max fuel₁ n de = parseUnsignedLoopF max fuel₂ n de := by
  intro fuel₁
  induction fuel₁ with
  | zero => intro fuel₂ n de h₁ h₂; omega
  | succ a ih =>
    intro fuel₂ n de h₁ h₂
    cases fuel₂ with
    | zero => omega
    | succ b =>
      rw [uloop_succ, uloop_succ]
      cases hp : de.peek with
      | none => rfl
      | some c =>
        have hre := De.remaining_eatChar_lt hp
        by_cases hd : isDigit c
        · simp only [hd, if_true]
          cases uChecked max (n * 10) with
          | none => rfl
          | some n10 =>
            show (match uChecked max (n10 + (c - 48)) with
              | none => (.error .InvalidNumber : Except DeErr (Nat × De))
              | some n' => parseUnsignedLoopF max a n' de.eatChar) =
              (match uChecked max (n10 + (c - 48)) with
              | none => .error .InvalidNumber
              | some n' => parseUnsignedLoopF max b n' de.eatChar)
            cases uChecked max (n10 + (c - 48)) with
            | none => rfl
            | some n' => exact ih b n' de.eatChar (by omega) (by omega)
        · simp [hd]

theorem parseSignedLoopF_enough {min max : Int} {sg : Bool} :
    ∀ (fuel₁ fuel₂ : Nat) (n : Int) (de : De),
      de.remaining < fuel₁ → de.remaining < fuel₂ →
      parseSignedLoopF min max sg fuel₁ n de =
        parseSignedLoopF min max sg fuel₂ n de := by
  intro fuel₁
  induction fuel₁ with
  | zero => intro fuel₂ n de h₁ h₂; omega
  | succ a ih =>
    intro fuel₂ n de h₁ h₂
    cases fuel₂ with
    | zero => omega
    | succ b =>
      rw [sloop_succ, sloop_succ]
      cases hp : de.peek with
      | none => rfl
      | some c =>
        have hre := De.remaining_eatChar_lt hp
        by_cases hd : isDigit c
        · simp only [hd, if_true]
          cases iChecked min max (n * 10) with
          | none => rfl
          | some n10 =>
            show (match iChecked min max
                (n10 + ((c - 48 : Nat) : Int) * (if sg then -1 else 1)) with
              | none => (.error .InvalidNumber : Except DeErr (Int × De))
              | some n' => parseSignedLoopF min max sg a n' de.eatChar) =
              (match iChecked min max
                (n10 + ((c - 48 : Nat) : Int) * (if sg then -1 else 1)) with
              | none => .error .InvalidNumber
              | some n' => parseSignedLoopF min max sg b n' de.eatChar)
            cases iChecked min max
                (n10 + ((c - 48 : Nat) : Int) * (if sg then -1 else 1)) with
            | none => rfl
            | some n' => exact ih b n' de.eatChar (by omega) (by omega)
        · simp [hd]

theorem floatChompF_enough :
    ∀ (fuel₁ fuel₂ : Nat) (de : De), de.remaining < fuel₁ → de.remaining < fuel₂ →
      floatChompF fuel₁ de = floatChompF fuel₂ de := by
  intro fuel₁
  induction fuel₁ with
  | zero => intro fuel₂ de h₁ h₂; omega
  | succ a ih =>
    intro fuel₂ de h₁ h₂
    cases fuel₂ with
    | zero => omega
    | succ b =>
      rw [chompF_succ, chompF_succ]
      cases hp : de.peek with
      | none => rfl
      | some c =>
        have hre := De.remaining_eatChar_lt hp
        by_cases hfb : isFloatByte c
        · simp only [hfb, if_true]
          exact ih b de.eatChar (by omega) (by omega)
        · simp [hfb]

theorem ignoredChompF_enough :
    ∀ (fuel₁ fuel₂ : Nat) (de : De), de.remaining < fuel₁ → de.remaining < fuel₂ →
      ignoredChompF fuel₁ de = ignoredChompF fuel₂ de := by
  intro fuel₁
  induction fuel₁ with
  | zero => intro fuel₂ de h₁ h₂; omega
  | succ a ih =>
    intro fuel₂ de h₁ h₂
    cases fuel₂ with
    | zero => omega
    | succ b =>
      simp only [ignoredChompF]
      cases hp : de.peek with
      | none => rfl
      | some c =>
        have hre := De.remaining_eatChar_lt hp
        show (if c = 44 ∨ c = 125 ∨ c = 93 then (.ok de : Except DeErr De)
            else ignoredChompF a de.eatChar) =
          (if c = 44 ∨ c = 125 ∨ c = 93 then .ok de
            else ignoredChompF b de.eatChar)
        by_cases hc : c = 44 ∨ c = 125 ∨ c = 93
        · rw [if_pos hc, if_pos hc]
        · rw [if_neg hc, if_neg hc]
          exact ih b de.eatChar (by omega) (by omega)

/-- C9: every codec loop terminates with work linear in its input: each
scan loop of the deserializer (whitespace skipping, string scanning,
unsigned/signed digit accumulation, float-pattern chomping, ignored-value
chomping) advances the cursor every iteration, so any fuel beyond the
remaining input yields the identical result — the loops are total and
bounded by the input length; the digit-rendering loop of the serializer
needs at most `v` rounds and emits exactly the digit string; and the
whitespace scan never moves the cursor backwards nor past the end of the
input. -/
theorem loops_terminate :
    (∀ (de : De) (f₁ f₂ : Nat), de.remaining < f₁ → de.remaining < f₂ →
      De.parseWhitespaceF f₁ de = De.parseWhitespaceF f₂ de) ∧
    (∀ (start : Nat) (de : De) (f₁ f₂ : Nat),
      de.remaining < f₁ → de.remaining < f₂ →
      parseStrF start f₁ de = parseStrF start f₂ de) ∧
    (∀ (max n : Nat) (de : De) (f₁ f₂ : Nat),
      de.remaining < f₁ → de.remaining < f₂ →
      parseUnsignedLoopF max f₁ n de = parseUnsignedLoopF max f₂ n de) ∧
    (∀ (min max : Int) (sg : Bool) (n : Int) (de : De) (f₁ f₂ : Nat),
      de.remaining < f₁ → de.remaining < f₂ →
      parseSignedLoopF min max sg f₁ n de = parseSignedLoopF min max sg f₂ n de) ∧
    (∀ (de : De) (f₁ f₂ : Nat), de.remaining < f₁ → de.remaining < f₂ →
      floatChompF f₁ de = floatChompF f₂ de) ∧
    (∀ (de : De) (f₁ f₂ : Nat), de.remaining < f₁ → de.remaining < f₂ →
      ignoredChompF f₁ de = ignoredChompF f₂ de) ∧
    (∀ (v : Nat) (acc : List Nat) (f : Nat), v < f →
      unsignedDigitsF f v acc = unsignedDigits v ++ acc) ∧
    (∀ de : De, de.index ≤ de.parseWhitespace.1.index ∧
      (de.index ≤ de.slice.length → de.parseWhitespace.1.index ≤ de.slice.length)) := by
  refine ⟨?_, ?_, ?_, ?_, ?_, ?_, ?_, ?_⟩
  · intro de f₁ f₂ h₁ h₂
    exact parseWhitespaceF_enough de h₁ h₂
  · intro start de f₁ f₂ h₁ h₂
    exact parseStrF_enough f₁ f₂ de h₁ h₂
  · intro max n de f₁ f₂ h₁ h₂
    exact parseUnsignedLoopF_enough f₁ f₂ n de h₁ h₂
  · intro min max sg n de f₁ f₂ h₁ h₂
    exact parseSignedLoopF_enough f₁ f₂ n de h₁ h₂
  · intro de f₁ f₂ h₁ h₂
    exact floatChompF_enough f₁ f₂ de h₁ h₂
  · intro de f₁ f₂ h₁ h₂
    exact ignoredChompF_enough f₁ f₂ de h₁ h₂
  · intro v acc f h
    rw [unsignedDigitsF_eq f v acc h, unsignedDigits_eq]
  · intro de
    obtain ⟨g₁, _, g₃, _, _, _⟩ := parseWhitespace_spec de
    exact ⟨g₁, g₃⟩

/-- C9 witness: fuel beyond the remaining input is interchangeable on
concrete states for every loop, and the whitespace scan lands within the
input. -/
theorem loops_terminate_witness :
    De.parseWhitespaceF 3 ⟨[32, 116], 0⟩ = De.parseWhitespaceF 9 ⟨[32, 116], 0⟩ ∧
    parseStrF 0 3 ⟨[97, 34], 0⟩ = parseStrF 0 7 ⟨[97, 34], 0⟩ ∧
    parseUnsignedLoopF 255 3 1 ⟨[53, 53], 0⟩ =
      parseUnsignedLoopF 255 8 1 ⟨[53, 53], 0⟩ ∧
    parseSignedLoopF (-128) 127 true 2 (-1) ⟨[50], 0⟩ =
      parseSignedLoopF (-128) 127 true 6 (-1) ⟨[50], 0⟩ ∧
    floatChompF 4 ⟨[49, 46, 53], 0⟩ = floatChompF 9 ⟨[49, 46, 53], 0⟩ ∧
    ignoredChompF 3 ⟨[120, 44], 0⟩ = ignoredChompF 5 ⟨[120, 44], 0⟩ ∧
    unsignedDigitsF 43 42 [] = unsignedDigits 42 ++ [] ∧
    (⟨[32, 116], 0⟩ : De).index ≤ (⟨[32, 116], 0⟩ : De).parseWhitespace.1.index := by
  refine ⟨?_, ?_, ?_, ?_, ?_, ?_, ?_, ?_⟩
  · exact loops_terminate.1 ⟨[32, 116], 0⟩ 3 9 (by decide) (by decide)
  · exact loops_terminate.2.1 0 ⟨[97, 34], 0⟩ 3 7 (by decide) (by decide)
  · exact loops_terminate.2.2.1 255 1 ⟨[53, 53], 0⟩ 3 8 (by decide) (by decide)
  · exact loops_terminate.2.2.2.1 (-128) 127 true (-1) ⟨[50], 0⟩ 2 6
      (by decide) (by decide)
  · exact loops_terminate.2.2.2.2.1 ⟨[49, 46, 53], 0⟩ 4 9 (by decide) (by decide)
  · exact loops_terminate.2.2.2.2.2.1 ⟨[120, 44], 0⟩ 3 5 (by decide) (by decide)
  · exact loops_terminate.2.2.2.2.2.2.1 42 [] 43 (by decide)
  · exact (loops_terminate.2.2.2.2.2.2.2 ⟨[32, 116], 0⟩).1

/-! ### C3: what `serialize_str` writes -/

theorem sseq_assoc (r : Ser × Option SerErr) (f g : Ser → Ser × Option SerErr) :
    sseq (sseq r f) g = sseq r (fun s => sseq (f s) g) := by
  rcases r with ⟨s, err⟩
  cases err <;> rfl

theorem serOk_base (s : Ser) (h : s.currentLength ≤ s.buf.length) :
    SerOk s [] (s, none) :=
  ⟨rfl, h, fun _ => ⟨by simp, by simp⟩⟩

theorem serOk_push {s₀ : Ser} {bytes : List Nat} {r : Ser × Option SerErr}
    (h : SerOk s₀ bytes r) (c : Nat) :
    SerOk s₀ (bytes ++ [c]) (sseq r (Ser.push · c)) := by
  obtain ⟨h₁, h₂, h₃⟩ := h
  rcases r with ⟨s, err⟩
  cases err with
  | some e => exact ⟨h₁, h₂, fun hc =>
      Option.noConfusion (show (some e : Option SerErr) = none from hc)⟩
  | none =>
    show SerOk s₀ (bytes ++ [c]) (s.push c)
    obtain ⟨hw, hcl⟩ := h₃ rfl
    by_cases hlt : s.currentLength < s.buf.length
    · obtain ⟨p₁, p₂, p₃⟩ := pushUnchecked_spec s c hlt
      rw [show s.push c = (s.pushUnchecked c, none) from by
        unfold Ser.push; rw [if_pos hlt]]
      refine ⟨p₁.trans h₁, by rw [p₂, p₁]; omega, fun _ => ⟨?_, ?_⟩⟩
      · rw [p₃, hw, List.append_assoc]
      · rw [p₂, hcl]
        simp only [List.length_append, List.length_cons, List.length_nil]
        omega
    · rw [show s.push c = (s, some .BufferFull) from by
        unfold Ser.push; rw [if_neg hlt]]
      exact ⟨h₁, h₂, fun hc => by simp at hc⟩

theorem serOk_extend {s₀ : Ser} {bytes : List Nat} {r : Ser × Option SerErr}
    (h : SerOk s₀ bytes r) (other : List Nat) :
    SerOk s₀ (bytes ++ other) (sseq r (Ser.extendFromSlice · other)) := by
  obtain ⟨h₁, h₂, h₃⟩ := h
  rcases r with ⟨s, err⟩
  cases err with
  | some e => exact ⟨h₁, h₂, fun hc =>
      Option.noConfusion (show (some e : Option SerErr) = none from hc)⟩
  | none =>
    show SerOk s₀ (bytes ++ other) (s.extendFromSlice other)
    obtain ⟨hw, hcl⟩ := h₃ rfl
    by_cases hfit : s.currentLength + other.length > s.buf.length
    · rw [show s.extendFromSlice other = (s, some .BufferFull) from by
        unfold Ser.extendFromSlice; rw [if_pos hfit]]
      exact ⟨h₁, h₂, fun hc => by simp at hc⟩
    · obtain ⟨p₁, p₂, p₃⟩ := foldl_pushUnchecked_spec other s (by omega)
      rw [show s.extendFromSlice other = (other.foldl Ser.pushUnchecked s, none) from by
        unfold Ser.extendFromSlice; rw [if_neg hfit]]
      refine ⟨p₁.trans h₁, by rw [p₂, p₁]; omega, fun _ => ⟨?_, ?_⟩⟩
      · rw [p₃, hw, List.append_assoc]
      · rw [p₂, hcl]
        simp only [List.length_append]
        omega

theorem serOk_comp {s₀ s₁ : Ser} {b₁ b₂ : List Nat} {r : Ser × Option SerErr}
    (h1 : SerOk s₀ b₁ (s₁, none)) (h2 : SerOk s₁ b₂ r) :
    SerOk s₀ (b₁ ++ b₂) r := by
  obtain ⟨a₁, a₂, a₃⟩ := h1
  obtain ⟨c₁, c₂, c₃⟩ := h2
  obtain ⟨hw1, hc1⟩ := a₃ rfl
  refine ⟨c₁.trans a₁, c₂, fun hc => ?_⟩
  obtain ⟨hw2, hc2⟩ := c₃ hc
  refine ⟨by rw [hw2, hw1, List.append_assoc], ?_⟩
  rw [hc2, hc1]
  simp only [List.length_append]
  omega

theorem serializeStrChar_ok (s : Ser) (c : Nat) (h : s.currentLength ≤ s.buf.length) :
    SerOk s (escapeChar c) (serializeStrChar s c) := by
  have hbase := serOk_base s h
  unfold serializeStrChar escapeChar
  by_cases h92 : c = 92
  · rw [if_pos h92, if_pos h92]
    exact serOk_push (serOk_push hbase 92) 92
  rw [if_neg h92, if_neg h92]
  by_cases h34 : c = 34
  · rw [if_pos h34, if_pos h34]
    exact serOk_push (serOk_push hbase 92) 34
  rw [if_neg h34, if_neg h34]
  by_cases h8 : c = 8
  · rw [if_pos h8, if_pos h8]
    exact serOk_push (serOk_push hbase 92) 98
  rw [if_neg h8, if_neg h8]
  by_cases h9 : c = 9
  · rw [if_pos h9, if_pos h9]
    exact serOk_push (serOk_push hbase 92) 116
  rw [if_neg h9, if_neg h9]
  by_cases h10 : c = 10
  · rw [if_pos h10, if_pos h10]
    exact serOk_push (serOk_push hbase 92) 110
  rw [if_neg h10, if_neg h10]
  by_cases h12 : c = 12
  · rw [if_pos h12, if_pos h12]
    exact serOk_push (serOk_push hbase 92) 102
  rw [if_neg h12, if_neg h12]
  by_cases h13 : c = 13
  · rw [if_pos h13, if_pos h13]
    exact serOk_push (serOk_push hbase 92) 114
  rw [if_neg h13, if_neg h13]
  by_cases h1f : c ≤ 0x1F
  · rw [if_pos h1f, if_pos h1f]
    simp only [← sseq_assoc]
    exact serOk_push (serOk_push (serOk_push (serOk_push (serOk_push
      (serOk_push hbase 92) 117) 48) 48) (hexPair c).1) (hexPair c).2
  · rw [if_neg h1f, if_neg h1f]
    exact serOk_extend hbase (utf8Encode c)

theorem serializeStrChars_ok :
    ∀ (cs : List Nat) (s : Ser), s.currentLength ≤ s.buf.length →
      SerOk s (escapeBytes cs) (serializeStrChars s cs) := by
  intro cs
  induction cs with
  | nil => intro s h; exact serOk_base s h
  | cons c cs ih =>
    intro s h
    have hc := serializeStrChar_ok s c h
    show SerOk s (escapeChar c ++ escapeBytes cs)
      (sseq (serializeStrChar s c) (serializeStrChars · cs))
    rcases hr : serializeStrChar s c with ⟨s₁, err⟩
    rw [hr] at hc
    cases err with
    | some e =>
      obtain ⟨h₁, h₂, _⟩ := hc
      exact ⟨h₁, h₂, fun hcn =>
        Option.noConfusion (show (some e : Option SerErr) = none from hcn)⟩
    | none =>
      show SerOk s (escapeChar c ++ escapeBytes cs) (serializeStrChars s₁ cs)
      exact serOk_comp hc (ih s₁ hc.2.1)

theorem serializeStr_ok (s : Ser) (v : List Nat)
    (h : s.currentLength ≤ s.buf.length) :
    SerOk s ([34] ++ escapeBytes v ++ [34]) (serializeStr s v) := by
  unfold serializeStr
  have h0 : SerOk s [34] (s.push 34) := serOk_push (serOk_base s h) 34
  rcases hr : s.push 34 with ⟨s₁, err⟩
  rw [hr] at h0
  cases err with
  | some e =>
    obtain ⟨h₁, h₂, _⟩ := h0
    exact ⟨h₁, h₂, fun hcn =>
      Option.noConfusion (show (some e : Option SerErr) = none from hcn)⟩
  | none =>
    show SerOk s ([34] ++ escapeBytes v ++ [34])
      (sseq (serializeStrChars s₁ v) (Ser.push · 34))
    have hch := serializeStrChars_ok v s₁ h0.2.1
    exact serOk_push (serOk_comp h0 hch) 34

/-! ### C3: the fragment iterator inverts the escaping -/

theorem hexVal_hex4bit (x : Nat) (hx : x < 16) : hexVal (hex4bit x) = some x := by
  unfold hexVal hex4bit
  by_cases h9 : x ≤ 9
  · rw [if_pos h9, if_pos (⟨by omega, by omega⟩ : 48 ≤ 48 + x ∧ 48 + x ≤ 57)]
    congr 1
    omega
  · rw [if_neg h9,
      if_neg (by omega : ¬ (48 ≤ 65 + (x - 10) ∧ 65 + (x - 10) ≤ 57)),
      if_pos (⟨by omega, by omega⟩ : 65 ≤ 65 + (x - 10) ∧ 65 + (x - 10) ≤ 70)]
    congr 1
    omega

theorem charFromU32_small (c : Nat) (hc : c ≤ 0x1F) : charFromU32 c = some c := by
  unfold charFromU32
  rw [if_pos (Or.inl (by omega))]

theorem fromStrRadix16_hex (c : Nat) (hc : c ≤ 0x1F) :
    fromStrRadix16 [48, 48, (hexPair c).1, (hexPair c).2] = some c := by
  have h1 : hexVal (hexPair c).1 = some (c / 16) := hexVal_hex4bit (c / 16) (by omega)
  have h2 : hexVal (hexPair c).2 = some (c % 16) := hexVal_hex4bit (c % 16) (by omega)
  show (if ([48, 48, (hexPair c).1, (hexPair c).2] : List Nat).isEmpty then none
      else ([48, 48, (hexPair c).1, (hexPair c).2] : List Nat).foldlM
        (fun acc c => (hexVal c).map (fun d => acc * 16 + d)) 0) = some c
  rw [if_neg (by simp)]
  show ((hexVal (hexPair c).1).map (fun d => 0 * 16 + d)).bind
      (fun acc => ((hexVal (hexPair c).2).map (fun d => acc * 16 + d)).bind
        (fun acc => some acc)) = some c
  rw [h1]
  show ((hexVal (hexPair c).2).map
      (fun d => (0 * 16 + c / 16) * 16 + d)).bind (fun acc => some acc) = some c
  rw [h2]
  show some ((0 * 16 + c / 16) * 16 + c % 16) = some c
  congr 1
  omega

theorem unescapeNextFragment_notbs (c : Nat) (hc : ¬ c = 92) (r : List Nat) :
    unescapeNextFragment (c :: r) =
      .ok (.NotEscaped ((c :: r).takeWhile (· ≠ 92)),
        (c :: r).dropWhile (· ≠ 92)) := by
  unfold unescapeNextFragment
  split
  · rename_i heq
    injection heq with h1 h2
    exact absurd (by omega : c = 92) hc
  · rfl

set_option maxHeartbeats 1000000 in
theorem unescapeNextFragment_progress :
    ∀ (s : List Nat) (f : Fragment) (r : List Nat), s ≠ [] →
      unescapeNextFragment s = .ok (f, r) → r.length < s.length := by
  intro s f r hne h
  rcases s with _ | ⟨c, t⟩
  · exact absurd rfl hne
  by_cases hc : c = 92
  · subst hc
    replace h : (match t with
      | [] => (.error .InvalidEscapeSequence : Except UnescapeErr (Fragment × List Nat))
      | e :: rest =>
        if e = 34 then .ok (.Escaped 34, rest)
        else if e = 92 then .ok (.Escaped 92, rest)
        else if e = 47 then .ok (.Escaped 47, rest)
        else if e = 98 then .ok (.Escaped 8, rest)
        else if e = 102 then .ok (.Escaped 12, rest)
        else if e = 110 then .ok (.Escaped 10, rest)
        else if e = 114 then .ok (.Escaped 13, rest)
        else if e = 116 then .ok (.Escaped 9, rest)
        else if e = 117 then
          if 4 ≤ rest.length then
            match (fromStrRadix16 (rest.take 4)).bind charFromU32 with
            | some cc => .ok (.Escaped cc, rest.drop 4)
            | none => .error .InvalidEscapeSequence
          else .error .InvalidEscapeSequence
        else .error .InvalidEscapeSequence) = .ok (f, r) := h
    cases t with
    | nil => exact Except.noConfusion h
    | cons e rest =>
      replace h : (if e = 34 then
          (.ok (.Escaped 34, rest) : Except UnescapeErr (Fragment × List Nat))
        else if e = 92 then .ok (.Escaped 92, rest)
        else if e = 47 then .ok (.Escaped 47, rest)
        else if e = 98 then .ok (.Escaped 8, rest)
        else if e = 102 then .ok (.Escaped 12, rest)
        else if e = 110 then .ok (.Escaped 10, rest)
        else if e = 114 then .ok (.Escaped 13, rest)
        else if e = 116 then .ok (.Escaped 9, rest)
        else if e = 117 then
          if 4 ≤ rest.length then
            match (fromStrRadix16 (rest.take 4)).bind charFromU32 with
            | some cc => .ok (.Escaped cc, rest.drop 4)
            | none => .error .InvalidEscapeSequence
          else .error .InvalidEscapeSequence
        else .error .InvalidEscapeSequence) = .ok (f, r) := h
      split_ifs at h
      · injection h with h'
        injection h' with hf hr
        subst hr
        simp only [List.length_cons]
        omega
      · injection h with h'
        injection h' with hf hr
        subst hr
        simp only [List.length_cons]
        omega
      · injection h with h'
        injection h' with hf hr
        subst hr
        simp only [List.length_cons]
        omega
      · injection h with h'
        injection h' with hf hr
        subst hr
        simp only [List.length_cons]
        omega
      · injection h with h'
        injection h' with hf hr
        subst hr
        simp only [List.length_cons]
        omega
      · injection h with h'
        injection h' with hf hr
        subst hr
        simp only [List.length_cons]
        omega
      · injection h with h'
        injection h' with hf hr
        subst hr
        simp only [List.length_cons]
        omega
      · injection h with h'
        injection h' with hf hr
        subst hr
        simp only [List.length_cons]
        omega
      · cases hm : (fromStrRadix16 (rest.take 4)).bind charFromU32 with
        | none =>
          rw [hm] at h
          exact Except.noConfusion h
        | some cc =>
          rw [hm] at h
          replace h : Except.ok ((Fragment.Escaped cc, rest.drop 4)) = .ok (f, r) := h
          injection h with h'
          injection h' with hf hr
          subst hr
          simp only [List.length_drop, List.length_cons]
          omega
  · rw [unescapeNextFragment_notbs c hc t] at h
    injection h with h'
    injection h' with hf hr
    subst hr
    have hd : ((c :: t).dropWhile (· ≠ 92)).length ≤ t.length := by
      rw [List.dropWhile_cons, if_pos (by simp [hc])]
      exact (List.dropWhile_sublist _).length_le
    simp only [List.length_cons]
    omega

theorem unescapeAllF_enough :
    ∀ (fuel₁ fuel₂ : Nat) (s : List Nat), s.length < fuel₁ → s.length < fuel₂ →
      unescapeAllF fuel₁ s = unescapeAllF fuel₂ s := by
  intro fuel₁
  induction fuel₁ with
  | zero => intro fuel₂ s h₁ h₂; omega
  | succ a ih =>
    intro fuel₂ s h₁ h₂
    cases fuel₂ with
    | zero => omega
    | succ b =>
      simp only [unescapeAllF]
      by_cases hs : s.isEmpty
      · rw [if_pos hs, if_pos hs]
      · rw [if_neg hs, if_neg hs]
        cases hm : unescapeNextFragment s with
        | error e => rfl
        | ok p =>
          rcases p with ⟨frag, rest⟩
          have hlt : rest.length < s.length :=
            unescapeNextFragment_progress s frag rest
              (fun h0 => hs (by simp [h0])) hm
          cases frag with
          | NotEscaped fr =>
            show (unescapeAllF a rest).map (fr ++ ·) =
              (unescapeAllF b rest).map (fr ++ ·)
            rw [ih b rest (by omega) (by omega)]
          | Escaped cc =>
            show (unescapeAllF a rest).map (cc :: ·) =
              (unescapeAllF b rest).map (cc :: ·)
            rw [ih b rest (by omega) (by omega)]

theorem unescapeAll_step_not (s : List Nat) (hne : s ≠ []) (fr : List Nat)
    (r : List Nat) (h : unescapeNextFragment s = .ok (.NotEscaped fr, r)) :
    unescapeAll s = (unescapeAll r).map (fr ++ ·) := by
  have hlt := unescapeNextFragment_progress s _ r hne h
  show unescapeAllF (s.length + 1) s = _
  simp only [unescapeAllF]
  rw [if_neg (show ¬ s.isEmpty = true by simp [hne]), h]
  show (unescapeAllF s.length r).map (fr ++ ·) = (unescapeAll r).map (fr ++ ·)
  rw [unescapeAllF_enough s.length (r.length + 1) r (by omega) (by omega)]
  rfl

theorem unescapeAll_step_esc (s : List Nat) (hne : s ≠ []) (cc : Nat)
    (r : List Nat) (h : unescapeNextFragment s = .ok (.Escaped cc, r)) :
    unescapeAll s = (unescapeAll r).map (cc :: ·) := by
  have hlt := unescapeNextFragment_progress s _ r hne h
  show unescapeAllF (s.length + 1) s = _
  simp only [unescapeAllF]
  rw [if_neg (show ¬ s.isEmpty = true by simp [hne]), h]
  show (unescapeAllF s.length r).map (cc :: ·) = (unescapeAll r).map (cc :: ·)
  rw [unescapeAllF_enough s.length (r.length + 1) r (by omega) (by omega)]
  rfl

theorem unescapeAll_cons_verbatim (c : Nat) (hc : ¬ c = 92) (s : List Nat) :
    unescapeAll (c :: s) = (unescapeAll s).map (c :: ·) := by
  rw [unescapeAll_step_not (c :: s) (by simp) _ _ (unescapeNextFragment_notbs c hc s)]
  rw [List.takeWhile_cons, List.dropWhile_cons,
    if_pos (by simp [hc]), if_pos (by simp [hc])]
  cases s with
  | nil => rfl
  | cons d t =>
    by_cases hd : d = 92
    · subst hd
      rw [List.takeWhile_cons, List.dropWhile_cons, if_neg (by simp), if_neg (by simp)]
      rfl
    · rw [unescapeAll_step_not (d :: t) (by simp) _ _ (unescapeNextFragment_notbs d hd t)]
      rcases he : unescapeAll ((d :: t).dropWhile (· ≠ 92)) with e | val
      · rfl
      · rfl

theorem unescape_control (c : Nat) (hc : c ≤ 0x1F) (r : List Nat) :
    unescapeNextFragment ([92, 117, 48, 48, (hexPair c).1, (hexPair c).2] ++ r) =
      .ok (.Escaped c, r) := by
  show (if (4 : Nat) ≤ (([48, 48, (hexPair c).1, (hexPair c).2] : List Nat) ++ r).length then
      match (fromStrRadix16 ((([48, 48, (hexPair c).1, (hexPair c).2] : List Nat) ++ r).take 4)).bind
          charFromU32 with
      | some cc => .ok (.Escaped cc,
          (([48, 48, (hexPair c).1, (hexPair c).2] : List Nat) ++ r).drop 4)
      | none => .error .InvalidEscapeSequence
    else (.error .InvalidEscapeSequence : Except UnescapeErr (Fragment × List Nat))) = _
  rw [if_pos (by simp)]
  have htake : (([48, 48, (hexPair c).1, (hexPair c).2] : List Nat) ++ r).take 4 =
      [48, 48, (hexPair c).1, (hexPair c).2] := by simp
  have hdrop : (([48, 48, (hexPair c).1, (hexPair c).2] : List Nat) ++ r).drop 4 = r := by
    simp
  rw [htake, hdrop, fromStrRadix16_hex c hc]
  show (match charFromU32 c with
    | some cc => (.ok (.Escaped cc, r) : Except UnescapeErr (Fragment × List Nat))
    | none => .error .InvalidEscapeSequence) = _
  rw [charFromU32_small c hc]

theorem unescape_escapeSpans : ∀ v : List Nat, unescapeAll (escapeSpans v) = .ok v := by
  intro v
  induction v with
  | nil => rfl
  | cons c v ih =>
    show unescapeAll (escapeCharsView c ++ escapeSpans v) = .ok (c :: v)
    unfold escapeCharsView
    by_cases h92 : c = 92
    · rw [if_pos h92]
      subst h92
      rw [show ((([92, 92] : List Nat)) ++ escapeSpans v) =
        92 :: 92 :: escapeSpans v from rfl]
      rw [unescapeAll_step_esc _ (by simp) _ _
        (show unescapeNextFragment (92 :: 92 :: escapeSpans v) =
          .ok (.Escaped 92, escapeSpans v) from rfl), ih]
      rfl
    rw [if_neg h92]
    by_cases h34 : c = 34
    · rw [if_pos h34]
      subst h34
      rw [show ((([92, 34] : List Nat)) ++ escapeSpans v) =
        92 :: 34 :: escapeSpans v from rfl]
      rw [unescapeAll_step_esc _ (by simp) _ _
        (show unescapeNextFragment (92 :: 34 :: escapeSpans v) =
          .ok (.Escaped 34, escapeSpans v) from rfl), ih]
      rfl
    rw [if_neg h34]
    by_cases h8 : c = 8
    · rw [if_pos h8]
      subst h8
      rw [show ((([92, 98] : List Nat)) ++ escapeSpans v) =
        92 :: 98 :: escapeSpans v from rfl]
      rw [unescapeAll_step_esc _ (by simp) _ _
        (show unescapeNextFragment (92 :: 98 :: escapeSpans v) =
          .ok (.Escaped 8, escapeSpans v) from rfl), ih]
      rfl
    rw [if_neg h8]
    by_cases h9 : c = 9
    · rw [if_pos h9]
      subst h9
      rw [show ((([92, 116] : List Nat)) ++ escapeSpans v) =
        92 :: 116 :: escapeSpans v from rfl]
      rw [unescapeAll_step_esc _ (by simp) _ _
        (show unescapeNextFragment (92 :: 116 :: escapeSpans v) =
          .ok (.Escaped 9, escapeSpans v) from rfl), ih]
      rfl
    rw [if_neg h9]
    by_cases h10 : c = 10
    · rw [if_pos h10]
      subst h10
      rw [show ((([92, 110] : List Nat)) ++ escapeSpans v) =
        92 :: 110 :: escapeSpans v from rfl]
      rw [unescapeAll_step_esc _ (by simp) _ _
        (show unescapeNextFragment (92 :: 110 :: escapeSpans v) =
          .ok (.Escaped 10, escapeSpans v) from rfl), ih]
      rfl
    rw [if_neg h10]
    by_cases h12 : c = 12
    · rw [if_pos h12]
      subst h12
      rw [show ((([92, 102] : List Nat)) ++ escapeSpans v) =
        92 :: 102 :: escapeSpans v from rfl]
      rw [unescapeAll_step_esc _ (by simp) _ _
        (show unescapeNextFragment (92 :: 102 :: escapeSpans v) =
          .ok (.Escaped 12, escapeSpans v) from rfl), ih]
      rfl
    rw [if_neg h12]
    by_cases h13 : c = 13
    · rw [if_pos h13]
      subst h13
      rw [show ((([92, 114] : List Nat)) ++ escapeSpans v) =
        92 :: 114 :: escapeSpans v from rfl]
      rw [unescapeAll_step_esc _ (by simp) _ _
        (show unescapeNextFragment (92 :: 114 :: escapeSpans v) =
          .ok (.Escaped 13, escapeSpans v) from rfl), ih]
      rfl
    rw [if_neg h13]
    by_cases h1f : c ≤ 0x1F
    · rw [if_pos h1f]
      rw [unescapeAll_step_esc _ (by simp) _ _ (unescape_control c h1f (escapeSpans v)), ih]
      rfl
    · rw [if_neg h1f]
      show unescapeAll (c :: escapeSpans v) = _
      rw [unescapeAll_cons_verbatim c h92 (escapeSpans v), ih]
      rfl

theorem escapeBytes_eq_spans :
    ∀ v : List Nat, (∀ c ∈ v, c ≤ 0x7F) → escapeBytes v = escapeSpans v := by
  intro v
  induction v with
  | nil => intro _; rfl
  | cons c cs ih =>
    intro h
    show escapeChar c ++ escapeBytes cs = escapeCharsView c ++ escapeSpans cs
    rw [ih (fun d hd => h d (List.mem_cons_of_mem c hd))]
    congr 1
    unfold escapeChar escapeCharsView
    have hc : c ≤ 0x7F := h c (List.mem_cons_self ..)
    by_cases h92 : c = 92
    · rw [if_pos h92, if_pos h92]
    rw [if_neg h92, if_neg h92]
    by_cases h34 : c = 34
    · rw [if_pos h34, if_pos h34]
    rw [if_neg h34, if_neg h34]
    by_cases h8 : c = 8
    · rw [if_pos h8, if_pos h8]
    rw [if_neg h8, if_neg h8]
    by_cases h9 : c = 9
    · rw [if_pos h9, if_pos h9]
    rw [if_neg h9, if_neg h9]
    by_cases h10 : c = 10
    · rw [if_pos h10, if_pos h10]
    rw [if_neg h10, if_neg h10]
    by_cases h12 : c = 12
    · rw [if_pos h12, if_pos h12]
    rw [if_neg h12, if_neg h12]
    by_cases h13 : c = 13
    · rw [if_pos h13, if_pos h13]
    rw [if_neg h13, if_neg h13]
    by_cases h1f : c ≤ 0x1F
    · rw [if_pos h1f, if_pos h1f]
    · rw [if_neg h1f, if_neg h1f]
      unfold utf8Encode
      rw [if_pos hc]

/-- C3: `serialize_str` writes exactly a quoted, escaped rendition of the
string: an opening quote, then for each character its escape run —
backslash and quote as two-character escapes, backspace/tab/newline/
formfeed/carriage-return as their short forms, every other control
character `U+0000`–`U+001F` as an uppercase-hex `\u00XX` escape, and
everything else verbatim UTF-8 — then a closing quote; and concatenating
the fragments of the escaped-string fragment iterator over the span
between the quotes reproduces the original string exactly (spans stated at
character level; for ASCII strings the byte and character spans coincide
literally). -/
theorem string_escape_roundtrip :
    (∀ (s : Ser) (v : List Nat), s.currentLength ≤ s.buf.length →
      (serializeStr s v).2 = none →
      (serializeStr s v).1.written = s.written ++ [34] ++ escapeBytes v ++ [34]) ∧
    (∀ v : List Nat, unescapeAll (escapeSpans v) = .ok v) ∧
    (∀ v : List Nat, (∀ c ∈ v, c ≤ 0x7F) → escapeBytes v = escapeSpans v) := by
  refine ⟨?_, unescape_escapeSpans, escapeBytes_eq_spans⟩
  intro s v h hnone
  have hw := ((serializeStr_ok s v h).2.2 hnone).1
  rw [hw]
  simp [List.append_assoc]

/-- C3 witness: the serializer output and the fragment-iterator round-trip
on `"a\tb\u{7}"`, whose escaped form mixes a short escape and a `\u00XX`
escape. -/
theorem string_escape_roundtrip_witness :
    (serializeStr (Ser.new 16) [97, 9, 98, 7]).1.written =
      [34, 97, 92, 116, 98, 92, 117, 48, 48, 48, 55, 34] ∧
    unescapeAll (escapeSpans [97, 9, 98, 7]) = .ok [97, 9, 98, 7] ∧
    escapeBytes [97, 9, 98, 7] = escapeSpans [97, 9, 98, 7] := by
  refine ⟨?_, string_escape_roundtrip.2.1 [97, 9, 98, 7],
    string_escape_roundtrip.2.2 [97, 9, 98, 7] (by decide)⟩
  have h := string_escape_roundtrip.1 (Ser.new 16) [97, 9, 98, 7]
    (by decide) (by decide)
  exact h.trans (by decide)

end SerdeJsonCore
